import Mathlib

/-!
# SM4 block cipher and SM4-GCM: a shallow embedding of the C sources

The definitions below follow `src/modern_inst/sm4_modern_inst.c` (table based
SM4, built without `HAVE_GFNI`) and `src/gcm/sm4_gcm.c` (GCM on top of SM4).

Conventions used by the embedding.

* `uint8_t` and `uint32_t` values are natural numbers; every place where the C
  code truncates (a cast to `uint8_t`, a shift of a `uint32_t`, an increment of
  a byte) carries an explicit `% 256` or `% 4294967296`.
* A buffer is a `List Nat`; a read `b[i]` is `b.getD i 0` and a write
  `b[i] = v` is `b.set i v`.
* A `for` loop with a fixed trip count is a `List.foldl` over `List.range`; a
  loop bounded by a length is a structurally recursive function.
* A pointer and its length argument (`in`/`len`, `iv`/`iv_len`, `aad`/`aad_len`,
  `tag`/`tag_len`) are one list, the length being the length of the list.
-/

namespace SM4

/-! ## Constants -/

/-- The table `SM4_SBOX` of the source, entry by entry. -/
def SM4_SBOX : List Nat :=
  [
   0xd6, 0x90, 0xe9, 0xfe, 0xcc, 0xe1, 0x3d, 0xb7, 0x16, 0xb6, 0x14, 0xc2, 0x28, 0xfb, 0x2c, 0x05,
   0x2b, 0x67, 0x9a, 0x76, 0x2a, 0xbe, 0x04, 0xc3, 0xaa, 0x44, 0x13, 0x26, 0x49, 0x86, 0x06, 0x99,
   0x9c, 0x42, 0x50, 0xf4, 0x91, 0xef, 0x98, 0x7a, 0x33, 0x54, 0x0b, 0x43, 0xed, 0xcf, 0xac, 0x62,
   0xe4, 0xb3, 0x1c, 0xa9, 0xc9, 0x08, 0xe8, 0x95, 0x80, 0xdf, 0x94, 0xfa, 0x75, 0x8f, 0x3f, 0xa6,
   0x47, 0x07, 0xa7, 0xfc, 0xf3, 0x73, 0x17, 0xba, 0x83, 0x59, 0x3c, 0x19, 0xe6, 0x85, 0x4f, 0xa8,
   0x68, 0x6b, 0x81, 0xb2, 0x71, 0x64, 0xda, 0x8b, 0xf8, 0xeb, 0x0f, 0x4b, 0x70, 0x56, 0x9d, 0x35,
   0x1e, 0x24, 0x0e, 0x5e, 0x63, 0x58, 0xd1, 0xa2, 0x25, 0x22, 0x7c, 0x3b, 0x01, 0x21, 0x78, 0x87,
   0xd4, 0x00, 0x46, 0x57, 0x9f, 0xd3, 0x27, 0x52, 0x4c, 0x36, 0x02, 0xe7, 0xa0, 0xc4, 0xc8, 0x9e,
   0xea, 0xbf, 0x8a, 0xd2, 0x40, 0xc7, 0x38, 0xb5, 0xa3, 0xf7, 0xf2, 0xce, 0xf9, 0x61, 0x15, 0xa1,
   0xe0, 0xae, 0x5d, 0xa4, 0x9b, 0x34, 0x1a, 0x55, 0xad, 0x93, 0x32, 0x30, 0xf5, 0x8c, 0xb1, 0xe3,
   0x1d, 0xf6, 0xe2, 0x2e, 0x82, 0x66, 0xca, 0x60, 0xc0, 0x29, 0x23, 0xab, 0x0d, 0x53, 0x4e, 0x6f,
   0xd5, 0xdb, 0x37, 0x45, 0xde, 0xfd, 0x8e, 0x2f, 0x03, 0xff, 0x6a, 0x72, 0x6d, 0x6c, 0x5b, 0x51,
   0x8d, 0x1b, 0xaf, 0x92, 0xbb, 0xdd, 0xbc, 0x7f, 0x11, 0xd9, 0x5c, 0x41, 0x1f, 0x10, 0x5a, 0xd8,
   0x0a, 0xc1, 0x31, 0x88, 0xa5, 0xcd, 0x7b, 0xbd, 0x2d, 0x74, 0xd0, 0x12, 0xb8, 0xe5, 0xb4, 0xb0,
   0x89, 0x69, 0x97, 0x4a, 0x0c, 0x96, 0x77, 0x7e, 0x65, 0xb9, 0xf1, 0x09, 0xc5, 0x6e, 0xc6, 0x84,
   0x18, 0xf0, 0x7d, 0xec, 0x3a, 0xdc, 0x4d, 0x20, 0x79, 0xee, 0x5f, 0x3e, 0xd7, 0xcb, 0x39, 0x48]

/-- The array `SYSTEM_PARAMETER` of the source. -/
def SYSTEM_PARAMETER : List Nat :=
  [0x00070e15, 0x1c232a31, 0x383f464d, 0x545b6269]

/-- The array `FIXED_PARAMETER` of the source. -/
def FIXED_PARAMETER : List Nat :=
  [
   0x00070e15, 0x1c232a31, 0x383f464d, 0x545b6269,
   0x70777e85, 0x8c939aa1, 0xa8afb6bd, 0xc4cbd2d9,
   0xe0e7eef5, 0xfc030a11, 0x181f262d, 0x343b4249,
   0x50575e65, 0x6c737a81, 0x888f969d, 0xa4abb2b9,
   0xc0c7ced5, 0xdce3eaf1, 0xf8ff060d, 0x141b2229,
   0x30373e45, 0x4c535a61, 0x686f767d, 0x848b9299,
   0xa0a7aeb5, 0xbcc3cad1, 0xd8dfe6ed, 0xf4fb0209,
   0x10171e25, 0x2c333a41, 0x484f565d, 0x646b7279]

/-! ## Word helpers -/

/-- The function `rotl32`: `(x << n) | (x >> (32 - n))` on `uint32_t`. -/
def rotl32 (x n : Nat) : Nat :=
  ((x <<< n) ||| (x >>> (32 - n))) % 4294967296

/-- The function `load_u32_be`, reading the four bytes at `b + off`. -/
def load_u32_be (b : List Nat) (off : Nat) : Nat :=
  (((b.getD off 0) <<< 24) ||| ((b.getD (off + 1) 0) <<< 16) |||
    ((b.getD (off + 2) 0) <<< 8) ||| (b.getD (off + 3) 0)) % 4294967296

/-- The function `store_u32_be`, as the four bytes it writes. -/
def store_u32_be (v : Nat) : List Nat :=
  [(v >>> 24) % 256, (v >>> 16) % 256, (v >>> 8) % 256, v % 256]

/-- The function `sm4_l_transform`. -/
def sm4_l_transform (a : Nat) : Nat :=
  a ^^^ rotl32 a 2 ^^^ rotl32 a 10 ^^^ rotl32 a 18 ^^^ rotl32 a 24

/-- The function `sm4_l_prime_transform`. -/
def sm4_l_prime_transform (a : Nat) : Nat :=
  a ^^^ rotl32 a 13 ^^^ rotl32 a 23

/-- The table `T_TABLE` after `init_t_tables`: entry `i` is
`sm4_l_transform ((uint32_t)SM4_SBOX[i] << 24)`. -/
def T_TABLE : List Nat :=
  SM4_SBOX.map (fun s => sm4_l_transform ((s <<< 24) % 4294967296))

/-- The function `sm4_t_transform_table`. -/
def sm4_t_transform_table (a : Nat) : Nat :=
  let a0 := (a >>> 24) % 256
  let a1 := (a >>> 16) % 256
  let a2 := (a >>> 8) % 256
  let a3 := a % 256
  T_TABLE.getD a0 0 ^^^ rotl32 (T_TABLE.getD a1 0) 8 ^^^
    rotl32 (T_TABLE.getD a2 0) 16 ^^^ rotl32 (T_TABLE.getD a3 0) 24

/-- The function `sm4_t_prime_transform`. -/
def sm4_t_prime_transform (a : Nat) : Nat :=
  let a0 := SM4_SBOX.getD ((a >>> 24) % 256) 0
  let a1 := SM4_SBOX.getD ((a >>> 16) % 256) 0
  let a2 := SM4_SBOX.getD ((a >>> 8) % 256) 0
  let a3 := SM4_SBOX.getD (a % 256) 0
  sm4_l_prime_transform
    (((a0 <<< 24) ||| (a1 <<< 16) ||| (a2 <<< 8) ||| a3) % 4294967296)

/-! ## Key schedule -/

/-- The struct `SM4_Context`: the 32 round keys. -/
structure SM4_Context where
  rk : List Nat
deriving DecidableEq

/-- One pass of the key expansion loop of `sm4_set_key`, on the pair of arrays
`(K, ctx->rk)`: `K[i+4] = K[i] ^ T'(K[i+1] ^ K[i+2] ^ K[i+3] ^ FIXED_PARAMETER[i])`
and `ctx->rk[i] = K[i+4]`. -/
def sm4_set_key_step (s : List Nat × List Nat) (i : Nat) : List Nat × List Nat :=
  let v := s.1.getD i 0 ^^^
    sm4_t_prime_transform
      (s.1.getD (i + 1) 0 ^^^ s.1.getD (i + 2) 0 ^^^ s.1.getD (i + 3) 0 ^^^
        FIXED_PARAMETER.getD i 0)
  (s.1.set (i + 4) v, s.2.set i v)

/-- The array `K` of `sm4_set_key` before the expansion loop: the four key
words xored with `SYSTEM_PARAMETER`, the other 32 slots not yet written. -/
def sm4_initial_K (key : List Nat) : List Nat :=
  [load_u32_be key 0 ^^^ SYSTEM_PARAMETER.getD 0 0,
   load_u32_be key 4 ^^^ SYSTEM_PARAMETER.getD 1 0,
   load_u32_be key 8 ^^^ SYSTEM_PARAMETER.getD 2 0,
   load_u32_be key 12 ^^^ SYSTEM_PARAMETER.getD 3 0] ++ List.replicate 32 0

/-- The arrays `(K, ctx->rk)` of `sm4_set_key` after the expansion loop. -/
def sm4_expand_key (key : List Nat) : List Nat × List Nat :=
  (List.range 32).foldl sm4_set_key_step (sm4_initial_K key, List.replicate 32 0)

/-- One pass of the swap loop of `sm4_set_key`:
`temp = rk[i]; rk[i] = rk[31 - i]; rk[31 - i] = temp`. -/
def sm4_swap_step (rk : List Nat) (i : Nat) : List Nat :=
  let temp := rk.getD i 0
  (rk.set i (rk.getD (31 - i) 0)).set (31 - i) temp

/-- The function `sm4_set_key`. -/
def sm4_set_key (key : List Nat) (is_encrypt : Nat) : SM4_Context :=
  let rk := (sm4_expand_key key).2
  if is_encrypt = 0 then ⟨(List.range 16).foldl sm4_swap_step rk⟩ else ⟨rk⟩

/-- The function `sm4_set_encrypt_key`. -/
def sm4_set_encrypt_key (key : List Nat) : SM4_Context :=
  sm4_set_key key 1

/-- The function `sm4_set_decrypt_key`. -/
def sm4_set_decrypt_key (key : List Nat) : SM4_Context :=
  sm4_set_key key 0

/-! ## Block transform -/

/-- One pass of the round loop of `sm4_encrypt_block` on the state
`(X[0], X[1], X[2], X[3])` with round key `k`. -/
def sm4_round (X : Nat × Nat × Nat × Nat) (k : Nat) : Nat × Nat × Nat × Nat :=
  let temp := sm4_t_transform_table (X.2.1 ^^^ X.2.2.1 ^^^ X.2.2.2 ^^^ k)
  (X.2.1, X.2.2.1, X.2.2.2, X.1 ^^^ temp)

/-- The function `sm4_encrypt_block` (table path, the one compiled when
`HAVE_GFNI` is not defined). -/
def sm4_encrypt_block (ctx : SM4_Context) (inp : List Nat) : List Nat :=
  let X0 := (load_u32_be inp 0, load_u32_be inp 4, load_u32_be inp 8, load_u32_be inp 12)
  let X := (List.range 32).foldl (fun X i => sm4_round X (ctx.rk.getD i 0)) X0
  store_u32_be X.2.2.2 ++ store_u32_be X.2.2.1 ++ store_u32_be X.2.1 ++ store_u32_be X.1

/-- The function `sm4_decrypt_block`: a call of `sm4_encrypt_block`. -/
def sm4_decrypt_block (ctx : SM4_Context) (inp : List Nat) : List Nat :=
  sm4_encrypt_block ctx inp

/-! ## ECB and CBC over whole buffers -/

/-- The function `sm4_encrypt_blocks`, as the bytes it writes to `out`: for each of the
`blocks` passes, `sm4_encrypt_block(ctx, out, in)`, then `in += 16; out += 16`. -/
def sm4_encrypt_blocks (ctx : SM4_Context) : Nat → List Nat → List Nat
  | 0, _ => []
  | blocks + 1, inp => sm4_encrypt_block ctx inp ++ sm4_encrypt_blocks ctx blocks (inp.drop 16)

/-- The function `sm4_decrypt_blocks`, as the bytes it writes to `out`. -/
def sm4_decrypt_blocks (ctx : SM4_Context) : Nat → List Nat → List Nat
  | 0, _ => []
  | blocks + 1, inp => sm4_decrypt_block ctx inp ++ sm4_decrypt_blocks ctx blocks (inp.drop 16)

/-- The function `sm4_ecb_encrypt`: the return value and the bytes written to `out`
(none when the length check fails). -/
def sm4_ecb_encrypt (ctx : SM4_Context) (inp : List Nat) : Int × List Nat :=
  if inp.length % 16 ≠ 0 then (-1, [])
  else (0, sm4_encrypt_blocks ctx (inp.length / 16) inp)

/-- The function `sm4_ecb_decrypt`: the return value and the bytes written to `out`
(none when the length check fails). -/
def sm4_ecb_decrypt (ctx : SM4_Context) (inp : List Nat) : Int × List Nat :=
  if inp.length % 16 ≠ 0 then (-1, [])
  else (0, sm4_decrypt_blocks ctx (inp.length / 16) inp)

/-- The loop of `sm4_cbc_encrypt` on the input from offset `i` on (`inp` is `in + i`, so
`i < len` reads `0 < inp.length`) with the current content of `iv`: xor 16 input bytes
with `iv` into `tmp`, encrypt `tmp` to `out + i`, copy these 16 bytes to `iv`. The result
is the bytes written to `out` and the final content of `iv`. The first argument bounds the
number of passes. -/
def sm4_cbc_encrypt_loop (ctx : SM4_Context) : Nat → List Nat → List Nat → List Nat × List Nat
  | 0, _, iv => ([], iv)
  | fuel + 1, inp, iv =>
    if 0 < inp.length then
      let tmp := (List.range 16).map (fun j => inp.getD j 0 ^^^ iv.getD j 0)
      let blk := sm4_encrypt_block ctx tmp
      let r := sm4_cbc_encrypt_loop ctx fuel (inp.drop 16) blk
      (blk ++ r.1, r.2)
    else ([], iv)

/-- The function `sm4_cbc_encrypt`: the return value, the bytes written to `out` and the
content of `iv` on return. When the length check passes the loop makes `len / 16` passes. -/
def sm4_cbc_encrypt (ctx : SM4_Context) (inp iv : List Nat) : Int × List Nat × List Nat :=
  if inp.length % 16 ≠ 0 then (-1, [], iv)
  else (0, sm4_cbc_encrypt_loop ctx (inp.length / 16) inp iv)

/-- The loop of `sm4_cbc_decrypt` on the input from offset `i` on with the current content
of `iv`: save 16 input bytes in `next_iv`, decrypt them to `tmp`, write `tmp` xor `iv` to
`out + i`, copy `next_iv` to `iv`. -/
def sm4_cbc_decrypt_loop (ctx : SM4_Context) : Nat → List Nat → List Nat → List Nat × List Nat
  | 0, _, iv => ([], iv)
  | fuel + 1, inp, iv =>
    if 0 < inp.length then
      let next_iv := (List.range 16).map (fun j => inp.getD j 0)
      let tmp := sm4_decrypt_block ctx inp
      let blk := (List.range 16).map (fun j => tmp.getD j 0 ^^^ iv.getD j 0)
      let r := sm4_cbc_decrypt_loop ctx fuel (inp.drop 16) next_iv
      (blk ++ r.1, r.2)
    else ([], iv)

/-- The function `sm4_cbc_decrypt`: the return value, the bytes written to `out` and the
content of `iv` on return. -/
def sm4_cbc_decrypt (ctx : SM4_Context) (inp iv : List Nat) : Int × List Nat × List Nat :=
  if inp.length % 16 ≠ 0 then (-1, [], iv)
  else (0, sm4_cbc_decrypt_loop ctx (inp.length / 16) inp iv)

/-! ## GF(2^128) multiplication and GHASH (`src/gcm/sm4_gcm.c`) -/

/-- The 16 bytes at `b + off`. -/
def block16 (b : List Nat) (off : Nat) : List Nat :=
  (List.range 16).map (fun j => b.getD (off + j) 0)

/-- The loop `for k in 0..15: z[k] ^= v[k]` of `gf128_mul`. -/
def gf128_xor_into (z v : List Nat) : List Nat :=
  (List.range 16).foldl (fun z k => z.set k (z.getD k 0 ^^^ v.getD k 0)) z

/-- The shift of `gf128_mul`: `mask = v[15] & 1`; for `k = 15` down to `1`,
`v[k] = (v[k] >> 1) | ((v[k-1] & 1) << 7)`; `v[0] >>= 1`; and `v[0] ^= 0xe1` when `mask`. -/
def gf128_shift (v : List Nat) : List Nat :=
  let mask := v.getD 15 0 &&& 1
  let v1 := (List.range 15).foldl
    (fun v t => v.set (15 - t)
      (((v.getD (15 - t) 0 >>> 1) ||| ((v.getD (15 - t - 1) 0 &&& 1) <<< 7)) % 256)) v
  let v2 := v1.set 0 (v1.getD 0 0 >>> 1)
  if mask ≠ 0 then v2.set 0 (v2.getD 0 0 ^^^ 0xe1) else v2

/-- The body of the inner loop of `gf128_mul` for bit `j` of `x[i]`, on the pair `(z, v)`. -/
def gf128_mul_bit (x : List Nat) (s : List Nat × List Nat) (i j : Nat) : List Nat × List Nat :=
  let mask := (x.getD i 0 >>> j) &&& 1
  let z := if mask ≠ 0 then gf128_xor_into s.1 s.2 else s.1
  (z, gf128_shift s.2)

/-- The function `gf128_mul`, as the 16 bytes it writes to `r`. -/
def gf128_mul (x y : List Nat) : List Nat :=
  ((List.range 16).foldl
    (fun s i => (List.range 8).foldl (fun s t => gf128_mul_bit x s i (7 - t)) s)
    (List.replicate 16 0, block16 y 0)).1

/-- The function `ghash`, as the 16 bytes it leaves in `output`. The loop
`for (i = 0; i < len; i += 16)` makes `(len + 15) / 16` passes, pass `b` at `i = 16 * b`. -/
def ghash (output h input : List Nat) (len : Nat) : List Nat :=
  (List.range ((len + 15) / 16)).foldl
    (fun tmp b =>
      gf128_mul
        ((List.range 16).foldl
          (fun t j => t.set j (t.getD j 0 ^^^ input.getD (16 * b + j) 0)) tmp) h)
    (block16 output 0)

/-- The loop of `increment_counter` from index `i` downwards, at most `fuel` bytes:
`if (++counter[i] != 0) break`. -/
def increment_counter_loop : Nat → Nat → List Nat → List Nat
  | 0, _, counter => counter
  | fuel + 1, i, counter =>
    let c := counter.set i ((counter.getD i 0 + 1) % 256)
    if c.getD i 0 ≠ 0 then c else increment_counter_loop fuel (i - 1) c

/-- The function `increment_counter`: the loop runs over `i = 15, 14, 13, 12`. -/
def increment_counter (counter : List Nat) : List Nat :=
  increment_counter_loop 4 15 counter

/-! ## The GCM session -/

/-- The struct `SM4_GCM_Context`. The field `buf` is left out: no function of
`sm4_gcm.c` reads or writes it. -/
structure SM4_GCM_Context where
  cipher_ctx : SM4_Context
  H : List Nat
  J0 : List Nat
  len_a : Nat
  len_c : Nat
  buf_len : Nat
  final_ghash : List Nat
deriving DecidableEq

/-- A 16-byte block that starts with the bytes of `b` (fewer than 16) and is zero after
them: `uint8_t last_block[16] = {0}; memcpy(last_block, b, remainder)`. -/
def zero_padded (b : List Nat) : List Nat :=
  b ++ List.replicate (16 - b.length) 0

/-- The eight bytes of a 64-bit value, most significant first. -/
def be64_bytes (v : Nat) : List Nat :=
  [(v >>> 56) % 256, (v >>> 48) % 256, (v >>> 40) % 256, (v >>> 32) % 256,
   (v >>> 24) % 256, (v >>> 16) % 256, (v >>> 8) % 256, v % 256]

/-- The value of `J0` computed by `sm4_gcm_init` when `iv_len` is not 12. -/
def sm4_gcm_init_J0_general (H iv : List Nat) : List Nat :=
  let full_blocks := iv.length / 16
  let remainder := iv.length % 16
  let tmp := (List.range full_blocks).foldl
    (fun tmp i => ghash tmp H (iv.drop (i * 16)) 16) (List.replicate 16 0)
  let tmp := if remainder ≠ 0 then ghash tmp H (zero_padded (iv.drop (full_blocks * 16))) 16
    else tmp
  let bit_len := (iv.length * 8) % 18446744073709551616
  let len_block := List.replicate 8 0 ++ be64_bytes bit_len
  ghash tmp H len_block 16

/-- The function `sm4_gcm_init`: the context it leaves (it always returns 0). -/
def sm4_gcm_init (key iv : List Nat) : SM4_GCM_Context :=
  let cipher_ctx := sm4_set_encrypt_key key
  let H := sm4_encrypt_block cipher_ctx (List.replicate 16 0)
  let J0 := if iv.length = 12 then iv.take 12 ++ [0, 0, 0, 1] else sm4_gcm_init_J0_general H iv
  { cipher_ctx := cipher_ctx, H := H, J0 := J0, len_a := 0, len_c := 0, buf_len := 0,
    final_ghash := List.replicate 16 0 }

/-- The function `sm4_gcm_aad`: the context it leaves (it always returns 0). -/
def sm4_gcm_aad (ctx : SM4_GCM_Context) (aad : List Nat) : SM4_GCM_Context :=
  let full_blocks := aad.length / 16
  let remainder := aad.length % 16
  let g := if full_blocks > 0 then ghash ctx.final_ghash ctx.H aad (full_blocks * 16)
    else ctx.final_ghash
  let g := if remainder ≠ 0 then ghash g ctx.H (zero_padded (aad.drop (full_blocks * 16))) 16
    else g
  { ctx with final_ghash := g, len_a := (ctx.len_a + aad.length) % 18446744073709551616 }

/-- The result of a data loop: the bytes written to `out`, the counter block, the GHASH
accumulator, and the input bytes not yet consumed. -/
structure GcmLoopState where
  out : List Nat
  counter : List Nat
  ghash_acc : List Nat
  rest : List Nat
deriving DecidableEq

/-- The loop over full blocks of `sm4_gcm_encrypt`, on the input from offset `i` on
(`inp` is `in + i`, so `i + 16 <= len` reads `16 ≤ inp.length`): while `i + 16 <= len`,
encrypt the counter, xor 16 input bytes with it, fold the 16 output bytes into GHASH,
increment the counter. The first argument bounds the number of passes. -/
def sm4_gcm_encrypt_loop (cipher_ctx : SM4_Context) (H : List Nat) :
    Nat → List Nat → List Nat → List Nat → GcmLoopState
  | 0, counter, g, inp => ⟨[], counter, g, inp⟩
  | fuel + 1, counter, g, inp =>
    if 16 ≤ inp.length then
      let encrypted_counter := sm4_encrypt_block cipher_ctx counter
      let blk := List.zipWith (fun a b => a ^^^ b) (inp.take 16) encrypted_counter
      let r := sm4_gcm_encrypt_loop cipher_ctx H fuel (increment_counter counter)
        (ghash g H blk 16) (inp.drop 16)
      ⟨blk ++ r.out, r.counter, r.ghash_acc, r.rest⟩
    else ⟨[], counter, g, inp⟩

/-- The function `sm4_gcm_encrypt`: the context it leaves and the `len` bytes it writes to
`out` (it always returns 0). The counter is a local copy of `J0`, incremented once before
the first block. The full-block loop is given `len / 16` passes, the number it makes
(`encrypt_loop_rest_lt`: it stops with fewer than 16 bytes left). -/
def sm4_gcm_encrypt (ctx : SM4_GCM_Context) (inp : List Nat) : SM4_GCM_Context × List Nat :=
  let counter := increment_counter (block16 ctx.J0 0)
  let r := sm4_gcm_encrypt_loop ctx.cipher_ctx ctx.H (inp.length / 16) counter
    ctx.final_ghash inp
  let len_c := (ctx.len_c + inp.length) % 18446744073709551616
  if 0 < r.rest.length then
    let encrypted_counter := sm4_encrypt_block ctx.cipher_ctx r.counter
    let last := List.zipWith (fun a b => a ^^^ b) r.rest encrypted_counter
    ({ ctx with final_ghash := ghash r.ghash_acc ctx.H (zero_padded last) 16, len_c := len_c },
      r.out ++ last)
  else ({ ctx with final_ghash := r.ghash_acc, len_c := len_c }, r.out)

/-- The loop over full blocks of `sm4_gcm_decrypt`: as in `sm4_gcm_encrypt`, except that
the 16 input bytes are folded into GHASH. -/
def sm4_gcm_decrypt_loop (cipher_ctx : SM4_Context) (H : List Nat) :
    Nat → List Nat → List Nat → List Nat → GcmLoopState
  | 0, counter, g, inp => ⟨[], counter, g, inp⟩
  | fuel + 1, counter, g, inp =>
    if 16 ≤ inp.length then
      let g1 := ghash g H (inp.take 16) 16
      let encrypted_counter := sm4_encrypt_block cipher_ctx counter
      let blk := List.zipWith (fun a b => a ^^^ b) (inp.take 16) encrypted_counter
      let r := sm4_gcm_decrypt_loop cipher_ctx H fuel (increment_counter counter) g1
        (inp.drop 16)
      ⟨blk ++ r.out, r.counter, r.ghash_acc, r.rest⟩
    else ⟨[], counter, g, inp⟩

/-- The function `sm4_gcm_decrypt`: the context it leaves and the `len` bytes it writes to
`out` (it always returns 0). -/
def sm4_gcm_decrypt (ctx : SM4_GCM_Context) (inp : List Nat) : SM4_GCM_Context × List Nat :=
  let counter := increment_counter (block16 ctx.J0 0)
  let r := sm4_gcm_decrypt_loop ctx.cipher_ctx ctx.H (inp.length / 16) counter
    ctx.final_ghash inp
  let len_c := (ctx.len_c + inp.length) % 18446744073709551616
  if 0 < r.rest.length then
    let g := ghash r.ghash_acc ctx.H (zero_padded r.rest) 16
    let encrypted_counter := sm4_encrypt_block ctx.cipher_ctx r.counter
    let last := List.zipWith (fun a b => a ^^^ b) r.rest encrypted_counter
    ({ ctx with final_ghash := g, len_c := len_c }, r.out ++ last)
  else ({ ctx with final_ghash := r.ghash_acc, len_c := len_c }, r.out)

/-- The 16 bytes of `auth_tag` in `sm4_gcm_finish` together with the GHASH accumulator the
call leaves: the length block is folded in, `J0` is encrypted, and the two are xored. -/
def sm4_gcm_finish_full (ctx : SM4_GCM_Context) : List Nat × List Nat :=
  let bit_len_a := (ctx.len_a * 8) % 18446744073709551616
  let bit_len_c := (ctx.len_c * 8) % 18446744073709551616
  let len_block := be64_bytes bit_len_a ++ be64_bytes bit_len_c
  let g := ghash ctx.final_ghash ctx.H len_block 16
  let auth_tag := sm4_encrypt_block ctx.cipher_ctx ctx.J0
  ((List.range 16).map (fun i => auth_tag.getD i 0 ^^^ g.getD i 0), g)

/-- The function `sm4_gcm_finish`: the context it leaves and the bytes it writes to `tag`,
`memcpy(tag, auth_tag, tag_len < 16 ? tag_len : 16)` (it always returns 0). -/
def sm4_gcm_finish (ctx : SM4_GCM_Context) (tag_len : Nat) : SM4_GCM_Context × List Nat :=
  let r := sm4_gcm_finish_full ctx
  ({ ctx with final_ghash := r.2 }, r.1.take (if tag_len < 16 then tag_len else 16))

/-- The function `sm4_gcm_encrypt_and_tag`: the return value, the bytes written to `out`
and the bytes written to `tag`. -/
def sm4_gcm_encrypt_and_tag (key iv aad inp : List Nat) (tag_len : Nat) :
    Int × List Nat × List Nat :=
  let ctx := sm4_gcm_init key iv
  let ctx := if aad.length > 0 then sm4_gcm_aad ctx aad else ctx
  let r := sm4_gcm_encrypt ctx inp
  let f := sm4_gcm_finish r.1 tag_len
  (0, r.2, f.2)

/-- The tag comparison loop of `sm4_gcm_decrypt_and_verify` from index `i` on, `fuel`
bytes left: `if (calculated_tag[i] != tag[i]) { result = -1; break; }`. -/
def tag_compare_loop (calculated_tag tag : List Nat) : Nat → Nat → Int
  | 0, _ => 0
  | fuel + 1, i =>
    if calculated_tag.getD i 0 ≠ tag.getD i 0 then -1
    else tag_compare_loop calculated_tag tag fuel (i + 1)

/-- The function `sm4_gcm_decrypt_and_verify`: the return value and the content of `out`;
`tag_len` is the length of `tag`. -/
def sm4_gcm_decrypt_and_verify (key iv aad inp tag : List Nat) : Int × List Nat :=
  let ctx := sm4_gcm_init key iv
  let ctx := if aad.length > 0 then sm4_gcm_aad ctx aad else ctx
  let r := sm4_gcm_decrypt ctx inp
  let calculated_tag := (sm4_gcm_finish r.1 16).2
  let result := tag_compare_loop calculated_tag tag tag.length 0
  if result ≠ 0 then (result, List.replicate inp.length 0) else (result, r.2)

/-! ### Return values of the GCM step functions

Each of the five step functions has the single exit `return 0`. -/

/-- The return value of `sm4_gcm_init`. -/
def sm4_gcm_init_ret (_key _iv : List Nat) : Int := 0

/-- The return value of `sm4_gcm_aad`. -/
def sm4_gcm_aad_ret (_ctx : SM4_GCM_Context) (_aad : List Nat) : Int := 0

/-- The return value of `sm4_gcm_encrypt`. -/
def sm4_gcm_encrypt_ret (_ctx : SM4_GCM_Context) (_inp : List Nat) : Int := 0

/-- The return value of `sm4_gcm_decrypt`. -/
def sm4_gcm_decrypt_ret (_ctx : SM4_GCM_Context) (_inp : List Nat) : Int := 0

/-- The return value of `sm4_gcm_finish`. -/
def sm4_gcm_finish_ret (_ctx : SM4_GCM_Context) (_tag_len : Nat) : Int := 0


/-! ## Auxiliary definitions used in the statements and proofs -/

/-- The four state words in reverse order: the order in which `sm4_encrypt_block`
stores them, and so the state with which a following block call starts. -/
def state_reverse (X : Nat × Nat × Nat × Nat) : Nat × Nat × Nat × Nat :=
  (X.2.2.2, X.2.2.1, X.2.1, X.1)

/-- All four state words fit in 32 bits. -/
def state_words_ok (X : Nat × Nat × Nat × Nat) : Prop :=
  X.1 < 4294967296 ∧ X.2.1 < 4294967296 ∧ X.2.2.1 < 4294967296 ∧ X.2.2.2 < 4294967296

/-- The four big-endian words of a 16-byte block, as `sm4_encrypt_block` loads them. -/
def load_state (inp : List Nat) : Nat × Nat × Nat × Nat :=
  (load_u32_be inp 0, load_u32_be inp 4, load_u32_be inp 8, load_u32_be inp 12)

/-- Four words written big-endian one after the other. -/
def store_state (X : Nat × Nat × Nat × Nat) : List Nat :=
  store_u32_be X.1 ++ store_u32_be X.2.1 ++ store_u32_be X.2.2.1 ++ store_u32_be X.2.2.2

/-! ### The algorithm in the words of the specification -/

/-- The big-endian 32-bit word made of the four bytes at `off`. -/
def be_word_spec (b : List Nat) (off : Nat) : Nat :=
  b.getD off 0 * 16777216 + b.getD (off + 1) 0 * 65536 + b.getD (off + 2) 0 * 256 +
    b.getD (off + 3) 0

/-- A 32-bit word with `SM4_SBOX` applied to each of its four bytes in place. -/
def sbox_word_spec (a : Nat) : Nat :=
  SM4_SBOX.getD (a / 16777216 % 256) 0 * 16777216 + SM4_SBOX.getD (a / 65536 % 256) 0 * 65536 +
    SM4_SBOX.getD (a / 256 % 256) 0 * 256 + SM4_SBOX.getD (a % 256) 0

/-- The key schedule transform of the specification: `T'(a) = b ^ rotl(b,13) ^ rotl(b,23)`
with `b` the byte-wise substitution of `a`. -/
def key_transform_spec (a : Nat) : Nat :=
  sbox_word_spec a ^^^ rotl32 (sbox_word_spec a) 13 ^^^ rotl32 (sbox_word_spec a) 23

/-- The round transform of the specification:
`T(a) = b ^ rotl(b,2) ^ rotl(b,10) ^ rotl(b,18) ^ rotl(b,24)` with `b` the byte-wise
substitution of `a`. -/
def round_transform_spec (a : Nat) : Nat :=
  sbox_word_spec a ^^^ rotl32 (sbox_word_spec a) 2 ^^^ rotl32 (sbox_word_spec a) 10 ^^^
    rotl32 (sbox_word_spec a) 18 ^^^ rotl32 (sbox_word_spec a) 24

/-- One round of the reference algorithm: `X0 ^= T(X1 ^ X2 ^ X3 ^ rk)`, then the state
moves left by one word. -/
def round_spec (X : Nat × Nat × Nat × Nat) (k : Nat) : Nat × Nat × Nat × Nat :=
  (X.2.1, X.2.2.1, X.2.2.2, X.1 ^^^ round_transform_spec (X.2.1 ^^^ X.2.2.1 ^^^ X.2.2.2 ^^^ k))

/-- The reference block transform: four big-endian words in, 32 rounds, the final four
words out in reverse order, big-endian. -/
def encrypt_block_spec (rk : List Nat) (inp : List Nat) : List Nat :=
  let X := (List.range 32).foldl (fun X i => round_spec X (rk.getD i 0))
    (be_word_spec inp 0, be_word_spec inp 4, be_word_spec inp 8, be_word_spec inp 12)
  store_u32_be X.2.2.2 ++ store_u32_be X.2.2.1 ++ store_u32_be X.2.1 ++ store_u32_be X.1

/-! ### Test data of `test/unit/sm4_test.c` -/

/-- The key of `sm4_test_vectors[0]` (its plaintext is the same 16 bytes). -/
def kat1_key : List Nat :=
  [0x01, 0x23, 0x45, 0x67, 0x89, 0xAB, 0xCD, 0xEF, 0xFE, 0xDC, 0xBA, 0x98, 0x76, 0x54, 0x32, 0x10]

/-- The ciphertext of `sm4_test_vectors[0]`. -/
def kat1_ciphertext : List Nat :=
  [0x68, 0x1E, 0xDF, 0x34, 0xD2, 0x06, 0x96, 0x5E, 0x86, 0xB3, 0xE9, 0x4F, 0x53, 0x6E, 0x42, 0x46]

/-- The key of `sm4_test_vectors[1]`. -/
def kat2_key : List Nat :=
  [0x00, 0x01, 0x02, 0x03, 0x04, 0x05, 0x06, 0x07, 0x08, 0x09, 0x0A, 0x0B, 0x0C, 0x0D, 0x0E, 0x0F]

/-- The plaintext of `sm4_test_vectors[1]`. -/
def kat2_plaintext : List Nat :=
  [0x00, 0x00, 0x00, 0x00, 0x00, 0x00, 0x00, 0x00, 0x00, 0x00, 0x00, 0x00, 0x00, 0x00, 0x00, 0x00]

/-- The ciphertext of `sm4_test_vectors[1]`. -/
def kat2_ciphertext : List Nat :=
  [0x59, 0x52, 0x98, 0xC7, 0xC6, 0xFD, 0x27, 0x1F, 0x04, 0x02, 0xF8, 0x04, 0xC3, 0x3D, 0x3F, 0x66]

/-! ### Tampering and chunked sessions -/

/-- The buffer `b` with bit `k` of byte `i` flipped. -/
def flip_bit (b : List Nat) (i k : Nat) : List Nat :=
  b.set i (b.getD i 0 ^^^ (1 <<< k))

/-- A session that calls `sm4_gcm_init`, `sm4_gcm_aad`, then `sm4_gcm_encrypt` on each
chunk in order, then `sm4_gcm_finish`: the concatenation of the chunk outputs, and the tag. -/
def gcm_session_encrypt (key iv aad : List Nat) (chunks : List (List Nat)) (tag_len : Nat) :
    List Nat × List Nat :=
  let s := chunks.foldl
    (fun s p => ((sm4_gcm_encrypt s.1 p).1, s.2 ++ (sm4_gcm_encrypt s.1 p).2))
    (sm4_gcm_aad (sm4_gcm_init key iv) aad, [])
  (s.2, (sm4_gcm_finish s.1 tag_len).2)

/-! ### Blocks, counters and GHASH in the words of the specification -/

/-- Block `i` of a buffer: its bytes `16 i .. 16 i + 15` (fewer at the end of the buffer). -/
def block_at (l : List Nat) (i : Nat) : List Nat :=
  (l.drop (16 * i)).take 16

/-- The byte-wise xor of two 16-byte blocks. -/
def xor16 (a b : List Nat) : List Nat :=
  (List.range 16).map (fun j => a.getD j 0 ^^^ b.getD j 0)

/-- The counter block after `n` increments of its last 32 bits. -/
def inc32_iter (n : Nat) (counter : List Nat) : List Nat :=
  Nat.iterate increment_counter n counter

/-- A buffer zero-padded to a multiple of 16 bytes. -/
def pad16 (l : List Nat) : List Nat :=
  l ++ List.replicate ((16 - l.length % 16) % 16) 0

/-- The 16-byte blocks of a buffer, the final partial one zero-padded. -/
def blocks_padded (l : List Nat) : List (List Nat) :=
  (List.range ((l.length + 15) / 16)).map (fun i => block_at (pad16 l) i)

/-- The GHASH fold `Y := (Y XOR X_i) * H` over a list of 16-byte blocks, from `Y`. -/
def ghash_fold_spec (H Y : List Nat) (blocks : List (List Nat)) : List Nat :=
  blocks.foldl (fun Y X => gf128_mul (xor16 Y X) H) Y

/-- The context on which `sm4_gcm_encrypt_and_tag` and `sm4_gcm_decrypt_and_verify` run
their data call: after `sm4_gcm_init`, and `sm4_gcm_aad` when `aad_len > 0`. -/
def gcm_data_ctx (key iv aad : List Nat) : SM4_GCM_Context :=
  if aad.length > 0 then sm4_gcm_aad (sm4_gcm_init key iv) aad else sm4_gcm_init key iv

/-- The 16-byte tag that `sm4_gcm_decrypt_and_verify` recomputes (`calculated_tag`). -/
def gcm_calculated_tag (key iv aad inp : List Nat) : List Nat :=
  (sm4_gcm_finish (sm4_gcm_decrypt (gcm_data_ctx key iv aad) inp).1 16).2

/-- The eight bytes of the big-endian 64-bit encoding of `v`. -/
def be64_spec (v : Nat) : List Nat :=
  [v / 72057594037927936 % 256, v / 281474976710656 % 256, v / 1099511627776 % 256,
   v / 4294967296 % 256, v / 16777216 % 256, v / 65536 % 256, v / 256 % 256, v % 256]

/-! ### Polynomials over GF(2) and the GCM bit order

A polynomial over GF(2) is held as a natural number: the coefficient of degree `k` is bit
`k` of the number, and the sum of two polynomials is their xor. -/

/-- The polynomial `x^128 + x^7 + x^2 + x + 1`. -/
def gcm_modulus : Nat := 2 ^ 128 + 2 ^ 7 + 2 ^ 2 + 2 + 1

/-- The coefficient of degree `k` of a 16-byte block in the GCM bit order: bit `7 - k % 8`
of byte `k / 8`, so that the most significant bit of byte 0 has degree 0. -/
def gcm_bit (b : List Nat) (k : Nat) : Bool :=
  (b.getD (k / 8) 0).testBit (7 - k % 8)

/-- The polynomial of a 16-byte block in the GCM bit order. -/
def gcm_poly (b : List Nat) : Nat :=
  (List.range 128).foldl (fun acc k => if gcm_bit b k then acc + 2 ^ k else acc) 0

/-- The sum of `b * x^k` over the degrees `k < n` at which `a` has a coefficient. -/
def poly_mul_upto (n a b : Nat) : Nat :=
  (List.range n).foldl (fun acc k => if a.testBit k then acc ^^^ (b <<< k) else acc) 0

/-- The product of two polynomials over GF(2): the sum of `b * x^k` over the degrees `k`
at which `a` has a coefficient (`a.size` is the number of bits of `a`). -/
def poly_mul (a b : Nat) : Nat :=
  poly_mul_upto a.size a b

/-- Long division by `gcm_modulus` on the coefficients of degree `128 .. 128 + n - 1`, from
the highest down: where the coefficient of degree `128 + k` is set, `gcm_modulus * x^k` is
subtracted. -/
def poly_mod_aux : Nat → Nat → Nat
  | 0, r => r
  | n + 1, r => poly_mod_aux n (if r.testBit (128 + n) then r ^^^ (gcm_modulus <<< n) else r)

/-- The remainder of a polynomial over GF(2) modulo `gcm_modulus`. -/
def poly_mod (a : Nat) : Nat :=
  poly_mod_aux (a.size - 128) a

/-- The 16-byte block of a polynomial of degree below 128 in the GCM bit order: bit `m` of
byte `i` is the coefficient of degree `8 i + (7 - m)`. -/
def gcm_block (p : Nat) : List Nat :=
  (List.range 16).map (fun i =>
    (List.range 8).foldl (fun acc m => if p.testBit (8 * i + (7 - m)) then acc + 2 ^ m else acc) 0)

/-- The first block of the GHASH test data used below (the hash subkey of test case 2 of
the GCM specification). -/
def ghash_test_h : List Nat :=
  [0x66, 0xe9, 0x4b, 0xd4, 0xef, 0x8a, 0x2c, 0x3b, 0x88, 0x4c, 0xfa, 0x59, 0xca, 0x34, 0x2b, 0x2e]

/-- The second block of the GHASH test data (the ciphertext block of the same test case). -/
def ghash_test_c : List Nat :=
  [0x03, 0x88, 0xda, 0xce, 0x60, 0xb6, 0xa3, 0x92, 0xf3, 0x28, 0xc2, 0xb9, 0x71, 0xb2, 0xfe, 0x78]

/-- The keystream of `n` blocks from the counter block `counter`: the encryptions of
`counter`, of its increment, and so on, one after the other. -/
def ctr_keystream (cipher_ctx : SM4_Context) (counter : List Nat) (n : Nat) : List Nat :=
  ((List.range n).map (fun i => sm4_encrypt_block cipher_ctx (inc32_iter i counter))).flatten

/-- The table that sends each byte value to its position in `SM4_SBOX`. -/
def SM4_SBOX_inverse : List Nat :=
  [
   0x71, 0x6c, 0x7a, 0xb8, 0x16, 0x0f, 0x1e, 0x41, 0x35, 0xeb, 0xd0, 0x2a, 0xe4, 0xac, 0x62, 0x5a,
   0xcd, 0xc8, 0xdb, 0x1a, 0x0a, 0x8e, 0x08, 0x46, 0xf0, 0x4b, 0x96, 0xc1, 0x32, 0xa0, 0x60, 0xcc,
   0xf7, 0x6d, 0x69, 0xaa, 0x61, 0x68, 0x1b, 0x76, 0x0c, 0xa9, 0x14, 0x10, 0x0e, 0xd8, 0xa3, 0xb7,
   0x9b, 0xd2, 0x9a, 0x28, 0x95, 0x5f, 0x79, 0xb2, 0x86, 0xfe, 0xf4, 0x6b, 0x4a, 0x06, 0xfb, 0x3e,
   0x84, 0xcb, 0x21, 0x2b, 0x19, 0xb3, 0x72, 0x40, 0xff, 0x1c, 0xe3, 0x5b, 0x78, 0xf6, 0xae, 0x4e,
   0x22, 0xbf, 0x77, 0xad, 0x29, 0x97, 0x5d, 0x73, 0x65, 0x49, 0xce, 0xbe, 0xca, 0x92, 0x63, 0xfa,
   0xa7, 0x8d, 0x2f, 0x64, 0x55, 0xe8, 0xa5, 0x11, 0x50, 0xe1, 0xba, 0x51, 0xbd, 0xbc, 0xed, 0xaf,
   0x5c, 0x54, 0xbb, 0x45, 0xd9, 0x3c, 0x13, 0xe6, 0x6e, 0xf8, 0x27, 0xd6, 0x6a, 0xf2, 0xe7, 0xc7,
   0x38, 0x52, 0xa4, 0x48, 0xef, 0x4d, 0x1d, 0x6f, 0xd3, 0xe0, 0x82, 0x57, 0x9d, 0xc0, 0xb6, 0x3d,
   0x01, 0x24, 0xc3, 0x99, 0x3a, 0x37, 0xe5, 0xe2, 0x26, 0x1f, 0x12, 0x94, 0x20, 0x5e, 0x7f, 0x74,
   0x7c, 0x8f, 0x67, 0x88, 0x93, 0xd4, 0x3f, 0x42, 0x4f, 0x33, 0x18, 0xab, 0x2e, 0x98, 0x91, 0xc2,
   0xdf, 0x9e, 0x53, 0x31, 0xde, 0x87, 0x09, 0x07, 0xdc, 0xe9, 0x47, 0xc4, 0xc6, 0xd7, 0x15, 0x81,
   0xa8, 0xd1, 0x0b, 0x17, 0x7d, 0xec, 0xee, 0x85, 0x7e, 0x34, 0xa6, 0xfd, 0x04, 0xd5, 0x8b, 0x2d,
   0xda, 0x66, 0x83, 0x75, 0x70, 0xb0, 0x00, 0xfc, 0xcf, 0xc9, 0x56, 0xb1, 0xf5, 0xc5, 0xb4, 0x39,
   0x90, 0x05, 0xa2, 0x9f, 0x30, 0xdd, 0x4c, 0x7b, 0x36, 0x02, 0x80, 0x59, 0xf3, 0x2c, 0xf9, 0x25,
   0xf1, 0xea, 0x8a, 0x44, 0x23, 0x9c, 0xa1, 0x89, 0x58, 0x8c, 0x3b, 0x0d, 0x43, 0xb5, 0x03, 0xb9]

/-! ## Backend selector (`src/sm4_cpu_features.c`) -/

/-- The struct `SM4_CPU_Features`. -/
structure SM4_CPU_Features where
  has_aesni : Bool
  has_sse2 : Bool
  has_avx : Bool
  has_avx2 : Bool
  has_avx512f : Bool
  has_gfni : Bool
  has_vaes : Bool
  has_vpclmulqdq : Bool
deriving DecidableEq

/-- The function `sm4_get_best_implementation`, with the result of its call of
`sm4_get_cpu_features()` as `features`. The static `forced_impl` is passed as the first
argument, as for every function of the file; the function does not read it. -/
def sm4_get_best_implementation (_forced_impl : Option String)
    (features : SM4_CPU_Features) : String :=
  if features.has_gfni && features.has_avx512f then "gfni"
  else if features.has_vaes && features.has_avx2 then "vaes"
  else if features.has_aesni then "aesni"
  else "t_table"

/-- The function `sm4_force_implementation`: the return value and the content of the
static `forced_impl` on return. A `NULL` pointer is `none`. -/
def sm4_force_implementation (forced_impl : Option String) (impl_name : Option String) :
    Int × Option String :=
  match impl_name with
  | none => (0, none)
  | some name =>
    if name = "basic" ∨ name = "t_table" ∨ name = "aesni" ∨ name = "gfni" then (0, some name)
    else (-1, forced_impl)

end SM4

/-!
# SM3 hash: a shallow embedding of `src/sm3.c` and `src/sm3_optimized.c`

The conventions are those of the SM4 part. The C macro `ROTL(x, n)` and the function
`ROTL_OPT` are `(x << n) | (x >> (32 - n))`; both files call them with `n = j` for the round
number `j` in `0..63`, where C leaves the shifts by 32 and by more than 31 undefined. The
embedding takes the two shift counts modulo 32, as the shift and rotate instructions of
x86-64 and AArch64 do; for `1 ≤ n ≤ 31` this is the C expression.
-/

namespace SM3

/-- The array `SM3_IV`. -/
def SM3_IV : List Nat :=
  [
   0x7380166F, 0x4914B2B9, 0x172442D7, 0xDA8A0600,
   0xA96F30BC, 0x163138AA, 0xE38DEE4D, 0xB0FB0E4E]

/-- The array `SM3_T` of `sm3.c`: declared with 64 entries, its initialiser lists 56 of
them, so the last 8 entries are zero. -/
def SM3_T : List Nat :=
  [
   0x79CC4519, 0x79CC4519, 0x79CC4519, 0x79CC4519,
   0x79CC4519, 0x79CC4519, 0x79CC4519, 0x79CC4519,
   0x79CC4519, 0x79CC4519, 0x79CC4519, 0x79CC4519,
   0x79CC4519, 0x79CC4519, 0x79CC4519, 0x79CC4519,
   0x7A879D8A, 0x7A879D8A, 0x7A879D8A, 0x7A879D8A,
   0x7A879D8A, 0x7A879D8A, 0x7A879D8A, 0x7A879D8A,
   0x7A879D8A, 0x7A879D8A, 0x7A879D8A, 0x7A879D8A,
   0x7A879D8A, 0x7A879D8A, 0x7A879D8A, 0x7A879D8A,
   0x7A879D8A, 0x7A879D8A, 0x7A879D8A, 0x7A879D8A,
   0x7A879D8A, 0x7A879D8A, 0x7A879D8A, 0x7A879D8A,
   0x7A879D8A, 0x7A879D8A, 0x7A879D8A, 0x7A879D8A,
   0x7A879D8A, 0x7A879D8A, 0x7A879D8A, 0x7A879D8A,
   0x7A879D8A, 0x7A879D8A, 0x7A879D8A, 0x7A879D8A,
   0x7A879D8A, 0x7A879D8A, 0x7A879D8A, 0x7A879D8A,
   0, 0, 0, 0,
   0, 0, 0, 0]

/-- The macro `ROTL` (and the function `ROTL_OPT`), shift counts taken modulo 32. -/
def ROTL (x n : Nat) : Nat :=
  ((x <<< (n % 32)) ||| (x >>> ((32 - n % 32) % 32))) % 4294967296

/-- The function `FF` (and `FF_OPT`). -/
def FF (x y z j : Nat) : Nat :=
  if j < 16 then x ^^^ y ^^^ z else (x &&& y) ||| (x &&& z) ||| (y &&& z)

/-- The function `GG` (and `GG_OPT`); `~x` on a `uint32_t` is `x ^ 0xFFFFFFFF`. -/
def GG (x y z j : Nat) : Nat :=
  if j < 16 then x ^^^ y ^^^ z else (x &&& y) ||| ((x ^^^ 4294967295) &&& z)

/-- The function `P0` (and `P0_OPT`). -/
def P0 (x : Nat) : Nat :=
  x ^^^ ROTL x 9 ^^^ ROTL x 17

/-- The function `P1` (and `P1_OPT`). -/
def P1 (x : Nat) : Nat :=
  x ^^^ ROTL x 15 ^^^ ROTL x 23

/-- The working variables `A .. H` of the compression function. -/
structure sm3_vars where
  A : Nat
  B : Nat
  C : Nat
  D : Nat
  E : Nat
  F : Nat
  G : Nat
  H : Nat
deriving DecidableEq

/-- The statement `W[j] = P1(W[j-16] ^ W[j-9] ^ ROTL(W[j-3], 15)) ^ ROTL(W[j-13], 7) ^ W[j-6]`
on the array `W`. -/
def sm3_expand_step (W : List Nat) (j : Nat) : List Nat :=
  W.set j (P1 (W.getD (j - 16) 0 ^^^ W.getD (j - 9) 0 ^^^ ROTL (W.getD (j - 3) 0) 15) ^^^
    ROTL (W.getD (j - 13) 0) 7 ^^^ W.getD (j - 6) 0)

/-- One pass of the main loop of the compression function, for round `j`, with the round
constant table `T` and the arrays `W` and `W1`. -/
def sm3_round (T W W1 : List Nat) (v : sm3_vars) (j : Nat) : sm3_vars :=
  let SS1 := ROTL ((ROTL v.A 12 + v.E + ROTL (T.getD j 0) j) % 4294967296) 7
  let SS2 := SS1 ^^^ ROTL v.A 12
  let TT1 := (FF v.A v.B v.C j + v.D + SS2 + W1.getD j 0) % 4294967296
  let TT2 := (GG v.E v.F v.G j + v.H + SS1 + W.getD j 0) % 4294967296
  ⟨TT1, v.A, ROTL v.B 9, v.C, P0 TT2, v.E, ROTL v.F 19, v.G⟩

/-- The eight statements `state[i] ^= ...` that end the compression function. -/
def sm3_feed_forward (state : List Nat) (v : sm3_vars) : List Nat :=
  [state.getD 0 0 ^^^ v.A, state.getD 1 0 ^^^ v.B, state.getD 2 0 ^^^ v.C,
   state.getD 3 0 ^^^ v.D, state.getD 4 0 ^^^ v.E, state.getD 5 0 ^^^ v.F,
   state.getD 6 0 ^^^ v.G, state.getD 7 0 ^^^ v.H]

/-- The working variables loaded from `state`. -/
def sm3_load_vars (state : List Nat) : sm3_vars :=
  ⟨state.getD 0 0, state.getD 1 0, state.getD 2 0, state.getD 3 0, state.getD 4 0,
    state.getD 5 0, state.getD 6 0, state.getD 7 0⟩

/-- The function `sm3_compress` of `sm3.c`, as the new content of `state`. -/
def sm3_compress (state block : List Nat) : List Nat :=
  let W := (List.range 16).foldl
    (fun W j => W.set j ((block.getD (j * 4) 0 <<< 24) ||| (block.getD (j * 4 + 1) 0 <<< 16) |||
      (block.getD (j * 4 + 2) 0 <<< 8) ||| block.getD (j * 4 + 3) 0)) (List.replicate 68 0)
  let W := (List.range 52).foldl (fun W t => sm3_expand_step W (16 + t)) W
  let W1 := (List.range 64).foldl
    (fun W1 j => W1.set j (W.getD j 0 ^^^ W.getD (j + 4) 0)) (List.replicate 64 0)
  let v := (List.range 64).foldl (sm3_round SM3_T W W1) (sm3_load_vars state)
  sm3_feed_forward state v

/-- The tables filled by `init_optimization_tables`: `SM3_T_OPTIMIZED[i]` is `0x79CC4519`
for `i < 16` and `0x7A879D8A` for the other 48 indices. -/
def SM3_T_OPTIMIZED : List Nat :=
  (List.range 64).map (fun i => if i < 16 then 0x79CC4519 else 0x7A879D8A)

/-- The function `expand_message_optimized`: the arrays `W` and `W1`. The loops step by 4
from 16 to 64 and from 0 to 60; `j + 3 < 68` and `j + 3 < 64` hold in every pass, so the
unrolled branch is the one taken. -/
def expand_message_optimized (block : List Nat) : List Nat × List Nat :=
  let W := [
    (block.getD 0 0 <<< 24) ||| (block.getD 1 0 <<< 16) ||| (block.getD 2 0 <<< 8) |||
      block.getD 3 0,
    (block.getD 4 0 <<< 24) ||| (block.getD 5 0 <<< 16) ||| (block.getD 6 0 <<< 8) |||
      block.getD 7 0,
    (block.getD 8 0 <<< 24) ||| (block.getD 9 0 <<< 16) ||| (block.getD 10 0 <<< 8) |||
      block.getD 11 0,
    (block.getD 12 0 <<< 24) ||| (block.getD 13 0 <<< 16) ||| (block.getD 14 0 <<< 8) |||
      block.getD 15 0,
    (block.getD 16 0 <<< 24) ||| (block.getD 17 0 <<< 16) ||| (block.getD 18 0 <<< 8) |||
      block.getD 19 0,
    (block.getD 20 0 <<< 24) ||| (block.getD 21 0 <<< 16) ||| (block.getD 22 0 <<< 8) |||
      block.getD 23 0,
    (block.getD 24 0 <<< 24) ||| (block.getD 25 0 <<< 16) ||| (block.getD 26 0 <<< 8) |||
      block.getD 27 0,
    (block.getD 28 0 <<< 24) ||| (block.getD 29 0 <<< 16) ||| (block.getD 30 0 <<< 8) |||
      block.getD 31 0,
    (block.getD 32 0 <<< 24) ||| (block.getD 33 0 <<< 16) ||| (block.getD 34 0 <<< 8) |||
      block.getD 35 0,
    (block.getD 36 0 <<< 24) ||| (block.getD 37 0 <<< 16) ||| (block.getD 38 0 <<< 8) |||
      block.getD 39 0,
    (block.getD 40 0 <<< 24) ||| (block.getD 41 0 <<< 16) ||| (block.getD 42 0 <<< 8) |||
      block.getD 43 0,
    (block.getD 44 0 <<< 24) ||| (block.getD 45 0 <<< 16) ||| (block.getD 46 0 <<< 8) |||
      block.getD 47 0,
    (block.getD 48 0 <<< 24) ||| (block.getD 49 0 <<< 16) ||| (block.getD 50 0 <<< 8) |||
      block.getD 51 0,
    (block.getD 52 0 <<< 24) ||| (block.getD 53 0 <<< 16) ||| (block.getD 54 0 <<< 8) |||
      block.getD 55 0,
    (block.getD 56 0 <<< 24) ||| (block.getD 57 0 <<< 16) ||| (block.getD 58 0 <<< 8) |||
      block.getD 59 0,
    (block.getD 60 0 <<< 24) ||| (block.getD 61 0 <<< 16) ||| (block.getD 62 0 <<< 8) |||
      block.getD 63 0] ++
    List.replicate 52 0
  let W := (List.range 13).foldl
    (fun W q =>
      let j := 16 + 4 * q
      let W := W.set j (P1 (W.getD (j - 16) 0 ^^^ W.getD (j - 9) 0 ^^^
        ROTL (W.getD (j - 3) 0) 15) ^^^ ROTL (W.getD (j - 13) 0) 7 ^^^ W.getD (j - 6) 0)
      let W := W.set (j + 1) (P1 (W.getD (j - 15) 0 ^^^ W.getD (j - 8) 0 ^^^
        ROTL (W.getD (j - 2) 0) 15) ^^^ ROTL (W.getD (j - 12) 0) 7 ^^^ W.getD (j - 5) 0)
      let W := W.set (j + 2) (P1 (W.getD (j - 14) 0 ^^^ W.getD (j - 7) 0 ^^^
        ROTL (W.getD (j - 1) 0) 15) ^^^ ROTL (W.getD (j - 11) 0) 7 ^^^ W.getD (j - 4) 0)
      W.set (j + 3) (P1 (W.getD (j - 13) 0 ^^^ W.getD (j - 6) 0 ^^^
        ROTL (W.getD j 0) 15) ^^^ ROTL (W.getD (j - 10) 0) 7 ^^^ W.getD (j - 3) 0)) W
  let W1 := (List.range 16).foldl
    (fun W1 q =>
      let j := 4 * q
      let W1 := W1.set j (W.getD j 0 ^^^ W.getD (j + 4) 0)
      let W1 := W1.set (j + 1) (W.getD (j + 1) 0 ^^^ W.getD (j + 5) 0)
      let W1 := W1.set (j + 2) (W.getD (j + 2) 0 ^^^ W.getD (j + 6) 0)
      W1.set (j + 3) (W.getD (j + 3) 0 ^^^ W.getD (j + 7) 0)) (List.replicate 64 0)
  (W, W1)

/-- The function `sm3_compress_optimized`, as the new content of `state`: the main loop
steps by 4 from 0 to 60 and runs rounds `j`, `j + 1`, `j + 2`, `j + 3` in each pass. -/
def sm3_compress_optimized (state block : List Nat) : List Nat :=
  let WW := expand_message_optimized block
  let v := (List.range 16).foldl
    (fun v q =>
      let j := 4 * q
      let v := sm3_round SM3_T_OPTIMIZED WW.1 WW.2 v j
      let v := sm3_round SM3_T_OPTIMIZED WW.1 WW.2 v (j + 1)
      let v := sm3_round SM3_T_OPTIMIZED WW.1 WW.2 v (j + 2)
      sm3_round SM3_T_OPTIMIZED WW.1 WW.2 v (j + 3)) (sm3_load_vars state)
  sm3_feed_forward state v

/-- The struct `sm3_ctx_t`. -/
structure sm3_ctx_t where
  state : List Nat
  count : Nat
  buffer : List Nat
  buffer_len : Nat
deriving DecidableEq

/-- The function `sm3_init` (and `sm3_init_optimized`). -/
def sm3_init : sm3_ctx_t :=
  { state := SM3_IV, count := 0, buffer := List.replicate 64 0, buffer_len := 0 }

/-- The loop `while (len >= 64)` of `sm3_update` on the data from the current position on:
the state after the loop and the data left. The first argument bounds the number of
passes. -/
def sm3_update_loop (compress : List Nat → List Nat → List Nat) :
    Nat → List Nat → List Nat → List Nat × List Nat
  | 0, state, data => (state, data)
  | fuel + 1, state, data =>
    if 64 ≤ data.length then sm3_update_loop compress fuel (compress state data) (data.drop 64)
    else (state, data)

/-- The body shared by `sm3_update` and `sm3_update_optimized`, which differ in the
compression function they call only. `memcpy(buffer + k, data, n)` keeps the bytes of
`buffer` outside `k .. k + n - 1`. -/
def sm3_update_with (compress : List Nat → List Nat → List Nat) (ctx : sm3_ctx_t)
    (data : List Nat) : sm3_ctx_t :=
  let count := (ctx.count + data.length) % 18446744073709551616
  let s1 : sm3_ctx_t × List Nat :=
    if 0 < ctx.buffer_len then
      let copy_len := if 64 - ctx.buffer_len > data.length then data.length
        else 64 - ctx.buffer_len
      let buffer := ctx.buffer.take ctx.buffer_len ++ data.take copy_len ++
        ctx.buffer.drop (ctx.buffer_len + copy_len)
      let buffer_len := ctx.buffer_len + copy_len
      if buffer_len = 64 then
        ({ state := compress ctx.state buffer, count := count, buffer := buffer,
           buffer_len := 0 }, data.drop copy_len)
      else
        ({ state := ctx.state, count := count, buffer := buffer, buffer_len := buffer_len },
          data.drop copy_len)
    else
      ({ state := ctx.state, count := count, buffer := ctx.buffer,
         buffer_len := ctx.buffer_len }, data)
  let c1 := s1.1
  let r := sm3_update_loop compress (s1.2.length / 64) c1.state s1.2
  if 0 < r.2.length then
    { state := r.1, count := c1.count, buffer := r.2 ++ c1.buffer.drop r.2.length,
      buffer_len := r.2.length }
  else { state := r.1, count := c1.count, buffer := c1.buffer, buffer_len := c1.buffer_len }

/-- The function `sm3_update`. -/
def sm3_update (ctx : sm3_ctx_t) (data : List Nat) : sm3_ctx_t :=
  sm3_update_with sm3_compress ctx data

/-- The function `sm3_update_optimized`. -/
def sm3_update_optimized (ctx : sm3_ctx_t) (data : List Nat) : sm3_ctx_t :=
  sm3_update_with sm3_compress_optimized ctx data

/-- The body shared by `sm3_final` and `sm3_final_optimized`: the context on return and the
32 bytes written to `digest`. -/
def sm3_final_with (compress : List Nat → List Nat → List Nat) (ctx : sm3_ctx_t) :
    sm3_ctx_t × List Nat :=
  let buffer := ctx.buffer.set ctx.buffer_len 0x80
  let buffer_len := ctx.buffer_len + 1
  let s1 : List Nat × List Nat × Nat :=
    if buffer_len > 64 - 8 then
      let buffer := buffer.take buffer_len ++ List.replicate (64 - buffer_len) 0
      (compress ctx.state buffer, buffer, 0)
    else (ctx.state, buffer, buffer_len)
  let buffer := s1.2.1.take s1.2.2 ++ List.replicate (64 - s1.2.2 - 8) 0 ++
    s1.2.1.drop (64 - 8)
  let bit_count := (ctx.count * 8) % 18446744073709551616
  let buffer := (List.range 8).foldl
    (fun b i => b.set (64 - 8 + i) ((bit_count >>> (56 - i * 8)) % 256)) buffer
  let state := compress s1.1 buffer
  ({ state := state, count := ctx.count, buffer := buffer, buffer_len := s1.2.2 },
    ((List.range 8).map (fun i => [(state.getD i 0 >>> 24) % 256, (state.getD i 0 >>> 16) % 256,
      (state.getD i 0 >>> 8) % 256, state.getD i 0 % 256])).flatten)

/-- The function `sm3_final`. -/
def sm3_final (ctx : sm3_ctx_t) : sm3_ctx_t × List Nat :=
  sm3_final_with sm3_compress ctx

/-- The function `sm3_final_optimized`. -/
def sm3_final_optimized (ctx : sm3_ctx_t) : sm3_ctx_t × List Nat :=
  sm3_final_with sm3_compress_optimized ctx

/-- The function `sm3_hash`, as the 32 bytes written to `digest`. -/
def sm3_hash (data : List Nat) : List Nat :=
  (sm3_final (sm3_update sm3_init data)).2

/-- The function `sm3_hash_string`, on the bytes of the string before its terminating
zero. -/
def sm3_hash_string (str : List Nat) : List Nat :=
  sm3_hash str

/-- The function `sm3_hash_optimized`, as the 32 bytes written to `digest`. -/
def sm3_hash_optimized (data : List Nat) : List Nat :=
  (sm3_final_optimized (sm3_update_optimized sm3_init data)).2

/-! ### Test data of `test/test_sm3.c` -/

/-- The bytes of the string "abc". -/
def kat_abc : List Nat := [0x61, 0x62, 0x63]

/-- The digest that `test_vectors` of `test_sm3.c` expects for "abc". -/
def kat_abc_digest : List Nat :=
  [
   0x66, 0xc7, 0xf0, 0xf4, 0x62, 0xee, 0xed, 0xd9, 0xd1, 0xf2, 0xd4, 0x6b, 0xdc, 0x10, 0xe4, 0xe2,
   0x41, 0x67, 0xc4, 0x87, 0x5c, 0xf2, 0xf7, 0xa2, 0x29, 0x7d, 0xa0, 0x2b, 0x8f, 0x4b, 0xa8, 0xe0]

/-- The bytes of the 64-character string made of "abcd" 16 times. -/
def kat_abcd16 : List Nat :=
  (List.replicate 16 [0x61, 0x62, 0x63, 0x64]).flatten

/-- The digest that `test_vectors` of `test_sm3.c` expects for `kat_abcd16`. -/
def kat_abcd16_digest : List Nat :=
  [
   0xde, 0xbe, 0x9f, 0xf9, 0x22, 0x75, 0xb8, 0xa1, 0x38, 0x60, 0x48, 0x89, 0xc1, 0x8e, 0x5a, 0x4d,
   0x6f, 0xdb, 0x70, 0xe5, 0x38, 0x7e, 0x57, 0x65, 0x29, 0x3d, 0xcb, 0xa3, 0x9c, 0x0c, 0x57, 0x32]

/-- The bytes of the message of `test_optimized_sm3`, a UTF-8 string of 36 bytes. -/
def test_optimized_message : List Nat :=
  [
   0xe6, 0xb5, 0x8b, 0xe8, 0xaf, 0x95, 0xe4, 0xbc, 0x98, 0xe5, 0x8c, 0x96, 0xe7, 0x89, 0x88, 0xe6,
   0x9c, 0xac, 0xe7, 0x9a, 0x84, 0x53, 0x4d, 0x33, 0xe7, 0xae, 0x97, 0xe6, 0xb3, 0x95, 0xe5, 0xae,
   0x9e, 0xe7, 0x8e, 0xb0]

/-- The function `sm3_length_extension_attack`: the return value and the 32 bytes written to
`new_digest`. The context is a local variable of which the function sets `state`, `count`
and `buffer_len`; its `buffer` is not initialised, and `stack_buffer` stands for the 64
bytes it holds on entry. -/
def sm3_length_extension_attack (stack_buffer original_digest : List Nat)
    (original_length : Nat) (extension_data : List Nat) : Int × List Nat :=
  let state := (List.range 8).map (fun i =>
    (original_digest.getD (i * 4) 0 <<< 24) ||| (original_digest.getD (i * 4 + 1) 0 <<< 16) |||
      (original_digest.getD (i * 4 + 2) 0 <<< 8) ||| original_digest.getD (i * 4 + 3) 0)
  let ctx : sm3_ctx_t :=
    { state := state, count := original_length, buffer := stack_buffer, buffer_len := 0 }
  (1, (sm3_final (sm3_update ctx extension_data)).2)

/-! ### Test data of `test/test_sm3.c` and `test/test_length_extension.c` -/

/-- The bytes of the string "secret" (`test_length_extension`). -/
def test_secret : List Nat := [0x73, 0x65, 0x63, 0x72, 0x65, 0x74]

/-- The bytes of the string "extension" (`test_length_extension`). -/
def test_extension : List Nat := [0x65, 0x78, 0x74, 0x65, 0x6e, 0x73, 0x69, 0x6f, 0x6e]

/-- The bytes of the string "test_message" (`test_edge_cases`). -/
def test_message : List Nat :=
  [0x74, 0x65, 0x73, 0x74, 0x5f, 0x6d, 0x65, 0x73, 0x73, 0x61, 0x67, 0x65]

/-! ### Auxiliary definitions for the statements about `sm3_update` and `sm3_final` -/

/-- The 32 bytes of a state of eight words, each word big-endian. -/
def digest_of_state (state : List Nat) : List Nat :=
  ((List.range 8).map (fun i => [(state.getD i 0 >>> 24) % 256, (state.getD i 0 >>> 16) % 256,
    (state.getD i 0 >>> 8) % 256, state.getD i 0 % 256])).flatten

/-- The eight bytes of the bit count `count * 8` (in 64 bits), most significant first. -/
def bit_count_bytes (count : Nat) : List Nat :=
  (List.range 8).map (fun i => ((count * 8 % 18446744073709551616) >>> (56 - i * 8)) % 256)

/-- The digest of a message of `count` bytes of which all but the last `pending` bytes,
fewer than 64, have been compressed into `state`: the pending bytes, the byte `0x80`, zero
bytes up to 8 bytes before the end of a block, and the bit count go through `compress`. -/
def final_spec (compress : List Nat → List Nat → List Nat) (state : List Nat) (count : Nat)
    (pending : List Nat) : List Nat :=
  if pending.length + 1 > 56 then
    digest_of_state (compress
      (compress state (pending ++ [0x80] ++ List.replicate (63 - pending.length) 0))
      (List.replicate 56 0 ++ bit_count_bytes count))
  else
    digest_of_state (compress state
      (pending ++ [0x80] ++ List.replicate (55 - pending.length) 0 ++ bit_count_bytes count))

end SM3

/-!
# Merkle tree: a shallow embedding of `src/merkle.c` and of `log2_ceil` of `src/utils.c`

The nodes of a tree are held level by level, level 0 being the leaves: a level is the list
of the hashes of its nodes, in the order of the array `current_level` of
`merkle_tree_build`. The pointers of the C nodes are positions: node `i` of level `L + 1`
has the nodes `2 i` and `2 i + 1` of level `L` as `left` and `right` (`right` is `NULL` when
level `L` has no node `2 i + 1`), node `i` of level `L` has node `i / 2` of level `L + 1` as
`parent` (`NULL` on the last level built), and `root` is node 0 of the last level built.
Sizes are `size_t`, 64 bits.
-/

namespace Merkle

/-- The loop `while (n > 1) { n >>= 1; log++; }` of `log2_ceil`; the first argument bounds
the number of passes. -/
def log2_ceil_loop : Nat → Nat → Nat → Nat
  | 0, _, log => log
  | fuel + 1, n, log => if n > 1 then log2_ceil_loop fuel (n >>> 1) (log + 1) else log

/-- The function `log2_ceil` of `utils.c`. A 64-bit `n` is 1 or less after 63 shifts, so 64
passes are enough (`log2_ceil_loop_spec`). -/
def log2_ceil (n : Nat) : Nat :=
  if n ≤ 1 then 0 else log2_ceil_loop 64 n 0

/-- The function `merkle_tree_get_height`. -/
def merkle_tree_get_height (leaf_count : Nat) : Nat :=
  log2_ceil leaf_count

/-- The 32 bytes at `b`, as `memcpy(dst, b, SM3_DIGEST_SIZE)` copies them. -/
def hash32 (b : List Nat) : List Nat :=
  (List.range 32).map (fun j => b.getD j 0)

/-- The function `hash_children`, as the 32 bytes written to `parent_hash`. -/
def hash_children (left_hash right_hash : List Nat) : List Nat :=
  SM3.sm3_hash (hash32 left_hash ++ hash32 right_hash)

/-- The struct `merkle_tree_t`: `levels` holds the hashes of the nodes that
`merkle_tree_build` creates, and is empty while `root` is `NULL`. -/
structure merkle_tree_t where
  leaf_count : Nat
  height : Nat
  levels : List (List (List Nat))
deriving DecidableEq

/-- The function `merkle_tree_create`; `none` is `NULL`. -/
def merkle_tree_create (leaf_count : Nat) : Option merkle_tree_t :=
  if leaf_count = 0 then none
  else some { leaf_count := leaf_count, height := log2_ceil leaf_count, levels := [] }

/-- One pass of the loop over `level` in `merkle_tree_build`: the hashes of the nodes of
`next_level`, from those of `current_level`. A node made by `create_node` has an all-zero
hash. -/
def merkle_next_level (current_level : List (List Nat)) : List (List Nat) :=
  (List.range ((current_level.length + 1) / 2)).map (fun i =>
    if i * 2 < current_level.length then
      if i * 2 + 1 < current_level.length then
        hash_children (current_level.getD (i * 2) []) (current_level.getD (i * 2 + 1) [])
      else hash32 (current_level.getD (i * 2) [])
    else List.replicate 32 0)

/-- The loop over `level` in `merkle_tree_build`, for `height` passes from `current_level`:
the levels it goes through, `current_level` first and the last level built last. -/
def merkle_build_levels : Nat → List (List Nat) → List (List (List Nat))
  | 0, current_level => [current_level]
  | height + 1, current_level =>
    current_level :: merkle_build_levels height (merkle_next_level current_level)

/-- The function `merkle_tree_build`: the tree it leaves. -/
def merkle_tree_build (tree : merkle_tree_t) (leaf_hashes : List (List Nat)) : merkle_tree_t :=
  let leaves := (List.range tree.leaf_count).map (fun i => hash32 (leaf_hashes.getD i []))
  { tree with levels := merkle_build_levels tree.height leaves }

/-- The hash of the node `tree->root`: node 0 of the last level built. -/
def merkle_root_hash (tree : merkle_tree_t) : List Nat :=
  (tree.levels.getD (tree.levels.length - 1) []).getD 0 []

/-- The function `merkle_tree_get_leaf`, as the bytes written to `hash` (for an index below
`leaf_count`). -/
def merkle_tree_get_leaf (tree : merkle_tree_t) (index : Nat) : List Nat :=
  hash32 ((tree.levels.getD 0 []).getD index [])

/-- The struct `merkle_proof_t`. -/
structure merkle_proof_t where
  path_length : Nat
  hashes : List (List Nat)
  directions : List Int
deriving DecidableEq

/-- The loop of `merkle_proof_create` from the node `index` of level `level`, for at most
`fuel` passes (`proof_index < path_length`): the entries of `hashes` and `directions` it
writes. The node has a parent when a level above it was built; it is the `left` of its
parent when `index` is even. -/
def merkle_proof_loop (levels : List (List (List Nat))) :
    Nat → Nat → Nat → List (List Nat) × List Int
  | 0, _, _ => ([], [])
  | fuel + 1, level, index =>
    if level + 1 < levels.length then
      let current_level := levels.getD level []
      let current := current_level.getD index []
      let sibling : Option (List Nat) :=
        if index % 2 = 0 then
          (if index + 1 < current_level.length then some (current_level.getD (index + 1) [])
          else none)
        else some (current_level.getD (index - 1) [])
      let hash := match sibling with
        | some s => hash32 s
        | none => hash32 current
      let direction : Int := if index % 2 = 0 then 1 else 0
      let r := merkle_proof_loop levels fuel (level + 1) (index / 2)
      (hash :: r.1, direction :: r.2)
    else ([], [])

/-- The function `merkle_proof_create`; `none` is `NULL`. The pointer `tree->leaves[i]` is
`NULL` until `merkle_tree_build` has made the leaf nodes. -/
def merkle_proof_create (tree : merkle_tree_t) (leaf_index : Nat) : Option merkle_proof_t :=
  if leaf_index ≥ tree.leaf_count then none
  else if leaf_index ≥ (tree.levels.getD 0 []).length then none
  else
    let r := merkle_proof_loop tree.levels tree.height 0 leaf_index
    some { path_length := tree.height, hashes := r.1, directions := r.2 }

/-- The function `merkle_proof_verify`. -/
def merkle_proof_verify (leaf_hash : List Nat) (proof : merkle_proof_t) (root_hash : List Nat) :
    Int :=
  let current_hash := (List.range proof.path_length).foldl
    (fun current_hash i =>
      if proof.directions.getD i 0 = 0 then
        SM3.sm3_hash (hash32 (proof.hashes.getD i []) ++ hash32 current_hash)
      else SM3.sm3_hash (hash32 current_hash ++ hash32 (proof.hashes.getD i [])))
    (hash32 leaf_hash)
  if hash32 current_hash = hash32 root_hash then 1 else 0

/-! ### Test data -/

/-- Three leaf hashes: 32 bytes 1, 32 bytes 2, 32 bytes 3. -/
def three_leaves : List (List Nat) :=
  [List.replicate 32 1, List.replicate 32 2, List.replicate 32 3]

/-- The tree of `merkle_tree_create(3)` and `merkle_tree_build` on `three_leaves`. -/
def three_leaf_tree : merkle_tree_t :=
  merkle_tree_build { leaf_count := 3, height := log2_ceil 3, levels := [] } three_leaves

end Merkle

namespace SM4
/-! ## Words and bytes -/

theorem or_bytes_eq (b0 b1 b2 b3 : Nat) (h1 : b1 < 256) (h2 : b2 < 256) (h3 : b3 < 256) :
    ((b0 <<< 24) ||| (b1 <<< 16) ||| (b2 <<< 8) ||| b3) =
      b0 * 16777216 + b1 * 65536 + b2 * 256 + b3 := by
  have e1 : (b0 <<< 24) ||| (b1 <<< 16) = 2 ^ 24 * b0 + b1 * 65536 := by
    rw [Nat.shiftLeft_eq, Nat.shiftLeft_eq, Nat.mul_comm b0]
    exact (Nat.mul_add_lt_is_or (by omega) b0).symm
  have e2 : (2 ^ 24 * b0 + b1 * 65536) ||| (b2 <<< 8) =
      2 ^ 16 * (256 * b0 + b1) + b2 * 256 := by
    rw [Nat.shiftLeft_eq]
    have hs : 2 ^ 24 * b0 + b1 * 65536 = 2 ^ 16 * (256 * b0 + b1) := by omega
    rw [hs]
    exact (Nat.mul_add_lt_is_or (by omega) _).symm
  have e3 : (2 ^ 16 * (256 * b0 + b1) + b2 * 256) ||| b3 =
      2 ^ 8 * (65536 * b0 + 256 * b1 + b2) + b3 := by
    have hs : 2 ^ 16 * (256 * b0 + b1) + b2 * 256 =
        2 ^ 8 * (65536 * b0 + 256 * b1 + b2) := by omega
    rw [hs]
    exact (Nat.mul_add_lt_is_or (by omega) _).symm
  rw [e1, e2, e3]; omega

theorem word_of_bytes_of_word (v : Nat) (hv : v < 4294967296) :
    ((((v >>> 24) % 256) <<< 24) ||| (((v >>> 16) % 256) <<< 16) |||
      (((v >>> 8) % 256) <<< 8) ||| (v % 256)) % 4294967296 = v := by
  rw [or_bytes_eq _ _ _ _ (Nat.mod_lt _ (by norm_num)) (Nat.mod_lt _ (by norm_num))
    (Nat.mod_lt _ (by norm_num))]
  simp only [Nat.shiftRight_eq_div_pow]
  omega

theorem store_of_or_bytes (b0 b1 b2 b3 : Nat) (h0 : b0 < 256) (h1 : b1 < 256)
    (h2 : b2 < 256) (h3 : b3 < 256) :
    store_u32_be (((b0 <<< 24) ||| (b1 <<< 16) ||| (b2 <<< 8) ||| b3) % 4294967296) =
      [b0, b1, b2, b3] := by
  unfold store_u32_be
  rw [or_bytes_eq _ _ _ _ h1 h2 h3]
  simp only [Nat.shiftRight_eq_div_pow]
  have e0 : ((b0 * 16777216 + b1 * 65536 + b2 * 256 + b3) % 4294967296 / 2 ^ 24) % 256 = b0 := by
    omega
  have e1 : ((b0 * 16777216 + b1 * 65536 + b2 * 256 + b3) % 4294967296 / 2 ^ 16) % 256 = b1 := by
    omega
  have e2 : ((b0 * 16777216 + b1 * 65536 + b2 * 256 + b3) % 4294967296 / 2 ^ 8) % 256 = b2 := by
    omega
  have e3 : ((b0 * 16777216 + b1 * 65536 + b2 * 256 + b3) % 4294967296) % 256 = b3 := by
    omega
  rw [e0, e1, e2, e3]

theorem store_u32_be_length (v : Nat) : (store_u32_be v).length = 4 := rfl

/-- Loading the four words of a block written by four `store_u32_be` calls. -/
theorem load_of_stores (a b c d : Nat) (ha : a < 4294967296) (hb : b < 4294967296)
    (hc : c < 4294967296) (hd : d < 4294967296) :
    load_u32_be (store_u32_be a ++ store_u32_be b ++ store_u32_be c ++ store_u32_be d) 0 = a ∧
    load_u32_be (store_u32_be a ++ store_u32_be b ++ store_u32_be c ++ store_u32_be d) 4 = b ∧
    load_u32_be (store_u32_be a ++ store_u32_be b ++ store_u32_be c ++ store_u32_be d) 8 = c ∧
    load_u32_be (store_u32_be a ++ store_u32_be b ++ store_u32_be c ++ store_u32_be d) 12 = d := by
  refine ⟨?_, ?_, ?_, ?_⟩
  · exact word_of_bytes_of_word a ha
  · exact word_of_bytes_of_word b hb
  · exact word_of_bytes_of_word c hc
  · exact word_of_bytes_of_word d hd

theorem load_u32_be_lt (b : List Nat) (off : Nat) : load_u32_be b off < 4294967296 :=
  Nat.mod_lt _ (by norm_num)

theorem rotl32_lt (x n : Nat) : rotl32 x n < 4294967296 :=
  Nat.mod_lt _ (by norm_num)

theorem xor_lt_word {a b : Nat} (ha : a < 4294967296) (hb : b < 4294967296) :
    a ^^^ b < 4294967296 := by
  have h : (4294967296 : Nat) = 2 ^ 32 := by norm_num
  rw [h] at *
  exact Nat.xor_lt_two_pow ha hb

theorem sm4_l_transform_lt (a : Nat) (ha : a < 4294967296) : sm4_l_transform a < 4294967296 := by
  unfold sm4_l_transform
  exact xor_lt_word (xor_lt_word (xor_lt_word (xor_lt_word ha (rotl32_lt _ _)) (rotl32_lt _ _))
    (rotl32_lt _ _)) (rotl32_lt _ _)

theorem T_TABLE_getD_lt (i : Nat) : T_TABLE.getD i 0 < 4294967296 := by
  unfold T_TABLE
  rw [List.getD_eq_getElem?_getD, List.getElem?_map]
  cases h : SM4_SBOX[i]? with
  | none => simp
  | some s =>
    simp only [Option.map_some', Option.getD_some]
    exact sm4_l_transform_lt _ (Nat.mod_lt _ (by norm_num))

theorem sm4_t_transform_table_lt (a : Nat) : sm4_t_transform_table a < 4294967296 := by
  unfold sm4_t_transform_table
  exact xor_lt_word (xor_lt_word (xor_lt_word (T_TABLE_getD_lt _) (rotl32_lt _ _)) (rotl32_lt _ _))
    (rotl32_lt _ _)

/-! ## The round loop and its inverse -/

theorem getD_range_map (l : List Nat) (n : Nat) (h : l.length = n) :
    (List.range n).map (fun i => l.getD i 0) = l := by
  apply List.ext_getElem
  · simp [h]
  · intro i h1 h2
    simp [List.getD_eq_getElem?_getD, List.getElem?_eq_getElem h2]

/-- The round loop of `sm4_encrypt_block` is a left fold of `sm4_round` over the schedule. -/
theorem round_loop_eq_foldl (rk : List Nat) (h : rk.length = 32) (X : Nat × Nat × Nat × Nat) :
    (List.range 32).foldl (fun X i => sm4_round X (rk.getD i 0)) X = rk.foldl sm4_round X := by
  have e := getD_range_map rk 32 h
  calc (List.range 32).foldl (fun X i => sm4_round X (rk.getD i 0)) X
      = ((List.range 32).map (fun i => rk.getD i 0)).foldl sm4_round X := by
        rw [List.foldl_map]
    _ = rk.foldl sm4_round X := by rw [e]

/-- A round run on the reversed state with the same round key undoes the round. -/
theorem sm4_round_reverse (X : Nat × Nat × Nat × Nat) (k : Nat) :
    sm4_round (state_reverse (sm4_round X k)) k = state_reverse X := by
  obtain ⟨a, b, c, d⟩ := X
  simp only [sm4_round, state_reverse]
  have e : d ^^^ c ^^^ b ^^^ k = b ^^^ c ^^^ d ^^^ k := by
    rw [Nat.xor_assoc d c b, Nat.xor_comm d (c ^^^ b), Nat.xor_comm c b]
  rw [e, Nat.xor_cancel_right]

/-- Running the rounds with the reversed schedule on the reversed state undoes the rounds. -/
theorem rounds_reverse (ks : List Nat) (X : Nat × Nat × Nat × Nat) :
    ks.reverse.foldl sm4_round (state_reverse (ks.foldl sm4_round X)) = state_reverse X := by
  induction ks generalizing X with
  | nil => rfl
  | cons k ks ih =>
    simp only [List.reverse_cons, List.foldl_append, List.foldl_cons, List.foldl_nil]
    rw [ih]
    exact sm4_round_reverse X k

theorem sm4_round_words_ok (X : Nat × Nat × Nat × Nat) (k : Nat) (h : state_words_ok X) :
    state_words_ok (sm4_round X k) := by
  obtain ⟨a, b, c, d⟩ := X
  obtain ⟨ha, hb, hc, hd⟩ := h
  exact ⟨hb, hc, hd, xor_lt_word ha (sm4_t_transform_table_lt _)⟩

theorem rounds_words_ok (ks : List Nat) (X : Nat × Nat × Nat × Nat) (h : state_words_ok X) :
    state_words_ok (ks.foldl sm4_round X) := by
  induction ks generalizing X with
  | nil => exact h
  | cons k ks ih => exact ih _ (sm4_round_words_ok X k h)

/-! ## The key schedule -/

theorem set_key_loop_length (l : List Nat) (s : List Nat × List Nat) :
    (l.foldl sm4_set_key_step s).1.length = s.1.length ∧
      (l.foldl sm4_set_key_step s).2.length = s.2.length := by
  induction l generalizing s with
  | nil => exact ⟨rfl, rfl⟩
  | cons i l ih =>
    rw [List.foldl_cons]
    obtain ⟨h1, h2⟩ := ih (sm4_set_key_step s i)
    rw [h1, h2]
    simp [sm4_set_key_step]

theorem sm4_expand_key_length (key : List Nat) :
    (sm4_expand_key key).1.length = 36 ∧ (sm4_expand_key key).2.length = 32 := by
  unfold sm4_expand_key
  obtain ⟨h1, h2⟩ := set_key_loop_length (List.range 32) (sm4_initial_K key, List.replicate 32 0)
  rw [h1, h2]
  simp [sm4_initial_K]

/-- Reading a buffer after one write. -/
theorem getD_set_eq (l : List Nat) (i j v : Nat) (hi : i < l.length) :
    (l.set i v).getD j 0 = if j = i then v else l.getD j 0 := by
  by_cases h : j = i
  · subst h
    rw [if_pos rfl, List.getD_eq_getElem?_getD, List.getElem?_set_self hi]
    rfl
  · rw [if_neg h, List.getD_eq_getElem?_getD, List.getD_eq_getElem?_getD,
      List.getElem?_set_ne (fun e => h e.symm)]

theorem swap_step_getD (r : List Nat) (hl : r.length = 32) (n i : Nat) (hn : n < 16) :
    (sm4_swap_step r n).getD i 0 =
      if i = 31 - n then r.getD n 0 else if i = n then r.getD (31 - n) 0 else r.getD i 0 := by
  unfold sm4_swap_step
  have h1 : 31 - n < (r.set n (r.getD (31 - n) 0)).length := by
    rw [List.length_set]; omega
  rw [getD_set_eq _ _ _ _ h1, getD_set_eq _ _ _ _ (by omega)]

/-- The swap loop of `sm4_set_key` after `n` passes: the outer `n` entries on both
sides are exchanged, the middle is untouched. -/
theorem swap_loop_invariant (rk : List Nat) (h : rk.length = 32) (n : Nat) (hn : n ≤ 16) :
    ((List.range n).foldl sm4_swap_step rk).length = 32 ∧
    ∀ i, i < 32 → ((List.range n).foldl sm4_swap_step rk).getD i 0 =
      if i < n ∨ 31 - n < i then rk.getD (31 - i) 0 else rk.getD i 0 := by
  induction n with
  | zero =>
    refine ⟨by simpa using h, ?_⟩
    intro i hi
    have c : ¬ (i < 0 ∨ 31 - 0 < i) := by omega
    rw [if_neg c]
    rfl
  | succ n ih =>
    obtain ⟨hl, hg⟩ := ih (by omega)
    rw [List.range_succ, List.foldl_append, List.foldl_cons, List.foldl_nil]
    refine ⟨by simp [sm4_swap_step, hl], ?_⟩
    intro i hi
    rw [swap_step_getD _ hl n i (by omega), hg n (by omega), hg i hi, hg (31 - n) (by omega)]
    have e1 : 31 - (31 - n) = n := by omega
    split_ifs <;> first | rfl | omega | (rw [e1]) | (subst_vars; rfl) | (congr 1; omega)

theorem swap_loop_getD (rk : List Nat) (h : rk.length = 32) (i : Nat) (hi : i < 32) :
    ((List.range 16).foldl sm4_swap_step rk).getD i 0 = rk.getD (31 - i) 0 := by
  have c : i < 16 ∨ 31 - 16 < i := by omega
  rw [(swap_loop_invariant rk h 16 (Nat.le_refl 16)).2 i hi, if_pos c]

theorem eq_reverse_of_getD (r rk : List Nat) (hr : r.length = 32) (h : rk.length = 32)
    (he : ∀ i, i < 32 → r.getD i 0 = rk.getD (31 - i) 0) : r = rk.reverse := by
  apply List.ext_getElem
  · rw [hr, List.length_reverse, h]
  · intro i h1 h2
    have hi : i < 32 := by rw [hr] at h1; exact h1
    have e := he i hi
    have h3 : 31 - i < rk.length := by omega
    rw [List.getD_eq_getElem?_getD, List.getD_eq_getElem?_getD, List.getElem?_eq_getElem h1,
      List.getElem?_eq_getElem h3] at e
    simp only [Option.getD_some] at e
    rw [List.getElem_reverse, e]
    congr 1
    omega

theorem swap_loop_eq_reverse (rk : List Nat) (h : rk.length = 32) :
    (List.range 16).foldl sm4_swap_step rk = rk.reverse :=
  eq_reverse_of_getD _ rk (swap_loop_invariant rk h 16 (Nat.le_refl 16)).1 h
    (swap_loop_getD rk h)

theorem sm4_set_encrypt_key_rk (key : List Nat) :
    (sm4_set_encrypt_key key).rk = (sm4_expand_key key).2 := by
  simp [sm4_set_encrypt_key, sm4_set_key]

theorem sm4_set_decrypt_key_rk (key : List Nat) :
    (sm4_set_decrypt_key key).rk = (List.range 16).foldl sm4_swap_step (sm4_expand_key key).2 := by
  simp [sm4_set_decrypt_key, sm4_set_key]

theorem sm4_set_encrypt_key_length (key : List Nat) :
    (sm4_set_encrypt_key key).rk.length = 32 := by
  rw [sm4_set_encrypt_key_rk]
  exact (sm4_expand_key_length key).2

theorem sm4_set_decrypt_key_eq_reverse (key : List Nat) :
    (sm4_set_decrypt_key key).rk = (sm4_set_encrypt_key key).rk.reverse := by
  rw [sm4_set_decrypt_key_rk, sm4_set_encrypt_key_rk]
  exact swap_loop_eq_reverse _ (sm4_expand_key_length key).2

/-! ## The block transform -/

theorem sm4_encrypt_block_eq (ctx : SM4_Context) (h : ctx.rk.length = 32) (inp : List Nat) :
    sm4_encrypt_block ctx inp =
      store_state (state_reverse (ctx.rk.foldl sm4_round (load_state inp))) := by
  unfold sm4_encrypt_block
  simp only [round_loop_eq_foldl ctx.rk h]
  rfl

theorem sm4_encrypt_block_length (ctx : SM4_Context) (inp : List Nat) :
    (sm4_encrypt_block ctx inp).length = 16 := by
  unfold sm4_encrypt_block
  simp [store_u32_be_length]

theorem load_state_words_ok (inp : List Nat) : state_words_ok (load_state inp) :=
  ⟨load_u32_be_lt _ _, load_u32_be_lt _ _, load_u32_be_lt _ _, load_u32_be_lt _ _⟩

theorem load_store_state (X : Nat × Nat × Nat × Nat) (h : state_words_ok X) :
    load_state (store_state X) = X := by
  obtain ⟨a, b, c, d⟩ := X
  obtain ⟨ha, hb, hc, hd⟩ := h
  obtain ⟨e0, e1, e2, e3⟩ := load_of_stores a b c d ha hb hc hd
  simp only [load_state, store_state, e0, e1, e2, e3]

theorem store_load_state (P : List Nat) (hP : P.length = 16) (hb : ∀ b ∈ P, b < 256) :
    store_state (load_state P) = P := by
  match P, hP, hb with
  | [p0, p1, p2, p3, p4, p5, p6, p7, p8, p9, p10, p11, p12, p13, p14, p15], _, hb =>
    have h0 := hb p0 (by simp)
    have h1 := hb p1 (by simp)
    have h2 := hb p2 (by simp)
    have h3 := hb p3 (by simp)
    have h4 := hb p4 (by simp)
    have h5 := hb p5 (by simp)
    have h6 := hb p6 (by simp)
    have h7 := hb p7 (by simp)
    have h8 := hb p8 (by simp)
    have h9 := hb p9 (by simp)
    have h10 := hb p10 (by simp)
    have h11 := hb p11 (by simp)
    have h12 := hb p12 (by simp)
    have h13 := hb p13 (by simp)
    have h14 := hb p14 (by simp)
    have h15 := hb p15 (by simp)
    have e0 := store_of_or_bytes p0 p1 p2 p3 h0 h1 h2 h3
    have e1 := store_of_or_bytes p4 p5 p6 p7 h4 h5 h6 h7
    have e2 := store_of_or_bytes p8 p9 p10 p11 h8 h9 h10 h11
    have e3 := store_of_or_bytes p12 p13 p14 p15 h12 h13 h14 h15
    show store_u32_be (((p0 <<< 24) ||| (p1 <<< 16) ||| (p2 <<< 8) ||| p3) % 4294967296) ++
        store_u32_be (((p4 <<< 24) ||| (p5 <<< 16) ||| (p6 <<< 8) ||| p7) % 4294967296) ++
        store_u32_be (((p8 <<< 24) ||| (p9 <<< 16) ||| (p10 <<< 8) ||| p11) % 4294967296) ++
        store_u32_be (((p12 <<< 24) ||| (p13 <<< 16) ||| (p14 <<< 8) ||| p15) % 4294967296) = _
    rw [e0, e1, e2, e3]
    rfl

theorem state_reverse_words_ok (X : Nat × Nat × Nat × Nat) (h : state_words_ok X) :
    state_words_ok (state_reverse X) := by
  obtain ⟨a, b, c, d⟩ := X
  obtain ⟨h0, h1, h2, h3⟩ := h
  exact ⟨h3, h2, h1, h0⟩

/-- The block transform run with a reversed schedule undoes the block transform. -/
theorem block_round_trip_of_schedule (rk P : List Nat) (h : rk.length = 32)
    (hP : P.length = 16) (hb : ∀ b ∈ P, b < 256) :
    sm4_encrypt_block ⟨rk.reverse⟩ (sm4_encrypt_block ⟨rk⟩ P) = P := by
  have hD : (SM4_Context.mk rk.reverse).rk.length = 32 := by
    show rk.reverse.length = 32
    rw [List.length_reverse, h]
  rw [sm4_encrypt_block_eq _ hD, sm4_encrypt_block_eq ⟨rk⟩ h]
  have hw := state_reverse_words_ok _ (rounds_words_ok rk _ (load_state_words_ok P))
  rw [load_store_state _ hw]
  show store_state (state_reverse (rk.reverse.foldl sm4_round
    (state_reverse (rk.foldl sm4_round (load_state P))))) = P
  rw [rounds_reverse]
  exact store_load_state P hP hb

/-- C1. Block round trip: for every key `K` and every 16-byte block `P`,
`sm4_decrypt_block` under the context of `sm4_set_decrypt_key K`, applied to the output of
`sm4_encrypt_block` under the context of `sm4_set_encrypt_key K` on `P`, returns `P`. -/
theorem sm4_block_round_trip (K P : List Nat) (hP : P.length = 16) (hb : ∀ b ∈ P, b < 256) :
    sm4_decrypt_block (sm4_set_decrypt_key K)
      (sm4_encrypt_block (sm4_set_encrypt_key K) P) = P := by
  have hE := sm4_set_encrypt_key_length K
  have hD : sm4_set_decrypt_key K = ⟨(sm4_set_encrypt_key K).rk.reverse⟩ := by
    have e := sm4_set_decrypt_key_eq_reverse K
    generalize sm4_set_decrypt_key K = d at e
    cases d
    simp only [SM4_Context.mk.injEq]
    exact e
  unfold sm4_decrypt_block
  rw [hD]
  generalize sm4_set_encrypt_key K = c at hE ⊢
  cases c with
  | mk rk => exact block_round_trip_of_schedule rk P hE hP hb

/-! ## Known-answer vectors and the reference transform -/

/-- C2. Known-answer vector 1 on the code: with key `0123456789abcdeffedcba9876543210` and
the plaintext equal to the key bytes, `sm4_set_encrypt_key` followed by `sm4_encrypt_block`
outputs `42e71145aaf67ab0ce0152399ef2dd2a`, which is not the expected
`681edf34d206965e86b3e94f536e4246`. -/
theorem kat1_code_output :
    sm4_encrypt_block (sm4_set_encrypt_key kat1_key) kat1_key =
      [0x42, 0xe7, 0x11, 0x45, 0xaa, 0xf6, 0x7a, 0xb0, 0xce, 0x01, 0x52, 0x39, 0x9e, 0xf2,
        0xdd, 0x2a] ∧
    sm4_encrypt_block (sm4_set_encrypt_key kat1_key) kat1_key ≠ kat1_ciphertext := by
  have e : sm4_encrypt_block (sm4_set_encrypt_key kat1_key) kat1_key =
      [0x42, 0xe7, 0x11, 0x45, 0xaa, 0xf6, 0x7a, 0xb0, 0xce, 0x01, 0x52, 0x39, 0x9e, 0xf2,
        0xdd, 0x2a] := by rfl
  refine ⟨e, ?_⟩
  rw [e]
  decide

/-- C3. Known-answer vector 2 on the code: with key `000102030405060708090a0b0c0d0e0f` and
an all-zero plaintext, `sm4_set_encrypt_key` followed by `sm4_encrypt_block` outputs
`566081a42f776daa98c7e046ba1a383e`, which is not the expected
`595298c7c6fd271f0402f804c33d3f66`. -/
theorem kat2_code_output :
    sm4_encrypt_block (sm4_set_encrypt_key kat2_key) kat2_plaintext =
      [0x56, 0x60, 0x81, 0xa4, 0x2f, 0x77, 0x6d, 0xaa, 0x98, 0xc7, 0xe0, 0x46, 0xba, 0x1a,
        0x38, 0x3e] ∧
    sm4_encrypt_block (sm4_set_encrypt_key kat2_key) kat2_plaintext ≠ kat2_ciphertext := by
  have e : sm4_encrypt_block (sm4_set_encrypt_key kat2_key) kat2_plaintext =
      [0x56, 0x60, 0x81, 0xa4, 0x2f, 0x77, 0x6d, 0xaa, 0x98, 0xc7, 0xe0, 0x46, 0xba, 0x1a,
        0x38, 0x3e] := by rfl
  refine ⟨e, ?_⟩
  rw [e]
  decide

/-- C4. The table transform against the reference on one input: under the schedule of the
first test key and on the first test plaintext, `sm4_encrypt_block` returns
`42e71145aaf67ab0ce0152399ef2dd2a` while the reference algorithm returns
`40e014c4416ea3486f0b99ff61bd1ad2`; already on the word `1` the table transform gives
`0x42051c42` and the reference round transform `0x1c424205`. -/
theorem table_block_differs_from_reference :
    sm4_encrypt_block (sm4_set_encrypt_key kat1_key) kat1_key =
      [0x42, 0xe7, 0x11, 0x45, 0xaa, 0xf6, 0x7a, 0xb0, 0xce, 0x01, 0x52, 0x39, 0x9e, 0xf2,
        0xdd, 0x2a] ∧
    encrypt_block_spec (sm4_set_encrypt_key kat1_key).rk kat1_key =
      [0x40, 0xe0, 0x14, 0xc4, 0x41, 0x6e, 0xa3, 0x48, 0x6f, 0x0b, 0x99, 0xff, 0x61, 0xbd,
        0x1a, 0xd2] ∧
    sm4_t_transform_table 1 = 0x42051c42 ∧ round_transform_spec 1 = 0x1c424205 := by
  refine ⟨by rfl, by rfl, by rfl, by rfl⟩

/-! ## The key schedule recurrence -/

theorem getD_lt_of_forall (l : List Nat) (n : Nat) (hn : 0 < n) (h : ∀ x ∈ l, x < n) (i : Nat) :
    l.getD i 0 < n := by
  rw [List.getD_eq_getElem?_getD]
  cases e : l[i]? with
  | none => exact hn
  | some x => exact h x (List.getElem?_mem e)

set_option maxRecDepth 100000 in
theorem SM4_SBOX_lt (i : Nat) : SM4_SBOX.getD i 0 < 256 :=
  getD_lt_of_forall SM4_SBOX 256 (by norm_num) (by decide) i

theorem load_u32_be_eq_spec (b : List Nat) (hb : ∀ x ∈ b, x < 256) (off : Nat) :
    load_u32_be b off = be_word_spec b off := by
  have h0 := getD_lt_of_forall b 256 (by norm_num) hb off
  have h1 := getD_lt_of_forall b 256 (by norm_num) hb (off + 1)
  have h2 := getD_lt_of_forall b 256 (by norm_num) hb (off + 2)
  have h3 := getD_lt_of_forall b 256 (by norm_num) hb (off + 3)
  unfold load_u32_be be_word_spec
  rw [or_bytes_eq _ _ _ _ h1 h2 h3]
  omega

theorem sm4_t_prime_transform_eq_spec (a : Nat) :
    sm4_t_prime_transform a = key_transform_spec a := by
  have h0 := SM4_SBOX_lt ((a >>> 24) % 256)
  have h1 := SM4_SBOX_lt ((a >>> 16) % 256)
  have h2 := SM4_SBOX_lt ((a >>> 8) % 256)
  have h3 := SM4_SBOX_lt (a % 256)
  have e : ((SM4_SBOX.getD ((a >>> 24) % 256) 0 <<< 24) |||
      (SM4_SBOX.getD ((a >>> 16) % 256) 0 <<< 16) |||
      (SM4_SBOX.getD ((a >>> 8) % 256) 0 <<< 8) |||
      SM4_SBOX.getD (a % 256) 0) % 4294967296 = sbox_word_spec a := by
    rw [or_bytes_eq _ _ _ _ h1 h2 h3]
    unfold sbox_word_spec
    simp only [Nat.shiftRight_eq_div_pow] at *
    norm_num at *
    omega
  unfold sm4_t_prime_transform key_transform_spec sm4_l_prime_transform
  simp only [e]

/-- The recurrence `K[i+4] = K[i] ^ T'(K[i+1] ^ K[i+2] ^ K[i+3] ^ FIXED_PARAMETER[i])` at
index `i` of an array `K`. -/
theorem set_key_step_fst_getD (s : List Nat × List Nat) (i j : Nat) (h : i + 4 < s.1.length) :
    (sm4_set_key_step s i).1.getD j 0 =
      if j = i + 4 then
        s.1.getD i 0 ^^^ sm4_t_prime_transform
          (s.1.getD (i + 1) 0 ^^^ s.1.getD (i + 2) 0 ^^^ s.1.getD (i + 3) 0 ^^^
            FIXED_PARAMETER.getD i 0)
      else s.1.getD j 0 := by
  unfold sm4_set_key_step
  exact getD_set_eq _ _ _ _ h

theorem set_key_step_snd_getD (s : List Nat × List Nat) (i j : Nat) (h : i < s.2.length) :
    (sm4_set_key_step s i).2.getD j 0 =
      if j = i then
        s.1.getD i 0 ^^^ sm4_t_prime_transform
          (s.1.getD (i + 1) 0 ^^^ s.1.getD (i + 2) 0 ^^^ s.1.getD (i + 3) 0 ^^^
            FIXED_PARAMETER.getD i 0)
      else s.2.getD j 0 := by
  unfold sm4_set_key_step
  exact getD_set_eq _ _ _ _ h

/-- The expansion loop of `sm4_set_key` after `n` passes: the first four words of `K` are
untouched, and every index below `n` satisfies the recurrence and has been copied to `rk`. -/
theorem set_key_loop_invariant (s0 : List Nat × List Nat) (h1 : s0.1.length = 36)
    (h2 : s0.2.length = 32) (n : Nat) (hn : n ≤ 32) :
    (∀ j, j < 4 → ((List.range n).foldl sm4_set_key_step s0).1.getD j 0 = s0.1.getD j 0) ∧
    ∀ i, i < n →
      ((List.range n).foldl sm4_set_key_step s0).2.getD i 0 =
        ((List.range n).foldl sm4_set_key_step s0).1.getD (i + 4) 0 ∧
      ((List.range n).foldl sm4_set_key_step s0).1.getD (i + 4) 0 =
        ((List.range n).foldl sm4_set_key_step s0).1.getD i 0 ^^^
          sm4_t_prime_transform
            (((List.range n).foldl sm4_set_key_step s0).1.getD (i + 1) 0 ^^^
              ((List.range n).foldl sm4_set_key_step s0).1.getD (i + 2) 0 ^^^
              ((List.range n).foldl sm4_set_key_step s0).1.getD (i + 3) 0 ^^^
              FIXED_PARAMETER.getD i 0) := by
  induction n with
  | zero =>
    refine ⟨fun j _ => rfl, ?_⟩
    intro i hi
    omega
  | succ n ih =>
    obtain ⟨ha, hb⟩ := ih (by omega)
    obtain ⟨l1, l2⟩ := set_key_loop_length (List.range n) s0
    rw [h1] at l1
    rw [h2] at l2
    rw [List.range_succ, List.foldl_append, List.foldl_cons, List.foldl_nil]
    generalize (List.range n).foldl sm4_set_key_step s0 = s at ha hb l1 l2 ⊢
    have hK := fun j => set_key_step_fst_getD s n j (by omega)
    have hR := fun j => set_key_step_snd_getD s n j (by omega)
    constructor
    · intro j hj
      rw [hK j, if_neg (by omega)]
      exact ha j hj
    · intro i hi
      rw [hR i, hK (i + 4), hK i, hK (i + 1), hK (i + 2), hK (i + 3)]
      rw [if_neg (show ¬ i = n + 4 by omega), if_neg (show ¬ i + 1 = n + 4 by omega),
        if_neg (show ¬ i + 2 = n + 4 by omega), if_neg (show ¬ i + 3 = n + 4 by omega)]
      by_cases c : i = n
      · subst c
        rw [if_pos rfl, if_pos rfl]
        exact ⟨rfl, rfl⟩
      · rw [if_neg c, if_neg (show ¬ i + 4 = n + 4 by omega)]
        exact hb i (by omega)

theorem sm4_initial_K_getD (key : List Nat) (j : Nat) (hj : j < 4) :
    (sm4_initial_K key).getD j 0 = load_u32_be key (4 * j) ^^^ SYSTEM_PARAMETER.getD j 0 := by
  interval_cases j <;> rfl

/-- C5. Key schedule recurrence: for every 16-byte key, with `MK0..MK3` the big-endian
words of the key and `K[j] = MK[j] XOR SYSTEM_PARAMETER[j]` for `j < 4`, the schedule
written by `sm4_set_encrypt_key` satisfies, for every `i` in `0..31`,
`rk[i] = K[i+4] = K[i] XOR T'(K[i+1] XOR K[i+2] XOR K[i+3] XOR FIXED_PARAMETER[i])`, where
`T'(a) = b XOR rotl(b,13) XOR rotl(b,23)` and `b` is `a` with `SM4_SBOX` applied to each of
its four bytes. -/
theorem sm4_key_schedule_recurrence (key : List Nat) (hb : ∀ x ∈ key, x < 256) :
    ∃ K : List Nat, K.length = 36 ∧
      (∀ j, j < 4 → K.getD j 0 = be_word_spec key (4 * j) ^^^ SYSTEM_PARAMETER.getD j 0) ∧
      ∀ i, i < 32 →
        (sm4_set_encrypt_key key).rk.getD i 0 = K.getD (i + 4) 0 ∧
        K.getD (i + 4) 0 =
          K.getD i 0 ^^^ key_transform_spec
            (K.getD (i + 1) 0 ^^^ K.getD (i + 2) 0 ^^^ K.getD (i + 3) 0 ^^^
              FIXED_PARAMETER.getD i 0) := by
  have h1 : (sm4_initial_K key, List.replicate 32 0).1.length = 36 := by
    simp [sm4_initial_K]
  have h2 : (sm4_initial_K key, List.replicate 32 0).2.length = 32 := by simp
  obtain ⟨ha, hc⟩ := set_key_loop_invariant _ h1 h2 32 (Nat.le_refl 32)
  refine ⟨(sm4_expand_key key).1, (sm4_expand_key_length key).1, ?_, ?_⟩
  · intro j hj
    rw [← load_u32_be_eq_spec key hb, ← sm4_initial_K_getD key j hj]
    exact ha j hj
  · intro i hi
    rw [sm4_set_encrypt_key_rk, ← sm4_t_prime_transform_eq_spec]
    exact hc i hi

/-- C5, at the first test key. -/
theorem sm4_key_schedule_recurrence_witness :
    ∃ K : List Nat, K.length = 36 ∧
      (∀ j, j < 4 → K.getD j 0 = be_word_spec kat1_key (4 * j) ^^^ SYSTEM_PARAMETER.getD j 0) ∧
      ∀ i, i < 32 →
        (sm4_set_encrypt_key kat1_key).rk.getD i 0 = K.getD (i + 4) 0 ∧
        K.getD (i + 4) 0 =
          K.getD i 0 ^^^ key_transform_spec
            (K.getD (i + 1) 0 ^^^ K.getD (i + 2) 0 ^^^ K.getD (i + 3) 0 ^^^
              FIXED_PARAMETER.getD i 0) :=
  sm4_key_schedule_recurrence kat1_key (by decide)

/-- C6. The decrypt schedule is the exact reverse of the encrypt schedule: for every key
and every `i` in `0..31`, the `rk[i]` written by `sm4_set_decrypt_key` equals the
`rk[31-i]` written by `sm4_set_encrypt_key` for the same key. -/
theorem sm4_decrypt_schedule_reversed (key : List Nat) (i : Nat) (hi : i < 32) :
    (sm4_set_decrypt_key key).rk.getD i 0 = (sm4_set_encrypt_key key).rk.getD (31 - i) 0 := by
  rw [sm4_set_decrypt_key_rk, sm4_set_encrypt_key_rk]
  exact swap_loop_getD _ (sm4_expand_key_length key).2 i hi

/-- C6, at the first test key and index 0. -/
theorem sm4_decrypt_schedule_reversed_witness :
    (sm4_set_decrypt_key kat1_key).rk.getD 0 0 = (sm4_set_encrypt_key kat1_key).rk.getD (31 - 0) 0 :=
  sm4_decrypt_schedule_reversed kat1_key 0 (by decide)

/-- C1, at the first test key and plaintext. -/
theorem sm4_block_round_trip_witness :
    sm4_decrypt_block (sm4_set_decrypt_key kat1_key)
      (sm4_encrypt_block (sm4_set_encrypt_key kat1_key) kat1_key) = kat1_key :=
  sm4_block_round_trip kat1_key kat1_key (by decide) (by decide)

/-! ## GCM: decryption undoes encryption -/

theorem zipWith_xor_length (a ks : List Nat) (h : a.length ≤ ks.length) :
    (List.zipWith (fun a b => a ^^^ b) a ks).length = a.length := by
  rw [List.length_zipWith]
  omega

theorem zipWith_xor_cancel (a ks : List Nat) (h : a.length ≤ ks.length) :
    List.zipWith (fun a b => a ^^^ b) (List.zipWith (fun a b => a ^^^ b) a ks) ks = a := by
  induction a generalizing ks with
  | nil => rfl
  | cons x xs ih =>
    cases ks with
    | nil => simp at h
    | cons k ks =>
      simp only [List.zipWith_cons_cons, List.cons.injEq]
      refine ⟨Nat.xor_cancel_right _ _, ih ks ?_⟩
      simpa using h

/-- The full-block loop of `sm4_gcm_encrypt` splits its input into the bytes it has
consumed, as many as it has written, and the bytes it has left. -/
theorem encrypt_loop_lengths (c : SM4_Context) (H : List Nat) (fuel : Nat)
    (ctr g inp : List Nat) :
    (sm4_gcm_encrypt_loop c H fuel ctr g inp).out.length +
      (sm4_gcm_encrypt_loop c H fuel ctr g inp).rest.length = inp.length := by
  induction fuel generalizing ctr g inp with
  | zero => simp [sm4_gcm_encrypt_loop]
  | succ n ih =>
    unfold sm4_gcm_encrypt_loop
    by_cases h : 16 ≤ inp.length
    · rw [if_pos h]
      have e := ih (increment_counter ctr)
        (ghash g H (List.zipWith (fun a b => a ^^^ b) (inp.take 16) (sm4_encrypt_block c ctr)) 16)
        (inp.drop 16)
      have l1 : (List.zipWith (fun a b => a ^^^ b) (inp.take 16)
          (sm4_encrypt_block c ctr)).length = 16 := by
        rw [zipWith_xor_length _ _ (by rw [sm4_encrypt_block_length, List.length_take]; omega),
          List.length_take]
        omega
      simp only [List.length_append, l1]
      rw [List.length_drop] at e
      omega
    · rw [if_neg h]
      simp

/-- With `len / 16` passes allowed, the full-block loop stops with fewer than 16 bytes
left: the loop has ended on its own condition. -/
theorem encrypt_loop_rest_lt (c : SM4_Context) (H : List Nat) (fuel : Nat)
    (ctr g inp : List Nat) (hf : inp.length < 16 * (fuel + 1)) :
    (sm4_gcm_encrypt_loop c H fuel ctr g inp).rest.length < 16 := by
  induction fuel generalizing ctr g inp with
  | zero =>
    simp only [sm4_gcm_encrypt_loop]
    omega
  | succ n ih =>
    unfold sm4_gcm_encrypt_loop
    by_cases h : 16 ≤ inp.length
    · rw [if_pos h]
      exact ih _ _ _ (by rw [List.length_drop]; omega)
    · rw [if_neg h]
      simp only
      omega

/-- The full-block loop of `sm4_gcm_decrypt`, run on what the loop of `sm4_gcm_encrypt`
has written followed by `tailC`, ends with the same counter and GHASH accumulator, leaves
`tailC`, and has written the bytes that the encrypt loop consumed. -/
theorem decrypt_loop_of_encrypt_loop (c : SM4_Context) (H : List Nat) (fuel : Nat)
    (ctr g inp tailC : List Nat)
    (ht : tailC.length = (sm4_gcm_encrypt_loop c H fuel ctr g inp).rest.length)
    (hf : inp.length < 16 * (fuel + 1)) :
    (sm4_gcm_decrypt_loop c H fuel ctr g
        ((sm4_gcm_encrypt_loop c H fuel ctr g inp).out ++ tailC)).counter =
      (sm4_gcm_encrypt_loop c H fuel ctr g inp).counter ∧
    (sm4_gcm_decrypt_loop c H fuel ctr g
        ((sm4_gcm_encrypt_loop c H fuel ctr g inp).out ++ tailC)).ghash_acc =
      (sm4_gcm_encrypt_loop c H fuel ctr g inp).ghash_acc ∧
    (sm4_gcm_decrypt_loop c H fuel ctr g
        ((sm4_gcm_encrypt_loop c H fuel ctr g inp).out ++ tailC)).rest = tailC ∧
    (sm4_gcm_decrypt_loop c H fuel ctr g
        ((sm4_gcm_encrypt_loop c H fuel ctr g inp).out ++ tailC)).out ++
      (sm4_gcm_encrypt_loop c H fuel ctr g inp).rest = inp := by
  induction fuel generalizing ctr g inp with
  | zero =>
    simp [sm4_gcm_encrypt_loop, sm4_gcm_decrypt_loop]
  | succ n ih =>
    unfold sm4_gcm_encrypt_loop at ht ⊢
    by_cases h : 16 ≤ inp.length
    · rw [if_pos h] at ht ⊢
      simp only at ht ⊢
      generalize hks : sm4_encrypt_block c ctr = ks at ht ⊢
      have hkl : ks.length = 16 := by rw [← hks]; exact sm4_encrypt_block_length c ctr
      generalize hblk : List.zipWith (fun a b => a ^^^ b) (inp.take 16) ks = blk at ht ⊢
      have hbl : blk.length = 16 := by
        rw [← hblk, zipWith_xor_length _ _ (by rw [hkl, List.length_take]; omega),
          List.length_take]
        omega
      have hcancel : List.zipWith (fun a b => a ^^^ b) blk ks = inp.take 16 := by
        rw [← hblk]
        exact zipWith_xor_cancel _ _ (by rw [hkl, List.length_take]; omega)
      obtain ⟨i1, i2, i3, i4⟩ := ih (increment_counter ctr) (ghash g H blk 16) (inp.drop 16) ht
        (by rw [List.length_drop]; omega)
      generalize sm4_gcm_encrypt_loop c H n (increment_counter ctr) (ghash g H blk 16)
        (inp.drop 16) = e at i1 i2 i3 i4 ht ⊢
      unfold sm4_gcm_decrypt_loop
      have hlen : 16 ≤ (blk ++ e.out ++ tailC).length := by
        simp only [List.length_append, hbl]
        omega
      have htake : (blk ++ e.out ++ tailC).take 16 = blk := by
        rw [List.append_assoc, List.take_append_of_le_length (by omega), ← hbl, List.take_length]
      have hdrop : (blk ++ e.out ++ tailC).drop 16 = e.out ++ tailC := by
        rw [List.append_assoc, ← hbl, List.drop_left]
      rw [if_pos hlen]
      simp only [htake, hdrop, hks, hcancel]
      refine ⟨i1, i2, i3, ?_⟩
      rw [List.append_assoc, i4, List.take_append_drop]
    · rw [if_neg h] at ht ⊢
      simp only at ht ⊢
      unfold sm4_gcm_decrypt_loop
      have hlen : ¬ 16 ≤ ([] ++ tailC).length := by
        simp only [List.nil_append]
        omega
      rw [if_neg hlen]
      simp

/-- The function `sm4_gcm_decrypt`, run from the state in which `sm4_gcm_encrypt` was
called and on the bytes that call wrote, leaves the same state and writes the input of
the encrypt call. -/
theorem gcm_decrypt_of_encrypt (ctx : SM4_GCM_Context) (P : List Nat) :
    sm4_gcm_decrypt ctx (sm4_gcm_encrypt ctx P).2 = ((sm4_gcm_encrypt ctx P).1, P) := by
  have hf : P.length < 16 * (P.length / 16 + 1) := by omega
  have hlt := encrypt_loop_rest_lt ctx.cipher_ctx ctx.H (P.length / 16)
    (increment_counter (block16 ctx.J0 0)) ctx.final_ghash P hf
  have hsum := encrypt_loop_lengths ctx.cipher_ctx ctx.H (P.length / 16)
    (increment_counter (block16 ctx.J0 0)) ctx.final_ghash P
  have hdec := decrypt_loop_of_encrypt_loop ctx.cipher_ctx ctx.H (P.length / 16)
    (increment_counter (block16 ctx.J0 0)) ctx.final_ghash P
  unfold sm4_gcm_encrypt
  simp only
  generalize sm4_gcm_encrypt_loop ctx.cipher_ctx ctx.H (P.length / 16)
    (increment_counter (block16 ctx.J0 0)) ctx.final_ghash P = e at hlt hsum hdec ⊢
  by_cases hr : 0 < e.rest.length
  · rw [if_pos hr]
    simp only
    generalize hks : sm4_encrypt_block ctx.cipher_ctx e.counter = ks
    have hkl : ks.length = 16 := by rw [← hks]; exact sm4_encrypt_block_length _ _
    have hll : (List.zipWith (fun a b => a ^^^ b) e.rest ks).length = e.rest.length :=
      zipWith_xor_length _ _ (by omega)
    have hcancel := zipWith_xor_cancel e.rest ks (by omega)
    obtain ⟨d1, d2, d3, d4⟩ := hdec (List.zipWith (fun a b => a ^^^ b) e.rest ks) hll hf
    generalize List.zipWith (fun a b => a ^^^ b) e.rest ks = last at hll hcancel d1 d2 d3 d4 ⊢
    have hCl : (e.out ++ last).length = P.length := by
      rw [List.length_append]; omega
    unfold sm4_gcm_decrypt
    simp only [hCl]
    generalize sm4_gcm_decrypt_loop ctx.cipher_ctx ctx.H (P.length / 16)
      (increment_counter (block16 ctx.J0 0)) ctx.final_ghash (e.out ++ last) = d
      at d1 d2 d3 d4 ⊢
    have hr2 : 0 < d.rest.length := by rw [d3]; omega
    rw [if_pos hr2]
    simp only [d1, d2, d3, hks, hcancel, d4]
  · rw [if_neg hr]
    simp only
    have hnil : e.rest = [] := List.eq_nil_of_length_eq_zero (by omega)
    obtain ⟨d1, d2, d3, d4⟩ := hdec [] (by rw [hnil]) hf
    rw [List.append_nil] at d1 d2 d3 d4
    have hCl : e.out.length = P.length := by omega
    unfold sm4_gcm_decrypt
    simp only [hCl]
    generalize sm4_gcm_decrypt_loop ctx.cipher_ctx ctx.H (P.length / 16)
      (increment_counter (block16 ctx.J0 0)) ctx.final_ghash e.out = d at d1 d2 d3 d4 ⊢
    have hr2 : ¬ 0 < d.rest.length := by rw [d3]; simp
    rw [if_neg hr2]
    rw [hnil, List.append_nil] at d4
    simp only [d2, d4]

theorem encrypt_length (ctx : SM4_GCM_Context) (P : List Nat) :
    (sm4_gcm_encrypt ctx P).2.length = P.length := by
  have hf : P.length < 16 * (P.length / 16 + 1) := by omega
  have hlt := encrypt_loop_rest_lt ctx.cipher_ctx ctx.H (P.length / 16)
    (increment_counter (block16 ctx.J0 0)) ctx.final_ghash P hf
  have hsum := encrypt_loop_lengths ctx.cipher_ctx ctx.H (P.length / 16)
    (increment_counter (block16 ctx.J0 0)) ctx.final_ghash P
  unfold sm4_gcm_encrypt
  simp only
  generalize sm4_gcm_encrypt_loop ctx.cipher_ctx ctx.H (P.length / 16)
    (increment_counter (block16 ctx.J0 0)) ctx.final_ghash P = e at hlt hsum ⊢
  by_cases hr : 0 < e.rest.length
  · rw [if_pos hr]
    simp only [List.length_append]
    rw [zipWith_xor_length _ _ (by rw [sm4_encrypt_block_length]; omega)]
    exact hsum
  · rw [if_neg hr]
    simp only
    omega

/-! ## GCM: the tag and its comparison -/

theorem finish_full_length (ctx : SM4_GCM_Context) : (sm4_gcm_finish_full ctx).1.length = 16 := by
  simp [sm4_gcm_finish_full]

theorem finish_tag_eq (ctx : SM4_GCM_Context) (t : Nat) (ht : t ≤ 16) :
    (sm4_gcm_finish ctx t).2 = (sm4_gcm_finish_full ctx).1.take t := by
  unfold sm4_gcm_finish
  simp only
  by_cases h : t < 16
  · rw [if_pos h]
  · rw [if_neg h]
    have e : t = 16 := by omega
    rw [e]

theorem finish_tag_16 (ctx : SM4_GCM_Context) :
    (sm4_gcm_finish ctx 16).2 = (sm4_gcm_finish_full ctx).1 := by
  rw [finish_tag_eq ctx 16 (Nat.le_refl 16)]
  have h := finish_full_length ctx
  generalize (sm4_gcm_finish_full ctx).1 = l at h ⊢
  rw [← h, List.take_length]

/-- The comparison loop returns 0 when the two buffers agree on the compared range. -/
theorem tag_compare_loop_eq_zero (ctag tag : List Nat) (n i : Nat)
    (h : ∀ j, i ≤ j → j < i + n → ctag.getD j 0 = tag.getD j 0) :
    tag_compare_loop ctag tag n i = 0 := by
  induction n generalizing i with
  | zero => rfl
  | succ n ih =>
    unfold tag_compare_loop
    have e := h i (Nat.le_refl i) (by omega)
    rw [if_neg (by simpa using e)]
    exact ih (i + 1) (fun j h1 h2 => h j (by omega) (by omega))

/-- The comparison loop returns -1 when the two buffers differ somewhere in the compared
range. -/
theorem tag_compare_loop_eq_neg_one (ctag tag : List Nat) (n i j : Nat) (h1 : i ≤ j)
    (h2 : j < i + n) (h : ctag.getD j 0 ≠ tag.getD j 0) :
    tag_compare_loop ctag tag n i = -1 := by
  induction n generalizing i with
  | zero => omega
  | succ n ih =>
    unfold tag_compare_loop
    by_cases c : ctag.getD i 0 ≠ tag.getD i 0
    · rw [if_pos c]
    · rw [if_neg c]
      have hne : i ≠ j := by
        intro e
        subst e
        exact c h
      exact ih (i + 1) (by omega) (by omega)

theorem getD_take (l : List Nat) (t j : Nat) (h : j < t) : (l.take t).getD j 0 = l.getD j 0 := by
  rw [List.getD_eq_getElem?_getD, List.getD_eq_getElem?_getD, List.getElem?_take_of_lt h]

/-! ## GCM: one-shot round trip and tag tampering -/

/-- C7. GCM round trip: for every key, every nonce of any length, every AAD, every
plaintext and every tag length `t` up to 16 (so for every `t` in `1..16`),
`sm4_gcm_decrypt_and_verify` given the ciphertext and the `t`-byte tag produced by
`sm4_gcm_encrypt_and_tag` on the same key, nonce and AAD returns 0 and writes the original
plaintext. -/
theorem sm4_gcm_round_trip (key iv aad P : List Nat) (t : Nat) (ht : t ≤ 16) :
    sm4_gcm_decrypt_and_verify key iv aad
      (sm4_gcm_encrypt_and_tag key iv aad P t).2.1
      (sm4_gcm_encrypt_and_tag key iv aad P t).2.2 = (0, P) := by
  unfold sm4_gcm_decrypt_and_verify sm4_gcm_encrypt_and_tag
  simp only
  generalize (if aad.length > 0 then sm4_gcm_aad (sm4_gcm_init key iv) aad
    else sm4_gcm_init key iv) = ctx
  rw [gcm_decrypt_of_encrypt]
  simp only
  rw [finish_tag_16, finish_tag_eq _ t ht]
  have hl := finish_full_length (sm4_gcm_encrypt ctx P).1
  generalize (sm4_gcm_finish_full (sm4_gcm_encrypt ctx P).1).1 = full at hl ⊢
  have hz : tag_compare_loop full (full.take t) (full.take t).length 0 = 0 := by
    apply tag_compare_loop_eq_zero
    intro j _ h2
    have hj : j < t := by
      rw [List.length_take] at h2
      omega
    exact (getD_take full t j hj).symm
  rw [hz]
  simp

/-- C7, at the second test key with a 20-byte nonce, 3 bytes of AAD, a 5-byte plaintext
and a 7-byte tag. -/
theorem sm4_gcm_round_trip_witness :
    sm4_gcm_decrypt_and_verify kat2_key (List.replicate 20 0) [1, 2, 3]
      (sm4_gcm_encrypt_and_tag kat2_key (List.replicate 20 0) [1, 2, 3] [9, 8, 7, 6, 5] 7).2.1
      (sm4_gcm_encrypt_and_tag kat2_key (List.replicate 20 0) [1, 2, 3] [9, 8, 7, 6, 5] 7).2.2
        = (0, [9, 8, 7, 6, 5]) :=
  sm4_gcm_round_trip kat2_key (List.replicate 20 0) [1, 2, 3] [9, 8, 7, 6, 5] 7 (by decide)

theorem xor_bit_ne (x k : Nat) : x ≠ x ^^^ (1 <<< k) := by
  intro h
  have e : x ^^^ x = x ^^^ (x ^^^ (1 <<< k)) := congrArg (fun y => x ^^^ y) h
  rw [Nat.xor_self, Nat.xor_cancel_left, Nat.shiftLeft_eq, Nat.one_mul] at e
  exact absurd e.symm (Nat.pos_iff_ne_zero.mp (Nat.two_pow_pos k))

/-- C10. Tag tamper detection: for every key, nonce, AAD, plaintext and tag length `t` in
`1..16`, if `(C, tag)` is the output of `sm4_gcm_encrypt_and_tag`, then
`sm4_gcm_decrypt_and_verify` given `C` and the tag with any single one of its bits flipped
(bit `k` of byte `i < t`) returns non-zero and leaves every byte of the plaintext output
buffer zero. -/
theorem sm4_gcm_tag_tamper_detected (key iv aad P : List Nat) (t i k : Nat) (ht : t ≤ 16)
    (hi : i < t) :
    (sm4_gcm_decrypt_and_verify key iv aad
      (sm4_gcm_encrypt_and_tag key iv aad P t).2.1
      (flip_bit (sm4_gcm_encrypt_and_tag key iv aad P t).2.2 i k)).1 ≠ 0 ∧
    (sm4_gcm_decrypt_and_verify key iv aad
      (sm4_gcm_encrypt_and_tag key iv aad P t).2.1
      (flip_bit (sm4_gcm_encrypt_and_tag key iv aad P t).2.2 i k)).2 =
        List.replicate P.length 0 := by
  unfold sm4_gcm_decrypt_and_verify sm4_gcm_encrypt_and_tag
  simp only
  generalize (if aad.length > 0 then sm4_gcm_aad (sm4_gcm_init key iv) aad
    else sm4_gcm_init key iv) = ctx
  rw [gcm_decrypt_of_encrypt]
  simp only
  rw [finish_tag_16, finish_tag_eq _ t ht, encrypt_length]
  have hl := finish_full_length (sm4_gcm_encrypt ctx P).1
  generalize (sm4_gcm_finish_full (sm4_gcm_encrypt ctx P).1).1 = full at hl ⊢
  have hlen : (flip_bit (full.take t) i k).length = t := by
    unfold flip_bit
    rw [List.length_set, List.length_take]
    omega
  have hne : full.getD i 0 ≠ (flip_bit (full.take t) i k).getD i 0 := by
    unfold flip_bit
    rw [getD_set_eq _ _ _ _ (by rw [List.length_take]; omega), if_pos rfl, getD_take full t i hi]
    exact xor_bit_ne _ _
  have hz : tag_compare_loop full (flip_bit (full.take t) i k)
      (flip_bit (full.take t) i k).length 0 = -1 := by
    apply tag_compare_loop_eq_neg_one full _ _ 0 i (Nat.zero_le i) _ hne
    rw [hlen]
    omega
  rw [hz]
  simp

/-- C10, at the second test key with a 12-byte nonce, no AAD, a 3-byte plaintext and a
4-byte tag whose byte 2 has bit 5 flipped. -/
theorem sm4_gcm_tag_tamper_detected_witness :
    (sm4_gcm_decrypt_and_verify kat2_key (List.replicate 12 0) []
      (sm4_gcm_encrypt_and_tag kat2_key (List.replicate 12 0) [] [1, 2, 3] 4).2.1
      (flip_bit (sm4_gcm_encrypt_and_tag kat2_key (List.replicate 12 0) [] [1, 2, 3] 4).2.2
        2 5)).1 ≠ 0 ∧
    (sm4_gcm_decrypt_and_verify kat2_key (List.replicate 12 0) []
      (sm4_gcm_encrypt_and_tag kat2_key (List.replicate 12 0) [] [1, 2, 3] 4).2.1
      (flip_bit (sm4_gcm_encrypt_and_tag kat2_key (List.replicate 12 0) [] [1, 2, 3] 4).2.2
        2 5)).2 = List.replicate [1, 2, 3].length 0 :=
  sm4_gcm_tag_tamper_detected kat2_key (List.replicate 12 0) [] [1, 2, 3] 4 2 5 (by decide)
    (by decide)

/-! ## GCM: chunked sessions -/

/-- C8 as stated fails: with the second test key, a 12-byte zero nonce and no AAD, the
plaintext `00 00` encrypted as the two chunks `00` and `00` gives the ciphertext `15 15`,
while one `sm4_gcm_encrypt_and_tag` call over `00 00` gives `15 99`. -/
theorem gcm_chunked_session_differs :
    gcm_session_encrypt kat2_key (List.replicate 12 0) [] [[0], [0]] 16 ≠
      ((sm4_gcm_encrypt_and_tag kat2_key (List.replicate 12 0) [] ([0] ++ [0]) 16).2.1,
       (sm4_gcm_encrypt_and_tag kat2_key (List.replicate 12 0) [] ([0] ++ [0]) 16).2.2) := by
  have e1 : (gcm_session_encrypt kat2_key (List.replicate 12 0) [] [[0], [0]] 16).1 =
      [0x15, 0x15] := by rfl
  have e2 : (sm4_gcm_encrypt_and_tag kat2_key (List.replicate 12 0) [] ([0] ++ [0]) 16).2.1 =
      [0x15, 0x99] := by rfl
  intro h
  have h1 := congrArg Prod.fst h
  rw [e1] at h1
  simp only [e2] at h1
  exact absurd h1 (by decide)

theorem aad_nil (ctx : SM4_GCM_Context) (h : ctx.len_a < 18446744073709551616) :
    sm4_gcm_aad ctx [] = ctx := by
  unfold sm4_gcm_aad
  simp [Nat.mod_eq_of_lt h]

theorem encrypt_nil (ctx : SM4_GCM_Context) (h : ctx.len_c < 18446744073709551616) :
    sm4_gcm_encrypt ctx [] = (ctx, []) := by
  unfold sm4_gcm_encrypt
  simp [sm4_gcm_encrypt_loop, Nat.mod_eq_of_lt h]

theorem encrypt_len_c_lt (ctx : SM4_GCM_Context) (P : List Nat) :
    (sm4_gcm_encrypt ctx P).1.len_c < 18446744073709551616 := by
  unfold sm4_gcm_encrypt
  simp only
  split <;> exact Nat.mod_lt _ (by norm_num)

/-- Encrypt calls on empty chunks leave the session and the output as they are. -/
theorem fold_empty_chunks (n : Nat) (ctx : SM4_GCM_Context) (out : List Nat)
    (h : ctx.len_c < 18446744073709551616) :
    (List.replicate n ([] : List Nat)).foldl
      (fun s p => ((sm4_gcm_encrypt s.1 p).1, s.2 ++ (sm4_gcm_encrypt s.1 p).2))
      (ctx, out) = (ctx, out) := by
  induction n with
  | zero => rfl
  | succ n ih =>
    rw [List.replicate_succ, List.foldl_cons]
    simp only [encrypt_nil ctx h, List.append_nil]
    exact ih

theorem init_len_a (key iv : List Nat) : (sm4_gcm_init key iv).len_a = 0 := by
  simp [sm4_gcm_init]

theorem init_len_c (key iv : List Nat) : (sm4_gcm_init key iv).len_c = 0 := by
  simp [sm4_gcm_init]

theorem aad_len_c (ctx : SM4_GCM_Context) (aad : List Nat) :
    (sm4_gcm_aad ctx aad).len_c = ctx.len_c := by
  simp [sm4_gcm_aad]

/-- C8, amended. For every key, nonce, AAD and plaintext `P`, and every way of splitting `P`
into consecutive chunks of which at most one is non-empty (`a` empty chunks, then `P`, then
`b` empty chunks), a session doing `sm4_gcm_init`, `sm4_gcm_aad`, then `sm4_gcm_encrypt` on
each chunk in order, then `sm4_gcm_finish`, produces ciphertext and tag byte-identical to
one `sm4_gcm_encrypt_and_tag` call over `P`. -/
theorem gcm_session_single_chunk (key iv aad P : List Nat) (t a b : Nat) :
    gcm_session_encrypt key iv aad (List.replicate a [] ++ P :: List.replicate b []) t =
      ((sm4_gcm_encrypt_and_tag key iv aad P t).2.1,
       (sm4_gcm_encrypt_and_tag key iv aad P t).2.2) := by
  have hctx : (if aad.length > 0 then sm4_gcm_aad (sm4_gcm_init key iv) aad
      else sm4_gcm_init key iv) = sm4_gcm_aad (sm4_gcm_init key iv) aad := by
    by_cases h : aad.length > 0
    · rw [if_pos h]
    · rw [if_neg h]
      have e : aad = [] := List.eq_nil_of_length_eq_zero (by omega)
      rw [e, aad_nil _ (by rw [init_len_a]; norm_num)]
  have hc : (sm4_gcm_aad (sm4_gcm_init key iv) aad).len_c < 18446744073709551616 := by
    rw [aad_len_c, init_len_c]
    norm_num
  unfold gcm_session_encrypt sm4_gcm_encrypt_and_tag
  simp only
  rw [hctx]
  generalize sm4_gcm_aad (sm4_gcm_init key iv) aad = ctx at hc ⊢
  rw [List.foldl_append, fold_empty_chunks a ctx [] hc, List.foldl_cons, List.nil_append,
    fold_empty_chunks b _ _ (encrypt_len_c_lt ctx P)]

/-! ## ECB and CBC -/

theorem getD_append_left (a b : List Nat) (j : Nat) (h : j < a.length) :
    (a ++ b).getD j 0 = a.getD j 0 := by
  rw [List.getD_eq_getElem?_getD, List.getD_eq_getElem?_getD, List.getElem?_append_left h]

theorem load_u32_be_append (a b : List Nat) (off : Nat) (h : off + 3 < a.length) :
    load_u32_be (a ++ b) off = load_u32_be a off := by
  unfold load_u32_be
  rw [getD_append_left a b off (by omega), getD_append_left a b (off + 1) (by omega),
    getD_append_left a b (off + 2) (by omega), getD_append_left a b (off + 3) (by omega)]

theorem load_u32_be_take (l : List Nat) (off : Nat) (h : off + 3 < 16) :
    load_u32_be (l.take 16) off = load_u32_be l off := by
  unfold load_u32_be
  rw [getD_take l 16 off (by omega), getD_take l 16 (off + 1) (by omega),
    getD_take l 16 (off + 2) (by omega), getD_take l 16 (off + 3) (by omega)]

/-- The block transform reads the first 16 bytes of its input only. -/
theorem sm4_encrypt_block_take (ctx : SM4_Context) (l : List Nat) :
    sm4_encrypt_block ctx (l.take 16) = sm4_encrypt_block ctx l := by
  unfold sm4_encrypt_block
  rw [load_u32_be_take l 0 (by omega), load_u32_be_take l 4 (by omega),
    load_u32_be_take l 8 (by omega), load_u32_be_take l 12 (by omega)]

theorem sm4_encrypt_block_append (ctx : SM4_Context) (a b : List Nat) (h : a.length = 16) :
    sm4_encrypt_block ctx (a ++ b) = sm4_encrypt_block ctx a := by
  unfold sm4_encrypt_block
  rw [load_u32_be_append a b 0 (by omega), load_u32_be_append a b 4 (by omega),
    load_u32_be_append a b 8 (by omega), load_u32_be_append a b 12 (by omega)]

theorem sm4_encrypt_block_bytes (ctx : SM4_Context) (inp : List Nat) :
    ∀ x ∈ sm4_encrypt_block ctx inp, x < 256 := by
  intro x hx
  unfold sm4_encrypt_block store_u32_be at hx
  simp only [List.mem_append, List.mem_cons, List.mem_singleton, List.not_mem_nil,
    or_false] at hx
  rcases hx with ((h | h) | h) | h <;> rcases h with h | h | h | h <;>
    (rw [h]; exact Nat.mod_lt _ (by norm_num))

theorem block_at_zero (l : List Nat) : block_at l 0 = l.take 16 := by
  simp [block_at]

theorem block_at_append_zero (a b : List Nat) (h : a.length = 16) : block_at (a ++ b) 0 = a := by
  rw [block_at_zero, ← h, List.take_left]

theorem block_at_append_succ (a b : List Nat) (i : Nat) (h : a.length = 16) :
    block_at (a ++ b) (i + 1) = block_at b i := by
  unfold block_at
  have e : 16 * (i + 1) = a.length + 16 * i := by omega
  rw [e, List.drop_append]

theorem block_at_drop_succ (l : List Nat) (i : Nat) :
    block_at (l.drop 16) i = block_at l (i + 1) := by
  unfold block_at
  rw [List.drop_drop]
  congr 2
  omega

theorem sm4_encrypt_block_block_at (ctx : SM4_Context) (l : List Nat) :
    sm4_encrypt_block ctx (block_at l 0) = sm4_encrypt_block ctx l := by
  rw [block_at_zero, sm4_encrypt_block_take]

/-! ### ECB -/

theorem sm4_encrypt_blocks_length (ctx : SM4_Context) (n : Nat) (inp : List Nat) :
    (sm4_encrypt_blocks ctx n inp).length = 16 * n := by
  induction n generalizing inp with
  | zero => rfl
  | succ n ih =>
    unfold sm4_encrypt_blocks
    rw [List.length_append, sm4_encrypt_block_length, ih]
    omega

theorem sm4_encrypt_blocks_block_at (ctx : SM4_Context) (n : Nat) (inp : List Nat) (i : Nat)
    (hi : i < n) :
    block_at (sm4_encrypt_blocks ctx n inp) i = sm4_encrypt_block ctx (block_at inp i) := by
  induction n generalizing inp i with
  | zero => omega
  | succ n ih =>
    unfold sm4_encrypt_blocks
    cases i with
    | zero =>
      rw [block_at_append_zero _ _ (sm4_encrypt_block_length _ _), sm4_encrypt_block_block_at]
    | succ i =>
      rw [block_at_append_succ _ _ _ (sm4_encrypt_block_length _ _), ih _ _ (by omega),
        block_at_drop_succ]

theorem sm4_decrypt_blocks_eq (ctx : SM4_Context) (n : Nat) (inp : List Nat) :
    sm4_decrypt_blocks ctx n inp = sm4_encrypt_blocks ctx n inp := by
  induction n generalizing inp with
  | zero => rfl
  | succ n ih =>
    unfold sm4_decrypt_blocks sm4_encrypt_blocks sm4_decrypt_block
    rw [ih]

/-- C15. ECB is a block-wise map: for every context and every input of `n * 16` bytes,
`sm4_ecb_encrypt` returns 0, writes `n * 16` bytes, and output block `i` equals
`sm4_encrypt_block` of input block `i` for every `i < n`; the same holds for
`sm4_ecb_decrypt` with `sm4_decrypt_block`. -/
theorem sm4_ecb_blockwise (ctx : SM4_Context) (inp : List Nat) (n : Nat)
    (h : inp.length = 16 * n) :
    ((sm4_ecb_encrypt ctx inp).1 = 0 ∧ (sm4_ecb_encrypt ctx inp).2.length = 16 * n ∧
      ∀ i, i < n →
        block_at (sm4_ecb_encrypt ctx inp).2 i = sm4_encrypt_block ctx (block_at inp i)) ∧
    ((sm4_ecb_decrypt ctx inp).1 = 0 ∧ (sm4_ecb_decrypt ctx inp).2.length = 16 * n ∧
      ∀ i, i < n →
        block_at (sm4_ecb_decrypt ctx inp).2 i = sm4_decrypt_block ctx (block_at inp i)) := by
  have hm : ¬ inp.length % 16 ≠ 0 := by omega
  have hd : inp.length / 16 = n := by omega
  unfold sm4_ecb_encrypt sm4_ecb_decrypt sm4_decrypt_block
  rw [if_neg hm, if_neg hm, hd, sm4_decrypt_blocks_eq]
  exact ⟨⟨rfl, sm4_encrypt_blocks_length ctx n inp,
      fun i hi => sm4_encrypt_blocks_block_at ctx n inp i hi⟩,
    ⟨rfl, sm4_encrypt_blocks_length ctx n inp,
      fun i hi => sm4_encrypt_blocks_block_at ctx n inp i hi⟩⟩

/-- C15, at the schedule of the first test key and a 32-byte input. -/
theorem sm4_ecb_blockwise_witness :
    ((sm4_ecb_encrypt (sm4_set_encrypt_key kat1_key) (kat1_key ++ kat2_key)).1 = 0 ∧
      (sm4_ecb_encrypt (sm4_set_encrypt_key kat1_key) (kat1_key ++ kat2_key)).2.length = 16 * 2 ∧
      ∀ i, i < 2 →
        block_at (sm4_ecb_encrypt (sm4_set_encrypt_key kat1_key) (kat1_key ++ kat2_key)).2 i =
          sm4_encrypt_block (sm4_set_encrypt_key kat1_key)
            (block_at (kat1_key ++ kat2_key) i)) ∧
    ((sm4_ecb_decrypt (sm4_set_encrypt_key kat1_key) (kat1_key ++ kat2_key)).1 = 0 ∧
      (sm4_ecb_decrypt (sm4_set_encrypt_key kat1_key) (kat1_key ++ kat2_key)).2.length = 16 * 2 ∧
      ∀ i, i < 2 →
        block_at (sm4_ecb_decrypt (sm4_set_encrypt_key kat1_key) (kat1_key ++ kat2_key)).2 i =
          sm4_decrypt_block (sm4_set_encrypt_key kat1_key)
            (block_at (kat1_key ++ kat2_key) i)) :=
  sm4_ecb_blockwise (sm4_set_encrypt_key kat1_key) (kat1_key ++ kat2_key) 2 (by decide)

/-! ### CBC -/

theorem range_map_getD_eq_take (l : List Nat) (h : 16 ≤ l.length) :
    (List.range 16).map (fun j => l.getD j 0) = l.take 16 := by
  have hl : (l.take 16).length = 16 := by rw [List.length_take]; omega
  have e := getD_range_map (l.take 16) 16 hl
  rw [← e]
  apply List.map_congr_left
  intro j hj
  rw [List.mem_range] at hj
  exact (getD_take l 16 j hj).symm

theorem xor16_block_at_zero (l iv : List Nat) :
    xor16 (block_at l 0) iv = (List.range 16).map (fun j => l.getD j 0 ^^^ iv.getD j 0) := by
  unfold xor16
  apply List.map_congr_left
  intro j hj
  rw [List.mem_range] at hj
  rw [block_at_zero, getD_take l 16 j hj]

theorem xor16_length (a b : List Nat) : (xor16 a b).length = 16 := by
  simp [xor16]

theorem cbc_encrypt_loop_length (ctx : SM4_Context) (n : Nat) (inp iv : List Nat)
    (h : inp.length = 16 * n) : (sm4_cbc_encrypt_loop ctx n inp iv).1.length = 16 * n := by
  induction n generalizing inp iv with
  | zero => rfl
  | succ n ih =>
    unfold sm4_cbc_encrypt_loop
    rw [if_pos (by omega)]
    simp only [List.length_append, sm4_encrypt_block_length]
    rw [ih _ _ (by rw [List.length_drop]; omega)]
    omega

/-- The loop of `sm4_cbc_encrypt` block by block: each output block is the encryption of
the input block xored with the chaining value, which is `iv` for block 0 and the previous
output block after that. -/
theorem cbc_encrypt_loop_block_at (ctx : SM4_Context) (n : Nat) (inp iv : List Nat) (i : Nat)
    (h : inp.length = 16 * n) (hi : i < n) :
    block_at (sm4_cbc_encrypt_loop ctx n inp iv).1 i =
      sm4_encrypt_block ctx (xor16 (block_at inp i)
        (if i = 0 then iv else block_at (sm4_cbc_encrypt_loop ctx n inp iv).1 (i - 1))) := by
  induction n generalizing inp iv i with
  | zero => omega
  | succ n ih =>
    unfold sm4_cbc_encrypt_loop
    rw [if_pos (by omega)]
    simp only
    rw [← xor16_block_at_zero]
    generalize hb : sm4_encrypt_block ctx (xor16 (block_at inp 0) iv) = b
    have hbl : b.length = 16 := by rw [← hb]; exact sm4_encrypt_block_length _ _
    cases i with
    | zero =>
      rw [block_at_append_zero _ _ hbl, if_pos rfl, hb]
    | succ i =>
      rw [block_at_append_succ _ _ _ hbl, if_neg (by omega),
        ih (inp.drop 16) b i (by rw [List.length_drop]; omega) (by omega), block_at_drop_succ]
      cases i with
      | zero =>
        rw [if_pos rfl]
        show _ = sm4_encrypt_block ctx (xor16 (block_at inp 1) (block_at _ 0))
        rw [block_at_append_zero _ _ hbl]
      | succ i =>
        rw [if_neg (by omega)]
        show _ = sm4_encrypt_block ctx (xor16 (block_at inp (i + 1 + 1)) (block_at _ (i + 1)))
        rw [block_at_append_succ _ _ _ hbl]
        rfl

/-- The content of `iv` after the loop of `sm4_cbc_encrypt`: the last output block, or the
initial `iv` when there was no block. -/
theorem cbc_encrypt_loop_iv (ctx : SM4_Context) (n : Nat) (inp iv : List Nat)
    (h : inp.length = 16 * n) :
    (sm4_cbc_encrypt_loop ctx n inp iv).2 =
      if 0 < n then block_at (sm4_cbc_encrypt_loop ctx n inp iv).1 (n - 1) else iv := by
  induction n generalizing inp iv with
  | zero => rfl
  | succ n ih =>
    unfold sm4_cbc_encrypt_loop
    rw [if_pos (by omega), if_pos (by omega)]
    simp only
    generalize hb : sm4_encrypt_block ctx
      ((List.range 16).map (fun j => inp.getD j 0 ^^^ iv.getD j 0)) = b
    have hbl : b.length = 16 := by rw [← hb]; exact sm4_encrypt_block_length _ _
    rw [ih (inp.drop 16) b (by rw [List.length_drop]; omega)]
    cases n with
    | zero =>
      rw [if_neg (by omega)]
      show b = block_at (b ++ _) 0
      rw [block_at_append_zero _ _ hbl]
    | succ n =>
      rw [if_pos (by omega)]
      show _ = block_at (b ++ _) (n + 1)
      rw [block_at_append_succ _ _ _ hbl]
      rfl

/-- C16. CBC encryption chaining: for every context, IV and input of `n * 16` bytes,
`sm4_cbc_encrypt` returns 0 with output blocks `C_0 = E(P_0 XOR IV)` and
`C_i = E(P_i XOR C_{i-1})` for `0 < i < n`, and on return the IV buffer holds `C_{n-1}`
when `n > 0` and is unchanged when `n = 0`. -/
theorem sm4_cbc_encrypt_chaining (ctx : SM4_Context) (inp iv : List Nat) (n : Nat)
    (h : inp.length = 16 * n) :
    (sm4_cbc_encrypt ctx inp iv).1 = 0 ∧
    (sm4_cbc_encrypt ctx inp iv).2.1.length = 16 * n ∧
    (∀ i, i < n →
      block_at (sm4_cbc_encrypt ctx inp iv).2.1 i =
        sm4_encrypt_block ctx (xor16 (block_at inp i)
          (if i = 0 then iv else block_at (sm4_cbc_encrypt ctx inp iv).2.1 (i - 1)))) ∧
    (sm4_cbc_encrypt ctx inp iv).2.2 =
      if 0 < n then block_at (sm4_cbc_encrypt ctx inp iv).2.1 (n - 1) else iv := by
  have hm : ¬ inp.length % 16 ≠ 0 := by omega
  have hd : inp.length / 16 = n := by omega
  unfold sm4_cbc_encrypt
  rw [if_neg hm, hd]
  exact ⟨rfl, cbc_encrypt_loop_length ctx n inp iv h,
    fun i hi => cbc_encrypt_loop_block_at ctx n inp iv i h hi, cbc_encrypt_loop_iv ctx n inp iv h⟩

/-- C16, at the schedule of the first test key, a 32-byte input and a 16-byte IV. -/
theorem sm4_cbc_encrypt_chaining_witness :
    (sm4_cbc_encrypt (sm4_set_encrypt_key kat1_key) (kat1_key ++ kat2_key) kat2_key).1 = 0 ∧
    (sm4_cbc_encrypt (sm4_set_encrypt_key kat1_key) (kat1_key ++ kat2_key)
      kat2_key).2.1.length = 16 * 2 ∧
    (∀ i, i < 2 →
      block_at (sm4_cbc_encrypt (sm4_set_encrypt_key kat1_key) (kat1_key ++ kat2_key)
          kat2_key).2.1 i =
        sm4_encrypt_block (sm4_set_encrypt_key kat1_key)
          (xor16 (block_at (kat1_key ++ kat2_key) i)
            (if i = 0 then kat2_key
              else block_at (sm4_cbc_encrypt (sm4_set_encrypt_key kat1_key)
                (kat1_key ++ kat2_key) kat2_key).2.1 (i - 1)))) ∧
    (sm4_cbc_encrypt (sm4_set_encrypt_key kat1_key) (kat1_key ++ kat2_key) kat2_key).2.2 =
      if 0 < 2 then
        block_at (sm4_cbc_encrypt (sm4_set_encrypt_key kat1_key) (kat1_key ++ kat2_key)
          kat2_key).2.1 (2 - 1)
      else kat2_key :=
  sm4_cbc_encrypt_chaining (sm4_set_encrypt_key kat1_key) (kat1_key ++ kat2_key) kat2_key 2
    (by decide)

theorem cbc_decrypt_loop_length (ctx : SM4_Context) (n : Nat) (inp iv : List Nat)
    (h : inp.length = 16 * n) : (sm4_cbc_decrypt_loop ctx n inp iv).1.length = 16 * n := by
  induction n generalizing inp iv with
  | zero => rfl
  | succ n ih =>
    unfold sm4_cbc_decrypt_loop
    rw [if_pos (by omega)]
    simp only [List.length_append, List.length_map, List.length_range]
    rw [ih _ _ (by rw [List.length_drop]; omega)]
    omega

theorem xor16_decrypt_block_at_zero (ctx : SM4_Context) (l iv : List Nat) :
    xor16 (sm4_decrypt_block ctx (block_at l 0)) iv =
      (List.range 16).map (fun j => (sm4_decrypt_block ctx l).getD j 0 ^^^ iv.getD j 0) := by
  unfold sm4_decrypt_block
  rw [sm4_encrypt_block_block_at]
  rfl

/-- The loop of `sm4_cbc_decrypt` block by block: each output block is the decryption of
the input block xored with the chaining value, which is `iv` for block 0 and the previous
input block after that. -/
theorem cbc_decrypt_loop_block_at (ctx : SM4_Context) (n : Nat) (inp iv : List Nat) (i : Nat)
    (h : inp.length = 16 * n) (hi : i < n) :
    block_at (sm4_cbc_decrypt_loop ctx n inp iv).1 i =
      xor16 (sm4_decrypt_block ctx (block_at inp i))
        (if i = 0 then iv else block_at inp (i - 1)) := by
  induction n generalizing inp iv i with
  | zero => omega
  | succ n ih =>
    unfold sm4_cbc_decrypt_loop
    rw [if_pos (by omega)]
    simp only
    rw [← xor16_decrypt_block_at_zero, range_map_getD_eq_take inp (by omega), ← block_at_zero]
    have hbl : (xor16 (sm4_decrypt_block ctx (block_at inp 0)) iv).length = 16 :=
      xor16_length _ _
    cases i with
    | zero =>
      rw [block_at_append_zero _ _ hbl, if_pos rfl]
    | succ i =>
      rw [block_at_append_succ _ _ _ hbl, if_neg (by omega),
        ih (inp.drop 16) (block_at inp 0) i (by rw [List.length_drop]; omega) (by omega),
        block_at_drop_succ]
      cases i with
      | zero => rw [if_pos rfl]
      | succ i =>
        rw [if_neg (by omega), block_at_drop_succ]
        rfl

/-- The content of `iv` after the loop of `sm4_cbc_decrypt`: the last input block, or the
initial `iv` when there was no block. -/
theorem cbc_decrypt_loop_iv (ctx : SM4_Context) (n : Nat) (inp iv : List Nat)
    (h : inp.length = 16 * n) :
    (sm4_cbc_decrypt_loop ctx n inp iv).2 = if 0 < n then block_at inp (n - 1) else iv := by
  induction n generalizing inp iv with
  | zero => rfl
  | succ n ih =>
    unfold sm4_cbc_decrypt_loop
    rw [if_pos (by omega), if_pos (by omega)]
    simp only
    rw [range_map_getD_eq_take inp (by omega), ← block_at_zero,
      ih (inp.drop 16) (block_at inp 0) (by rw [List.length_drop]; omega)]
    cases n with
    | zero => rw [if_neg (by omega)]
    | succ n =>
      rw [if_pos (by omega), block_at_drop_succ]
      rfl

/-- C17. CBC decryption chaining: for every context, IV and input of `n * 16` bytes,
`sm4_cbc_decrypt` returns 0 with output blocks `P_0 = D(C_0) XOR IV` and
`P_i = D(C_i) XOR C_{i-1}` for `0 < i < n`, where `C_i` are the input blocks, and on return
the IV buffer holds the last input block `C_{n-1}` when `n > 0` and is unchanged when
`n = 0`. -/
theorem sm4_cbc_decrypt_chaining (ctx : SM4_Context) (inp iv : List Nat) (n : Nat)
    (h : inp.length = 16 * n) :
    (sm4_cbc_decrypt ctx inp iv).1 = 0 ∧
    (sm4_cbc_decrypt ctx inp iv).2.1.length = 16 * n ∧
    (∀ i, i < n →
      block_at (sm4_cbc_decrypt ctx inp iv).2.1 i =
        xor16 (sm4_decrypt_block ctx (block_at inp i))
          (if i = 0 then iv else block_at inp (i - 1))) ∧
    (sm4_cbc_decrypt ctx inp iv).2.2 = if 0 < n then block_at inp (n - 1) else iv := by
  have hm : ¬ inp.length % 16 ≠ 0 := by omega
  have hd : inp.length / 16 = n := by omega
  unfold sm4_cbc_decrypt
  rw [if_neg hm, hd]
  exact ⟨rfl, cbc_decrypt_loop_length ctx n inp iv h,
    fun i hi => cbc_decrypt_loop_block_at ctx n inp iv i h hi, cbc_decrypt_loop_iv ctx n inp iv h⟩

/-- C17, at the decrypt schedule of the first test key, a 32-byte input and a 16-byte IV. -/
theorem sm4_cbc_decrypt_chaining_witness :
    (sm4_cbc_decrypt (sm4_set_decrypt_key kat1_key) (kat1_key ++ kat2_key) kat2_key).1 = 0 ∧
    (sm4_cbc_decrypt (sm4_set_decrypt_key kat1_key) (kat1_key ++ kat2_key)
      kat2_key).2.1.length = 16 * 2 ∧
    (∀ i, i < 2 →
      block_at (sm4_cbc_decrypt (sm4_set_decrypt_key kat1_key) (kat1_key ++ kat2_key)
          kat2_key).2.1 i =
        xor16 (sm4_decrypt_block (sm4_set_decrypt_key kat1_key)
            (block_at (kat1_key ++ kat2_key) i))
          (if i = 0 then kat2_key else block_at (kat1_key ++ kat2_key) (i - 1))) ∧
    (sm4_cbc_decrypt (sm4_set_decrypt_key kat1_key) (kat1_key ++ kat2_key) kat2_key).2.2 =
      if 0 < 2 then block_at (kat1_key ++ kat2_key) (2 - 1) else kat2_key :=
  sm4_cbc_decrypt_chaining (sm4_set_decrypt_key kat1_key) (kat1_key ++ kat2_key) kat2_key 2
    (by decide)

/-- C14. Mode-layer length validation without partial output: each of `sm4_ecb_encrypt`,
`sm4_ecb_decrypt`, `sm4_cbc_encrypt` and `sm4_cbc_decrypt` returns non-zero if and only if
`len` is not a multiple of 16, and in that case writes nothing to the output buffer and
(for CBC) leaves the IV buffer unchanged. -/
theorem sm4_mode_length_validation (ctx : SM4_Context) (inp iv : List Nat) :
    (((sm4_ecb_encrypt ctx inp).1 ≠ 0 ↔ inp.length % 16 ≠ 0) ∧
      ((sm4_ecb_encrypt ctx inp).1 ≠ 0 → (sm4_ecb_encrypt ctx inp).2 = [])) ∧
    (((sm4_ecb_decrypt ctx inp).1 ≠ 0 ↔ inp.length % 16 ≠ 0) ∧
      ((sm4_ecb_decrypt ctx inp).1 ≠ 0 → (sm4_ecb_decrypt ctx inp).2 = [])) ∧
    (((sm4_cbc_encrypt ctx inp iv).1 ≠ 0 ↔ inp.length % 16 ≠ 0) ∧
      ((sm4_cbc_encrypt ctx inp iv).1 ≠ 0 →
        (sm4_cbc_encrypt ctx inp iv).2.1 = [] ∧ (sm4_cbc_encrypt ctx inp iv).2.2 = iv)) ∧
    (((sm4_cbc_decrypt ctx inp iv).1 ≠ 0 ↔ inp.length % 16 ≠ 0) ∧
      ((sm4_cbc_decrypt ctx inp iv).1 ≠ 0 →
        (sm4_cbc_decrypt ctx inp iv).2.1 = [] ∧ (sm4_cbc_decrypt ctx inp iv).2.2 = iv)) := by
  unfold sm4_ecb_encrypt sm4_ecb_decrypt sm4_cbc_encrypt sm4_cbc_decrypt
  by_cases hm : inp.length % 16 ≠ 0
  · simp only [if_pos hm]
    simp [hm]
  · simp only [if_neg hm]
    simp [hm]

/-! ### CBC round trip -/

/-- The encrypt and decrypt contexts of one key: a 32-word schedule and its reverse. -/
theorem set_keys_reverse (K : List Nat) :
    ∃ rk : List Nat, rk.length = 32 ∧ sm4_set_encrypt_key K = ⟨rk⟩ ∧
      sm4_set_decrypt_key K = ⟨rk.reverse⟩ := by
  have hE := sm4_set_encrypt_key_length K
  have e := sm4_set_decrypt_key_eq_reverse K
  generalize sm4_set_decrypt_key K = d at e
  generalize sm4_set_encrypt_key K = c at hE e
  cases c with
  | mk rk =>
    cases d with
    | mk rd =>
      refine ⟨rk, hE, rfl, ?_⟩
      simp only [SM4_Context.mk.injEq]
      exact e

theorem xor_lt_byte {a b : Nat} (ha : a < 256) (hb : b < 256) : a ^^^ b < 256 := by
  have h : (256 : Nat) = 2 ^ 8 := by norm_num
  rw [h] at *
  exact Nat.xor_lt_two_pow ha hb

theorem xor_getD_bytes (l iv : List Nat) (hl : ∀ b ∈ l, b < 256) (hiv : ∀ b ∈ iv, b < 256) :
    ∀ x ∈ (List.range 16).map (fun j => l.getD j 0 ^^^ iv.getD j 0), x < 256 := by
  intro x hx
  rw [List.mem_map] at hx
  obtain ⟨j, _, rfl⟩ := hx
  exact xor_lt_byte (getD_lt_of_forall l 256 (by norm_num) hl j)
    (getD_lt_of_forall iv 256 (by norm_num) hiv j)

theorem xor_getD_cancel (l iv : List Nat) (h : 16 ≤ l.length) :
    (List.range 16).map
      (fun j => ((List.range 16).map (fun j => l.getD j 0 ^^^ iv.getD j 0)).getD j 0 ^^^
        iv.getD j 0) = l.take 16 := by
  rw [← range_map_getD_eq_take l h]
  apply List.map_congr_left
  intro j hj
  rw [List.mem_range] at hj
  have e : ((List.range 16).map (fun j => l.getD j 0 ^^^ iv.getD j 0)).getD j 0 =
      l.getD j 0 ^^^ iv.getD j 0 := by
    rw [List.getD_eq_getElem?_getD, List.getElem?_map, List.getElem?_range hj]
    rfl
  rw [e, Nat.xor_cancel_right]

/-- The loop of `sm4_cbc_decrypt` under the reversed schedule undoes the loop of
`sm4_cbc_encrypt`, both started with the same `iv`. -/
theorem cbc_loops_round_trip (rk : List Nat) (hrk : rk.length = 32) (n : Nat)
    (M iv : List Nat) (h : M.length = 16 * n) (hM : ∀ b ∈ M, b < 256)
    (hiv : ∀ b ∈ iv, b < 256) :
    (sm4_cbc_decrypt_loop ⟨rk.reverse⟩ n (sm4_cbc_encrypt_loop ⟨rk⟩ n M iv).1 iv).1 = M := by
  induction n generalizing M iv with
  | zero =>
    have e : M = [] := List.eq_nil_of_length_eq_zero (by omega)
    rw [e]
    rfl
  | succ n ih =>
    unfold sm4_cbc_encrypt_loop
    rw [if_pos (by omega)]
    simp only
    have htl : ((List.range 16).map (fun j => M.getD j 0 ^^^ iv.getD j 0)).length = 16 := by
      simp
    have htb := xor_getD_bytes M iv hM hiv
    have hcancel := xor_getD_cancel M iv (by omega)
    have hrt := block_round_trip_of_schedule rk _ hrk htl htb
    generalize (List.range 16).map (fun j => M.getD j 0 ^^^ iv.getD j 0) = tmp
      at htl htb hcancel hrt ⊢
    have hbb := sm4_encrypt_block_bytes ⟨rk⟩ tmp
    have hbl := sm4_encrypt_block_length ⟨rk⟩ tmp
    generalize sm4_encrypt_block ⟨rk⟩ tmp = b at hbb hbl hrt ⊢
    have hrec := ih (M.drop 16) b (by rw [List.length_drop]; omega)
      (fun x hx => hM x (List.mem_of_mem_drop hx)) hbb
    generalize sm4_cbc_encrypt_loop ⟨rk⟩ n (M.drop 16) b = r at hrec ⊢
    unfold sm4_cbc_decrypt_loop
    rw [if_pos (by rw [List.length_append]; omega)]
    simp only
    have hnext : (List.range 16).map (fun j => (b ++ r.1).getD j 0) = b := by
      rw [range_map_getD_eq_take _ (by rw [List.length_append]; omega), ← hbl, List.take_left]
    have hdrop : (b ++ r.1).drop 16 = r.1 := by
      rw [← hbl, List.drop_left]
    have hdec : sm4_decrypt_block ⟨rk.reverse⟩ (b ++ r.1) = tmp := by
      unfold sm4_decrypt_block
      rw [sm4_encrypt_block_append _ _ _ hbl]
      exact hrt
    rw [hnext, hdrop, hdec, hcancel, hrec, List.take_append_drop]

/-- C13. CBC round trip: for every key, every IV and every message `M` whose length is a
multiple of 16, `sm4_cbc_decrypt` under the decrypt context of the key, run with a fresh
copy of the IV on the output of `sm4_cbc_encrypt` under the encrypt context of the key run
with another fresh copy of the IV on `M`, returns 0 and writes `M`. -/
theorem sm4_cbc_round_trip (K M iv : List Nat) (n : Nat) (h : M.length = 16 * n)
    (hM : ∀ b ∈ M, b < 256) (hiv : ∀ b ∈ iv, b < 256) :
    (sm4_cbc_decrypt (sm4_set_decrypt_key K)
      (sm4_cbc_encrypt (sm4_set_encrypt_key K) M iv).2.1 iv).1 = 0 ∧
    (sm4_cbc_decrypt (sm4_set_decrypt_key K)
      (sm4_cbc_encrypt (sm4_set_encrypt_key K) M iv).2.1 iv).2.1 = M := by
  obtain ⟨rk, hrk, hE, hD⟩ := set_keys_reverse K
  rw [hE, hD]
  have hm : ¬ M.length % 16 ≠ 0 := by omega
  have hd : M.length / 16 = n := by omega
  have hcl := cbc_encrypt_loop_length ⟨rk⟩ n M iv h
  have hrt := cbc_loops_round_trip rk hrk n M iv h hM hiv
  unfold sm4_cbc_encrypt
  rw [if_neg hm, hd]
  simp only
  generalize (sm4_cbc_encrypt_loop ⟨rk⟩ n M iv).1 = C at hcl hrt ⊢
  have hm2 : ¬ C.length % 16 ≠ 0 := by omega
  have hd2 : C.length / 16 = n := by omega
  unfold sm4_cbc_decrypt
  rw [if_neg hm2, hd2]
  exact ⟨rfl, hrt⟩

/-- C13, at the first test key, a 32-byte message and a 16-byte IV. -/
theorem sm4_cbc_round_trip_witness :
    (sm4_cbc_decrypt (sm4_set_decrypt_key kat1_key)
      (sm4_cbc_encrypt (sm4_set_encrypt_key kat1_key) (kat1_key ++ kat2_key)
        kat2_key).2.1 kat2_key).1 = 0 ∧
    (sm4_cbc_decrypt (sm4_set_decrypt_key kat1_key)
      (sm4_cbc_encrypt (sm4_set_encrypt_key kat1_key) (kat1_key ++ kat2_key)
        kat2_key).2.1 kat2_key).2.1 = kat1_key ++ kat2_key :=
  sm4_cbc_round_trip kat1_key (kat1_key ++ kat2_key) kat2_key 2 (by decide) (by decide)
    (by decide)

/-! ## GHASH as a fold over blocks -/

theorem foldl_invariant {α β : Type} (P : β → Prop) (f : β → α → β) (l : List α) (b : β)
    (h : ∀ b a, P b → P (f b a)) (hb : P b) : P (l.foldl f b) := by
  induction l generalizing b with
  | nil => exact hb
  | cons a l ih => exact ih _ (h b a hb)

theorem gf128_xor_into_length (z v : List Nat) : (gf128_xor_into z v).length = z.length := by
  unfold gf128_xor_into
  exact foldl_invariant (fun r : List Nat => r.length = z.length) _ _ _
    (fun b a hb => by
      show (b.set a (b.getD a 0 ^^^ v.getD a 0)).length = z.length
      rw [List.length_set]
      exact hb) rfl

theorem gf128_mul_bit_length (x : List Nat) (s : List Nat × List Nat) (i j : Nat)
    (h : s.1.length = 16) : (gf128_mul_bit x s i j).1.length = 16 := by
  unfold gf128_mul_bit
  simp only
  split
  · rw [gf128_xor_into_length]; exact h
  · exact h

theorem gf128_mul_length (x y : List Nat) : (gf128_mul x y).length = 16 := by
  unfold gf128_mul
  apply foldl_invariant (fun s : List Nat × List Nat => s.1.length = 16)
  · intro s i hs
    apply foldl_invariant (fun s : List Nat × List Nat => s.1.length = 16)
    · intro s t hs
      exact gf128_mul_bit_length x s i (7 - t) hs
    · exact hs
  · simp

theorem block16_length (b : List Nat) (off : Nat) : (block16 b off).length = 16 := by
  simp [block16]

theorem block16_zero_of_length (b : List Nat) (h : b.length = 16) : block16 b 0 = b := by
  unfold block16
  simp only [Nat.zero_add]
  exact getD_range_map b 16 h

theorem ext_getD (a b : List Nat) (hl : a.length = b.length)
    (h : ∀ j, j < a.length → a.getD j 0 = b.getD j 0) : a = b := by
  apply List.ext_getElem hl
  intro j h1 h2
  have e := h j h1
  rw [List.getD_eq_getElem?_getD, List.getD_eq_getElem?_getD, List.getElem?_eq_getElem h1,
    List.getElem?_eq_getElem h2] at e
  simpa using e

/-- A loop `for j < k: t[j] = f(j, t[j])` rewrites the first `k` bytes and nothing else. -/
theorem foldl_set_range (f : Nat → Nat → Nat) (t : List Nat) (k : Nat) (hk : k ≤ t.length) :
    ((List.range k).foldl (fun t j => t.set j (f j (t.getD j 0))) t).length = t.length ∧
    ∀ j, ((List.range k).foldl (fun t j => t.set j (f j (t.getD j 0))) t).getD j 0 =
      if j < k then f j (t.getD j 0) else t.getD j 0 := by
  induction k with
  | zero =>
    refine ⟨rfl, fun j => ?_⟩
    rw [if_neg (by omega)]
    rfl
  | succ k ih =>
    obtain ⟨hl, hg⟩ := ih (by omega)
    rw [List.range_succ, List.foldl_append, List.foldl_cons, List.foldl_nil]
    refine ⟨by rw [List.length_set]; exact hl, fun j => ?_⟩
    rw [getD_set_eq _ _ _ _ (by rw [hl]; omega)]
    by_cases c : j = k
    · subst c
      rw [if_pos rfl, hg j, if_neg (Nat.lt_irrefl j), if_pos (Nat.lt_succ_self j)]
    · rw [if_neg c, hg j]
      by_cases c2 : j < k
      · rw [if_pos c2, if_pos (by omega)]
      · rw [if_neg c2, if_neg (by omega)]

/-- The xor loop of `ghash` on a 16-byte accumulator is the byte-wise xor. -/
theorem ghash_xor_loop (t inp : List Nat) (off : Nat) (ht : t.length = 16) :
    (List.range 16).foldl (fun t j => t.set j (t.getD j 0 ^^^ inp.getD (off + j) 0)) t =
      (List.range 16).map (fun j => t.getD j 0 ^^^ inp.getD (off + j) 0) := by
  obtain ⟨hl, hg⟩ := foldl_set_range (fun j x => x ^^^ inp.getD (off + j) 0) t 16 (by omega)
  apply ext_getD
  · rw [hl, ht]
    simp
  · intro j hj
    rw [hl, ht] at hj
    rw [hg j, if_pos hj, List.getD_eq_getElem?_getD
      ((List.range 16).map (fun j => t.getD j 0 ^^^ inp.getD (off + j) 0)),
      List.getElem?_map, List.getElem?_range hj]
    rfl

/-- One call of `ghash` on one block: `Y := (Y XOR X) * H`. -/
theorem ghash_one_block (g H X : List Nat) (hg : g.length = 16) :
    ghash g H X 16 = gf128_mul (xor16 g X) H := by
  unfold ghash
  have e : (16 + 15) / 16 = 1 := by norm_num
  rw [e, block16_zero_of_length g hg]
  show gf128_mul ((List.range 16).foldl
    (fun t j => t.set j (t.getD j 0 ^^^ X.getD (16 * 0 + j) 0)) g) H = _
  rw [ghash_xor_loop g X (16 * 0) hg]
  unfold xor16
  simp only [Nat.mul_zero, Nat.zero_add]

theorem ghash_one_block_length (g H X : List Nat) (hg : g.length = 16) :
    (ghash g H X 16).length = 16 := by
  rw [ghash_one_block g H X hg]
  exact gf128_mul_length _ _

theorem xor16_take (g X : List Nat) : xor16 g (X.take 16) = xor16 g X := by
  unfold xor16
  apply List.map_congr_left
  intro j hj
  rw [List.mem_range] at hj
  rw [getD_take X 16 j hj]

theorem ghash_fold_spec_length (H Y : List Nat) (blocks : List (List Nat)) (hY : Y.length = 16) :
    (ghash_fold_spec H Y blocks).length = 16 := by
  unfold ghash_fold_spec
  exact foldl_invariant (fun r : List Nat => r.length = 16) _ _ _
    (fun b a _ => gf128_mul_length _ _) hY

/-! ### Zero-padded blocks -/

theorem pad16_append (b l : List Nat) (h : b.length = 16) : pad16 (b ++ l) = b ++ pad16 l := by
  unfold pad16
  rw [List.length_append, h, List.append_assoc]
  congr 3
  omega

theorem blocks_padded_nil : blocks_padded [] = [] := rfl

theorem blocks_padded_append (b l : List Nat) (h : b.length = 16) :
    blocks_padded (b ++ l) = b :: blocks_padded l := by
  unfold blocks_padded
  have e : ((b ++ l).length + 15) / 16 = (l.length + 15) / 16 + 1 := by
    rw [List.length_append, h]
    omega
  rw [e, List.range_succ_eq_map, List.map_cons, List.map_map, pad16_append b l h,
    block_at_append_zero _ _ h]
  congr 1
  apply List.map_congr_left
  intro i _
  exact block_at_append_succ b (pad16 l) i h

theorem blocks_padded_short (l : List Nat) (h0 : 0 < l.length) (h : l.length < 16) :
    blocks_padded l = [zero_padded l] := by
  unfold blocks_padded
  have e : (l.length + 15) / 16 = 1 := by omega
  rw [e]
  show [block_at (pad16 l) 0] = _
  rw [block_at_zero]
  unfold pad16 zero_padded
  have e2 : (16 - l.length % 16) % 16 = 16 - l.length := by omega
  rw [e2, List.take_of_length_le (by rw [List.length_append, List.length_replicate]; omega)]

/-- The blocks of a buffer: its first `k` full blocks, then the blocks of what follows. -/
theorem blocks_padded_split (k : Nat) (l : List Nat) (h : 16 * k ≤ l.length) :
    blocks_padded l = (List.range k).map (block_at l) ++ blocks_padded (l.drop (16 * k)) := by
  induction k generalizing l with
  | zero => simp
  | succ k ih =>
    have hl : (l.take 16).length = 16 := by rw [List.length_take]; omega
    have e : blocks_padded l = l.take 16 :: blocks_padded (l.drop 16) := by
      conv_lhs => rw [← List.take_append_drop 16 l]
      exact blocks_padded_append _ _ hl
    rw [e, ih (l.drop 16) (by rw [List.length_drop]; omega), List.range_succ_eq_map,
      List.map_cons, List.map_map, block_at_zero, List.drop_drop]
    have e3 : 16 + 16 * k = 16 * (k + 1) := by omega
    rw [e3, List.cons_append]
    congr 2
    apply List.map_congr_left
    intro i _
    exact block_at_drop_succ l i

/-! ## GCM: the state left by `sm4_gcm_init` -/

theorem init_cipher_ctx (key iv : List Nat) :
    (sm4_gcm_init key iv).cipher_ctx = sm4_set_encrypt_key key := by
  simp [sm4_gcm_init]

theorem init_H (key iv : List Nat) :
    (sm4_gcm_init key iv).H =
      sm4_encrypt_block (sm4_set_encrypt_key key) (List.replicate 16 0) := by
  simp [sm4_gcm_init]

theorem init_J0 (key iv : List Nat) :
    (sm4_gcm_init key iv).J0 =
      if iv.length = 12 then iv.take 12 ++ [0, 0, 0, 1]
      else sm4_gcm_init_J0_general
        (sm4_encrypt_block (sm4_set_encrypt_key key) (List.replicate 16 0)) iv := by
  simp [sm4_gcm_init]

theorem init_buf_len (key iv : List Nat) : (sm4_gcm_init key iv).buf_len = 0 := by
  simp [sm4_gcm_init]

theorem init_final_ghash (key iv : List Nat) :
    (sm4_gcm_init key iv).final_ghash = List.replicate 16 0 := by
  simp [sm4_gcm_init]

/-- C18. GCM init with a 12-byte nonce: for every key and 12-byte nonce `N`,
`sm4_gcm_init` returns 0 and leaves the session with the encrypt context of the key,
`H = sm4_encrypt_block(encrypt context of the key, 16 zero bytes)`, `J0 = N` followed by
the bytes `00 00 00 01`, `len_a = 0`, `len_c = 0`, `buf_len = 0` and an all-zero GHASH
accumulator. -/
theorem sm4_gcm_init_nonce12 (key N : List Nat) (h : N.length = 12) :
    sm4_gcm_init_ret key N = 0 ∧
    (sm4_gcm_init key N).cipher_ctx = sm4_set_encrypt_key key ∧
    (sm4_gcm_init key N).H =
      sm4_encrypt_block (sm4_set_encrypt_key key) (List.replicate 16 0) ∧
    (sm4_gcm_init key N).J0 = N ++ [0, 0, 0, 1] ∧
    (sm4_gcm_init key N).len_a = 0 ∧
    (sm4_gcm_init key N).len_c = 0 ∧
    (sm4_gcm_init key N).buf_len = 0 ∧
    (sm4_gcm_init key N).final_ghash = List.replicate 16 0 := by
  refine ⟨rfl, init_cipher_ctx key N, init_H key N, ?_, init_len_a key N, init_len_c key N,
    init_buf_len key N, init_final_ghash key N⟩
  rw [init_J0, if_pos h, List.take_of_length_le (by omega)]

/-- C18, at the second test key and a 12-byte nonce. -/
theorem sm4_gcm_init_nonce12_witness :
    sm4_gcm_init_ret kat2_key [1, 2, 3, 4, 5, 6, 7, 8, 9, 10, 11, 12] = 0 ∧
    (sm4_gcm_init kat2_key [1, 2, 3, 4, 5, 6, 7, 8, 9, 10, 11, 12]).cipher_ctx =
      sm4_set_encrypt_key kat2_key ∧
    (sm4_gcm_init kat2_key [1, 2, 3, 4, 5, 6, 7, 8, 9, 10, 11, 12]).H =
      sm4_encrypt_block (sm4_set_encrypt_key kat2_key) (List.replicate 16 0) ∧
    (sm4_gcm_init kat2_key [1, 2, 3, 4, 5, 6, 7, 8, 9, 10, 11, 12]).J0 =
      [1, 2, 3, 4, 5, 6, 7, 8, 9, 10, 11, 12] ++ [0, 0, 0, 1] ∧
    (sm4_gcm_init kat2_key [1, 2, 3, 4, 5, 6, 7, 8, 9, 10, 11, 12]).len_a = 0 ∧
    (sm4_gcm_init kat2_key [1, 2, 3, 4, 5, 6, 7, 8, 9, 10, 11, 12]).len_c = 0 ∧
    (sm4_gcm_init kat2_key [1, 2, 3, 4, 5, 6, 7, 8, 9, 10, 11, 12]).buf_len = 0 ∧
    (sm4_gcm_init kat2_key [1, 2, 3, 4, 5, 6, 7, 8, 9, 10, 11, 12]).final_ghash =
      List.replicate 16 0 :=
  sm4_gcm_init_nonce12 kat2_key [1, 2, 3, 4, 5, 6, 7, 8, 9, 10, 11, 12] (by decide)

/-- The loop of single-block `ghash` calls over the blocks `iv + 16 i` is the GHASH fold
over these blocks. -/
theorem ghash_block_loop (H iv : List Nat) (l : List Nat) (tmp : List Nat)
    (ht : tmp.length = 16) :
    l.foldl (fun tmp i => ghash tmp H (iv.drop (i * 16)) 16) tmp =
      ghash_fold_spec H tmp (l.map (block_at iv)) := by
  induction l generalizing tmp with
  | nil => rfl
  | cons i l ih =>
    rw [List.foldl_cons, ih _ (ghash_one_block_length tmp H _ ht), ghash_one_block tmp H _ ht]
    unfold ghash_fold_spec
    rw [List.map_cons, List.foldl_cons]
    unfold block_at
    rw [xor16_take, Nat.mul_comm 16 i]

theorem be64_bytes_eq_spec (n : Nat) (h : n < 2305843009213693952) :
    be64_bytes ((n * 8) % 18446744073709551616) = be64_spec (8 * n) := by
  have e : (n * 8) % 18446744073709551616 = 8 * n := by omega
  rw [e]
  unfold be64_bytes be64_spec
  simp only [Nat.shiftRight_eq_div_pow]

/-- The value of `J0` for a nonce whose length is not 12, as a GHASH fold. -/
theorem init_J0_general_eq (H N : List Nat) (hlen : N.length < 2305843009213693952) :
    sm4_gcm_init_J0_general H N =
      ghash_fold_spec H (List.replicate 16 0)
        (blocks_padded N ++ [List.replicate 8 0 ++ be64_spec (8 * N.length)]) := by
  unfold sm4_gcm_init_J0_general
  simp only
  rw [be64_bytes_eq_spec N.length hlen,
    ghash_block_loop H N _ _ (List.length_replicate 16 0),
    blocks_padded_split (N.length / 16) N (by omega)]
  have hz : (List.replicate 16 (0 : Nat)).length = 16 := List.length_replicate 16 0
  have hacc := ghash_fold_spec_length H (List.replicate 16 0)
    ((List.range (N.length / 16)).map (block_at N)) hz
  have htl : (N.drop (16 * (N.length / 16))).length = N.length % 16 := by
    rw [List.length_drop]
    omega
  have hmul : N.length / 16 * 16 = 16 * (N.length / 16) := Nat.mul_comm _ _
  rw [hmul]
  by_cases hr : N.length % 16 ≠ 0
  · rw [if_pos hr, blocks_padded_short _ (by omega) (by omega),
      ghash_one_block _ H _ (ghash_one_block_length _ H _ hacc), ghash_one_block _ H _ hacc]
    unfold ghash_fold_spec
    simp only [List.foldl_append, List.foldl_cons, List.foldl_nil]
  · rw [if_neg hr]
    have hnil : N.drop (16 * (N.length / 16)) = [] :=
      List.eq_nil_of_length_eq_zero (by omega)
    rw [hnil, blocks_padded_nil, ghash_one_block _ H _ hacc]
    unfold ghash_fold_spec
    simp only [List.foldl_append, List.foldl_cons, List.foldl_nil, List.append_nil]

/-- C19. GCM init with a non-12-byte nonce: for every key and every nonce `N` whose length
is not 12 (including length 0 and length 20), `sm4_gcm_init` sets `J0` to the GHASH under
`H`, starting from the zero block, of `N` zero-padded to a multiple of 16 bytes followed by
one 16-byte block whose first 8 bytes are zero and whose last 8 bytes are the big-endian
bit length `8 * len(N)`; the right-hand side depends on the key and `N` only. -/
theorem sm4_gcm_init_nonce_general (key N : List Nat) (h : N.length ≠ 12)
    (hlen : N.length < 2305843009213693952) :
    (sm4_gcm_init key N).J0 =
      ghash_fold_spec (sm4_encrypt_block (sm4_set_encrypt_key key) (List.replicate 16 0))
        (List.replicate 16 0)
        (blocks_padded N ++ [List.replicate 8 0 ++ be64_spec (8 * N.length)]) := by
  rw [init_J0, if_neg h]
  exact init_J0_general_eq _ N hlen

/-- C19, at the second test key and a 20-byte nonce. -/
theorem sm4_gcm_init_nonce_general_witness :
    (sm4_gcm_init kat2_key (List.replicate 20 7)).J0 =
      ghash_fold_spec (sm4_encrypt_block (sm4_set_encrypt_key kat2_key) (List.replicate 16 0))
        (List.replicate 16 0)
        (blocks_padded (List.replicate 20 7) ++
          [List.replicate 8 0 ++ be64_spec (8 * (List.replicate 20 7).length)]) :=
  sm4_gcm_init_nonce_general kat2_key (List.replicate 20 7) (by decide) (by decide)

/-! ## GCM: the data loops block by block -/

theorem ghash_length (g H X : List Nat) (len : Nat) : (ghash g H X len).length = 16 := by
  unfold ghash
  exact foldl_invariant (fun r : List Nat => r.length = 16) _ _ _
    (fun b a _ => gf128_mul_length _ _) (block16_length g 0)

theorem init_J0_length (key iv : List Nat) : (sm4_gcm_init key iv).J0.length = 16 := by
  rw [init_J0]
  by_cases h : iv.length = 12
  · rw [if_pos h, List.length_append, List.length_take]
    simp only [List.length_cons, List.length_nil]
    omega
  · rw [if_neg h]
    unfold sm4_gcm_init_J0_general
    exact ghash_length _ _ _ _

theorem aad_cipher_ctx (ctx : SM4_GCM_Context) (aad : List Nat) :
    (sm4_gcm_aad ctx aad).cipher_ctx = ctx.cipher_ctx := by
  simp [sm4_gcm_aad]

theorem aad_J0 (ctx : SM4_GCM_Context) (aad : List Nat) : (sm4_gcm_aad ctx aad).J0 = ctx.J0 := by
  simp [sm4_gcm_aad]

theorem data_ctx_cipher_ctx (key iv aad : List Nat) :
    (gcm_data_ctx key iv aad).cipher_ctx = sm4_set_encrypt_key key := by
  unfold gcm_data_ctx
  split
  · rw [aad_cipher_ctx, init_cipher_ctx]
  · exact init_cipher_ctx key iv

theorem data_ctx_J0 (key iv aad : List Nat) :
    (gcm_data_ctx key iv aad).J0 = (sm4_gcm_init key iv).J0 := by
  unfold gcm_data_ctx
  split
  · rw [aad_J0]
  · rfl

theorem inc32_iter_zero (c : List Nat) : inc32_iter 0 c = c := rfl

theorem inc32_iter_succ (n : Nat) (c : List Nat) :
    inc32_iter (n + 1) c = inc32_iter n (increment_counter c) := rfl

theorem block_at_short (l : List Nat) (h : l.length ≤ 16) : block_at l 0 = l := by
  rw [block_at_zero, List.take_of_length_le h]

/-- The bytes written by `sm4_gcm_encrypt`, block by block: the full-block loop started
with the counter `ctr` and the partial block after it xor block `i` of the input with
the encryption of the counter incremented `i` times. -/
theorem encrypt_loop_block_at (c : SM4_Context) (H : List Nat) (fuel : Nat)
    (ctr g inp : List Nat) (i : Nat) (hf : inp.length < 16 * (fuel + 1))
    (hi : 16 * i < inp.length) :
    block_at ((sm4_gcm_encrypt_loop c H fuel ctr g inp).out ++
        List.zipWith (fun a b => a ^^^ b) (sm4_gcm_encrypt_loop c H fuel ctr g inp).rest
          (sm4_encrypt_block c (sm4_gcm_encrypt_loop c H fuel ctr g inp).counter)) i =
      List.zipWith (fun a b => a ^^^ b) (block_at inp i)
        (sm4_encrypt_block c (inc32_iter i ctr)) := by
  have short : ∀ (ctr inp : List Nat) (i : Nat), inp.length < 16 → 16 * i < inp.length →
      block_at ([] ++ List.zipWith (fun a b => a ^^^ b) inp (sm4_encrypt_block c ctr)) i =
        List.zipWith (fun a b => a ^^^ b) (block_at inp i)
          (sm4_encrypt_block c (inc32_iter i ctr)) := by
    intro ctr inp i h1 h2
    have hi0 : i = 0 := by omega
    subst hi0
    rw [List.nil_append, block_at_short inp (by omega), inc32_iter_zero,
      block_at_short _ (by rw [zipWith_xor_length _ _
        (by rw [sm4_encrypt_block_length]; omega)]; omega)]
  induction fuel generalizing ctr g inp i with
  | zero =>
    unfold sm4_gcm_encrypt_loop
    exact short ctr inp i (by omega) hi
  | succ n ih =>
    unfold sm4_gcm_encrypt_loop
    by_cases h : 16 ≤ inp.length
    · rw [if_pos h]
      simp only
      have hbl : (List.zipWith (fun a b => a ^^^ b) (inp.take 16)
          (sm4_encrypt_block c ctr)).length = 16 := by
        rw [zipWith_xor_length _ _ (by rw [sm4_encrypt_block_length, List.length_take]; omega),
          List.length_take]
        omega
      rw [List.append_assoc]
      cases i with
      | zero =>
        rw [block_at_append_zero _ _ hbl, block_at_zero, inc32_iter_zero]
      | succ i =>
        rw [block_at_append_succ _ _ _ hbl,
          ih (increment_counter ctr) _ (inp.drop 16) i (by rw [List.length_drop]; omega)
            (by rw [List.length_drop]; omega),
          block_at_drop_succ, inc32_iter_succ]
    · rw [if_neg h]
      exact short ctr inp i (by omega) hi

/-- The two data loops write the same bytes, end with the same counter and leave the same
input bytes; they differ in what they fold into GHASH only. -/
theorem decrypt_loop_fields (c : SM4_Context) (H : List Nat) (fuel : Nat)
    (ctr g g2 inp : List Nat) :
    (sm4_gcm_decrypt_loop c H fuel ctr g inp).out =
      (sm4_gcm_encrypt_loop c H fuel ctr g2 inp).out ∧
    (sm4_gcm_decrypt_loop c H fuel ctr g inp).counter =
      (sm4_gcm_encrypt_loop c H fuel ctr g2 inp).counter ∧
    (sm4_gcm_decrypt_loop c H fuel ctr g inp).rest =
      (sm4_gcm_encrypt_loop c H fuel ctr g2 inp).rest := by
  induction fuel generalizing ctr g g2 inp with
  | zero => exact ⟨rfl, rfl, rfl⟩
  | succ n ih =>
    unfold sm4_gcm_decrypt_loop sm4_gcm_encrypt_loop
    by_cases h : 16 ≤ inp.length
    · rw [if_pos h, if_pos h]
      simp only
      obtain ⟨h1, h2, h3⟩ := ih (increment_counter ctr) (ghash g H (inp.take 16) 16)
        (ghash g2 H (List.zipWith (fun a b => a ^^^ b) (inp.take 16)
          (sm4_encrypt_block c ctr)) 16) (inp.drop 16)
      rw [h1, h2, h3]
      exact ⟨rfl, rfl, rfl⟩
    · rw [if_neg h, if_neg h]
      exact ⟨rfl, rfl, rfl⟩

/-- The bytes written by `sm4_gcm_encrypt`: those of the full-block loop, then the xor of
the bytes left with the next keystream block. -/
theorem gcm_encrypt_out (ctx : SM4_GCM_Context) (P : List Nat) :
    (sm4_gcm_encrypt ctx P).2 =
      (sm4_gcm_encrypt_loop ctx.cipher_ctx ctx.H (P.length / 16)
          (increment_counter (block16 ctx.J0 0)) ctx.final_ghash P).out ++
        List.zipWith (fun a b => a ^^^ b)
          (sm4_gcm_encrypt_loop ctx.cipher_ctx ctx.H (P.length / 16)
            (increment_counter (block16 ctx.J0 0)) ctx.final_ghash P).rest
          (sm4_encrypt_block ctx.cipher_ctx
            (sm4_gcm_encrypt_loop ctx.cipher_ctx ctx.H (P.length / 16)
              (increment_counter (block16 ctx.J0 0)) ctx.final_ghash P).counter) := by
  unfold sm4_gcm_encrypt
  simp only
  generalize sm4_gcm_encrypt_loop ctx.cipher_ctx ctx.H (P.length / 16)
    (increment_counter (block16 ctx.J0 0)) ctx.final_ghash P = e
  by_cases hr : 0 < e.rest.length
  · rw [if_pos hr]
  · rw [if_neg hr]
    have hnil : e.rest = [] := List.eq_nil_of_length_eq_zero (by omega)
    rw [hnil]
    simp

/-- The bytes written by `sm4_gcm_decrypt` are those that `sm4_gcm_encrypt` writes for the
same input from the same state. -/
theorem gcm_decrypt_out (ctx : SM4_GCM_Context) (C : List Nat) :
    (sm4_gcm_decrypt ctx C).2 = (sm4_gcm_encrypt ctx C).2 := by
  rw [gcm_encrypt_out]
  obtain ⟨h1, h2, h3⟩ := decrypt_loop_fields ctx.cipher_ctx ctx.H (C.length / 16)
    (increment_counter (block16 ctx.J0 0)) ctx.final_ghash ctx.final_ghash C
  unfold sm4_gcm_decrypt
  simp only
  generalize sm4_gcm_encrypt_loop ctx.cipher_ctx ctx.H (C.length / 16)
    (increment_counter (block16 ctx.J0 0)) ctx.final_ghash C = e at h1 h2 h3 ⊢
  generalize sm4_gcm_decrypt_loop ctx.cipher_ctx ctx.H (C.length / 16)
    (increment_counter (block16 ctx.J0 0)) ctx.final_ghash C = d at h1 h2 h3 ⊢
  rw [← h1, ← h2, ← h3]
  by_cases hr : 0 < d.rest.length
  · rw [if_pos hr]
  · rw [if_neg hr]
    have hnil : d.rest = [] := List.eq_nil_of_length_eq_zero (by omega)
    rw [hnil]
    simp

/-- Block `i` of the bytes written by `sm4_gcm_encrypt` is block `i` of the input xored
with the encryption of `J0` incremented `i + 1` times. -/
theorem gcm_encrypt_block_at (ctx : SM4_GCM_Context) (P : List Nat) (hJ : ctx.J0.length = 16)
    (i : Nat) (hi : 16 * i < P.length) :
    block_at (sm4_gcm_encrypt ctx P).2 i =
      List.zipWith (fun a b => a ^^^ b) (block_at P i)
        (sm4_encrypt_block ctx.cipher_ctx (inc32_iter (i + 1) ctx.J0)) := by
  rw [gcm_encrypt_out, encrypt_loop_block_at _ _ _ _ _ _ i (by omega) hi,
    block16_zero_of_length _ hJ]
  have e : inc32_iter i (increment_counter ctx.J0) = inc32_iter (i + 1) ctx.J0 := rfl
  rw [e]

/-! ## GCM: the outcome of `sm4_gcm_decrypt_and_verify` -/

theorem verify_fst (key iv aad C tag : List Nat) :
    (sm4_gcm_decrypt_and_verify key iv aad C tag).1 =
      tag_compare_loop (gcm_calculated_tag key iv aad C) tag tag.length 0 := by
  unfold sm4_gcm_decrypt_and_verify gcm_calculated_tag gcm_data_ctx
  simp only
  generalize (if aad.length > 0 then sm4_gcm_aad (sm4_gcm_init key iv) aad
    else sm4_gcm_init key iv) = ctx
  generalize tag_compare_loop (sm4_gcm_finish (sm4_gcm_decrypt ctx C).1 16).2 tag tag.length 0 = r
  by_cases h : r ≠ 0
  · rw [if_pos h]
  · rw [if_neg h]

theorem verify_snd (key iv aad C tag : List Nat) :
    (sm4_gcm_decrypt_and_verify key iv aad C tag).2 =
      if tag_compare_loop (gcm_calculated_tag key iv aad C) tag tag.length 0 ≠ 0 then
        List.replicate C.length 0
      else (sm4_gcm_decrypt (gcm_data_ctx key iv aad) C).2 := by
  unfold sm4_gcm_decrypt_and_verify gcm_calculated_tag gcm_data_ctx
  simp only
  generalize (if aad.length > 0 then sm4_gcm_aad (sm4_gcm_init key iv) aad
    else sm4_gcm_init key iv) = ctx
  generalize tag_compare_loop (sm4_gcm_finish (sm4_gcm_decrypt ctx C).1 16).2 tag tag.length 0 = r
  by_cases h : r ≠ 0
  · rw [if_pos h, if_pos h]
  · rw [if_neg h, if_neg h]

theorem calculated_tag_length (key iv aad C : List Nat) :
    (gcm_calculated_tag key iv aad C).length = 16 := by
  unfold gcm_calculated_tag
  rw [finish_tag_16]
  exact finish_full_length _

theorem tag_compare_loop_cases (ctag tag : List Nat) (n i : Nat) :
    tag_compare_loop ctag tag n i = 0 ∨ tag_compare_loop ctag tag n i = -1 := by
  induction n generalizing i with
  | zero => exact Or.inl rfl
  | succ n ih =>
    unfold tag_compare_loop
    split
    · exact Or.inr rfl
    · exact ih (i + 1)

theorem tag_compare_loop_zero_iff (ctag tag : List Nat) (n i : Nat) :
    tag_compare_loop ctag tag n i = 0 ↔
      ∀ j, i ≤ j → j < i + n → ctag.getD j 0 = tag.getD j 0 := by
  constructor
  · intro h j h1 h2
    by_contra hne
    rw [tag_compare_loop_eq_neg_one ctag tag n i j h1 h2 hne] at h
    exact absurd h (by decide)
  · exact tag_compare_loop_eq_zero ctag tag n i

theorem eq_take_iff_getD (c t : List Nat) (h : t.length ≤ c.length) :
    t = c.take t.length ↔ ∀ j, j < t.length → c.getD j 0 = t.getD j 0 := by
  constructor
  · intro e j hj
    have e2 : t.getD j 0 = (c.take t.length).getD j 0 := congrArg (fun l => l.getD j 0) e
    rw [e2, getD_take c t.length j hj]
  · intro hall
    apply ext_getD
    · rw [List.length_take]
      omega
    · intro j hj
      rw [getD_take c t.length j hj]
      exact (hall j hj).symm

/-- C11. Verify outcome and zero-on-failure: for every input with a tag of at most 16 bytes
(so for every tag length in `1..16`), `sm4_gcm_decrypt_and_verify` returns 0 exactly when
the supplied tag bytes equal the first bytes of the tag it recomputes from (key, nonce,
AAD, ciphertext); when it returns non-zero all `in_len` bytes of the output buffer are
zero; and when it returns 0 the output is the ciphertext xor the counter-mode keystream:
`in_len` bytes, block `i` being block `i` of the ciphertext xor the encryption of `J0`
incremented `i + 1` times. -/
theorem sm4_gcm_verify_outcome (key iv aad C tag : List Nat) (ht : tag.length ≤ 16) :
    ((sm4_gcm_decrypt_and_verify key iv aad C tag).1 = 0 ↔
      tag = (gcm_calculated_tag key iv aad C).take tag.length) ∧
    ((sm4_gcm_decrypt_and_verify key iv aad C tag).1 ≠ 0 →
      (sm4_gcm_decrypt_and_verify key iv aad C tag).2 = List.replicate C.length 0) ∧
    ((sm4_gcm_decrypt_and_verify key iv aad C tag).1 = 0 →
      (sm4_gcm_decrypt_and_verify key iv aad C tag).2.length = C.length ∧
      ∀ i, 16 * i < C.length →
        block_at (sm4_gcm_decrypt_and_verify key iv aad C tag).2 i =
          List.zipWith (fun a b => a ^^^ b) (block_at C i)
            (sm4_encrypt_block (sm4_set_encrypt_key key)
              (inc32_iter (i + 1) (sm4_gcm_init key iv).J0))) := by
  have hcl := calculated_tag_length key iv aad C
  rw [verify_fst, verify_snd]
  refine ⟨?_, ?_, ?_⟩
  · rw [tag_compare_loop_zero_iff, eq_take_iff_getD _ _ (by omega)]
    constructor
    · intro h j hj
      exact h j (Nat.zero_le j) (by omega)
    · intro h j _ hj
      exact h j (by omega)
  · intro hne
    rw [if_pos hne]
  · intro h0
    rw [if_neg (by rw [h0]; decide), gcm_decrypt_out]
    refine ⟨encrypt_length _ C, ?_⟩
    intro i hi
    have hJ : (gcm_data_ctx key iv aad).J0.length = 16 := by
      rw [data_ctx_J0]
      exact init_J0_length key iv
    rw [gcm_encrypt_block_at _ C hJ i hi, data_ctx_cipher_ctx, data_ctx_J0]

/-- C11, at the second test key with a 12-byte nonce, 3 bytes of AAD, a 5-byte ciphertext
and a 4-byte tag. -/
theorem sm4_gcm_verify_outcome_witness :
    ((sm4_gcm_decrypt_and_verify kat2_key (List.replicate 12 0) [1, 2, 3] [9, 8, 7, 6, 5]
        [1, 2, 3, 4]).1 = 0 ↔
      [1, 2, 3, 4] = (gcm_calculated_tag kat2_key (List.replicate 12 0) [1, 2, 3]
        [9, 8, 7, 6, 5]).take [1, 2, 3, 4].length) ∧
    ((sm4_gcm_decrypt_and_verify kat2_key (List.replicate 12 0) [1, 2, 3] [9, 8, 7, 6, 5]
        [1, 2, 3, 4]).1 ≠ 0 →
      (sm4_gcm_decrypt_and_verify kat2_key (List.replicate 12 0) [1, 2, 3] [9, 8, 7, 6, 5]
        [1, 2, 3, 4]).2 = List.replicate [9, 8, 7, 6, 5].length 0) ∧
    ((sm4_gcm_decrypt_and_verify kat2_key (List.replicate 12 0) [1, 2, 3] [9, 8, 7, 6, 5]
        [1, 2, 3, 4]).1 = 0 →
      (sm4_gcm_decrypt_and_verify kat2_key (List.replicate 12 0) [1, 2, 3] [9, 8, 7, 6, 5]
        [1, 2, 3, 4]).2.length = [9, 8, 7, 6, 5].length ∧
      ∀ i, 16 * i < [9, 8, 7, 6, 5].length →
        block_at (sm4_gcm_decrypt_and_verify kat2_key (List.replicate 12 0) [1, 2, 3]
            [9, 8, 7, 6, 5] [1, 2, 3, 4]).2 i =
          List.zipWith (fun a b => a ^^^ b) (block_at [9, 8, 7, 6, 5] i)
            (sm4_encrypt_block (sm4_set_encrypt_key kat2_key)
              (inc32_iter (i + 1) (sm4_gcm_init kat2_key (List.replicate 12 0)).J0))) :=
  sm4_gcm_verify_outcome kat2_key (List.replicate 12 0) [1, 2, 3] [9, 8, 7, 6, 5] [1, 2, 3, 4]
    (by decide)

/-- C12 as stated fails: with the second test key, a 12-byte zero nonce, no AAD, the
3-byte ciphertext `01 02 03` and `tag_len = 0`, `sm4_gcm_decrypt_and_verify` returns 0;
and `sm4_gcm_finish` returns 0 for `tag_len = 0` and for `tag_len = 17`. -/
theorem gcm_tag_length_zero_accepted :
    (sm4_gcm_decrypt_and_verify kat2_key (List.replicate 12 0) [] [1, 2, 3] []).1 = 0 ∧
    sm4_gcm_finish_ret (sm4_gcm_init kat2_key (List.replicate 12 0)) 0 = 0 ∧
    sm4_gcm_finish_ret (sm4_gcm_init kat2_key (List.replicate 12 0)) 17 = 0 := by
  refine ⟨?_, rfl, rfl⟩
  rw [verify_fst]
  rfl

/-- C12, amended. The GCM layer validates no tag length and has no InvalidLength result:
`sm4_gcm_finish` returns 0 for every tag length and writes the first `min(tag_len, 16)`
bytes of the 16-byte tag; `sm4_gcm_decrypt_and_verify`, for a tag length up to 16, returns
0 or -1, and -1 only when one of the `tag_len` compared bytes differs from the recomputed
tag. -/
theorem gcm_tag_length_not_validated (ctx : SM4_GCM_Context) (tag_len : Nat)
    (key iv aad C tag : List Nat) (ht : tag.length ≤ 16) :
    sm4_gcm_finish_ret ctx tag_len = 0 ∧
    (sm4_gcm_finish ctx tag_len).2 = (sm4_gcm_finish_full ctx).1.take (min tag_len 16) ∧
    ((sm4_gcm_decrypt_and_verify key iv aad C tag).1 = 0 ∨
      (sm4_gcm_decrypt_and_verify key iv aad C tag).1 = -1) ∧
    ((sm4_gcm_decrypt_and_verify key iv aad C tag).1 = -1 →
      ∃ j, j < tag.length ∧ j < 16 ∧
        (gcm_calculated_tag key iv aad C).getD j 0 ≠ tag.getD j 0) := by
  refine ⟨rfl, ?_, ?_, ?_⟩
  · unfold sm4_gcm_finish
    simp only
    by_cases h : tag_len < 16
    · rw [if_pos h, Nat.min_eq_left (by omega)]
    · rw [if_neg h, Nat.min_eq_right (by omega)]
  · rw [verify_fst]
    exact tag_compare_loop_cases _ _ _ _
  · rw [verify_fst]
    intro h
    by_contra hno
    have hall : ∀ j, 0 ≤ j → j < 0 + tag.length →
        (gcm_calculated_tag key iv aad C).getD j 0 = tag.getD j 0 := by
      intro j _ hj
      by_contra hne
      exact hno ⟨j, by omega, by omega, hne⟩
    rw [tag_compare_loop_eq_zero _ _ _ _ hall] at h
    exact absurd h (by decide)

/-- C12 amended, at the second test key with a 12-byte nonce, no AAD, a 3-byte ciphertext
and a 2-byte tag, and `tag_len = 20` for `sm4_gcm_finish`. -/
theorem gcm_tag_length_not_validated_witness :
    sm4_gcm_finish_ret (sm4_gcm_init kat2_key (List.replicate 12 0)) 20 = 0 ∧
    (sm4_gcm_finish (sm4_gcm_init kat2_key (List.replicate 12 0)) 20).2 =
      (sm4_gcm_finish_full (sm4_gcm_init kat2_key (List.replicate 12 0))).1.take (min 20 16) ∧
    ((sm4_gcm_decrypt_and_verify kat2_key (List.replicate 12 0) [] [1, 2, 3] [7, 7]).1 = 0 ∨
      (sm4_gcm_decrypt_and_verify kat2_key (List.replicate 12 0) [] [1, 2, 3] [7, 7]).1 = -1) ∧
    ((sm4_gcm_decrypt_and_verify kat2_key (List.replicate 12 0) [] [1, 2, 3] [7, 7]).1 = -1 →
      ∃ j, j < [7, 7].length ∧ j < 16 ∧
        (gcm_calculated_tag kat2_key (List.replicate 12 0) [] [1, 2, 3]).getD j 0 ≠
          [7, 7].getD j 0) :=
  gcm_tag_length_not_validated (sm4_gcm_init kat2_key (List.replicate 12 0)) 20 kat2_key
    (List.replicate 12 0) [] [1, 2, 3] [7, 7] (by decide)

/-! ## GCM: what one `sm4_gcm_encrypt` call does -/

/-- The GHASH accumulator after the full-block loop of `sm4_gcm_encrypt`: folding the
blocks written by the loop and then those of `tail` from the initial accumulator is
folding those of `tail` from the accumulator the loop leaves. -/
theorem encrypt_loop_ghash (c : SM4_Context) (H : List Nat) (fuel : Nat)
    (ctr g inp tail : List Nat) (hg : g.length = 16) :
    ghash_fold_spec H g
        (blocks_padded ((sm4_gcm_encrypt_loop c H fuel ctr g inp).out ++ tail)) =
      ghash_fold_spec H (sm4_gcm_encrypt_loop c H fuel ctr g inp).ghash_acc
        (blocks_padded tail) ∧
    (sm4_gcm_encrypt_loop c H fuel ctr g inp).ghash_acc.length = 16 := by
  induction fuel generalizing ctr g inp with
  | zero =>
    unfold sm4_gcm_encrypt_loop
    exact ⟨by rw [List.nil_append], hg⟩
  | succ n ih =>
    unfold sm4_gcm_encrypt_loop
    by_cases h : 16 ≤ inp.length
    · rw [if_pos h]
      simp only
      have hbl : (List.zipWith (fun a b => a ^^^ b) (inp.take 16)
          (sm4_encrypt_block c ctr)).length = 16 := by
        rw [zipWith_xor_length _ _ (by rw [sm4_encrypt_block_length, List.length_take]; omega),
          List.length_take]
        omega
      generalize List.zipWith (fun a b => a ^^^ b) (inp.take 16) (sm4_encrypt_block c ctr) = blk
        at hbl ⊢
      obtain ⟨i1, i2⟩ := ih (increment_counter ctr) (ghash g H blk 16) (inp.drop 16)
        (ghash_one_block_length g H blk hg)
      refine ⟨?_, i2⟩
      rw [List.append_assoc, blocks_padded_append _ _ hbl, ← i1, ghash_one_block g H blk hg]
      rfl
    · rw [if_neg h]
      exact ⟨by rw [List.nil_append], hg⟩

theorem encrypt_final_ghash (ctx : SM4_GCM_Context) (P : List Nat)
    (hg : ctx.final_ghash.length = 16) :
    (sm4_gcm_encrypt ctx P).1.final_ghash =
      ghash_fold_spec ctx.H ctx.final_ghash (blocks_padded (sm4_gcm_encrypt ctx P).2) := by
  have hf : P.length < 16 * (P.length / 16 + 1) := by omega
  have hlt := encrypt_loop_rest_lt ctx.cipher_ctx ctx.H (P.length / 16)
    (increment_counter (block16 ctx.J0 0)) ctx.final_ghash P hf
  have hacc := encrypt_loop_ghash ctx.cipher_ctx ctx.H (P.length / 16)
    (increment_counter (block16 ctx.J0 0)) ctx.final_ghash P
  unfold sm4_gcm_encrypt
  simp only
  generalize sm4_gcm_encrypt_loop ctx.cipher_ctx ctx.H (P.length / 16)
    (increment_counter (block16 ctx.J0 0)) ctx.final_ghash P = e at hlt hacc ⊢
  by_cases hr : 0 < e.rest.length
  · rw [if_pos hr]
    simp only
    have hll : (List.zipWith (fun a b => a ^^^ b) e.rest
        (sm4_encrypt_block ctx.cipher_ctx e.counter)).length = e.rest.length :=
      zipWith_xor_length _ _ (by rw [sm4_encrypt_block_length]; omega)
    generalize List.zipWith (fun a b => a ^^^ b) e.rest
      (sm4_encrypt_block ctx.cipher_ctx e.counter) = last at hll ⊢
    obtain ⟨h1, h2⟩ := hacc last hg
    rw [h1, blocks_padded_short last (by omega) (by omega), ghash_one_block _ _ _ h2]
    rfl
  · rw [if_neg hr]
    simp only
    obtain ⟨h1, _⟩ := hacc [] hg
    rw [List.append_nil] at h1
    rw [h1, blocks_padded_nil]
    rfl

theorem encrypt_len_c (ctx : SM4_GCM_Context) (P : List Nat) :
    (sm4_gcm_encrypt ctx P).1.len_c = (ctx.len_c + P.length) % 18446744073709551616 := by
  unfold sm4_gcm_encrypt
  simp only
  split <;> rfl

/-- C20. GCM encrypt on a fresh session: for every session with a 16-byte `J0` and
16-byte GHASH accumulator (as `sm4_gcm_init` and `sm4_gcm_aad` leave them) and plaintext
`P` of any length, the `sm4_gcm_encrypt` call returns 0, writes exactly `len(P)` bytes where
output block `i` equals `P` block `i` XOR `sm4_encrypt_block(inc32^(i+1)(J0))` (a final
partial block uses the leading bytes of its keystream block), folds each 16-byte ciphertext
block (the final partial one zero-padded) into the GHASH accumulator in order, and adds
`len(P)` to `len_c` (in 64-bit arithmetic). -/
theorem sm4_gcm_encrypt_fresh (ctx : SM4_GCM_Context) (P : List Nat)
    (hJ : ctx.J0.length = 16) (hg : ctx.final_ghash.length = 16) :
    sm4_gcm_encrypt_ret ctx P = 0 ∧
    (sm4_gcm_encrypt ctx P).2.length = P.length ∧
    (∀ i, 16 * i < P.length →
      block_at (sm4_gcm_encrypt ctx P).2 i =
        List.zipWith (fun a b => a ^^^ b) (block_at P i)
          (sm4_encrypt_block ctx.cipher_ctx (inc32_iter (i + 1) ctx.J0))) ∧
    (sm4_gcm_encrypt ctx P).1.final_ghash =
      ghash_fold_spec ctx.H ctx.final_ghash (blocks_padded (sm4_gcm_encrypt ctx P).2) ∧
    (sm4_gcm_encrypt ctx P).1.len_c = (ctx.len_c + P.length) % 18446744073709551616 :=
  ⟨rfl, encrypt_length ctx P, fun i hi => gcm_encrypt_block_at ctx P hJ i hi,
    encrypt_final_ghash ctx P hg, encrypt_len_c ctx P⟩

/-- C20, on the session left by `sm4_gcm_init` for the second test key and a 12-byte
nonce, with a 19-byte plaintext. -/
theorem sm4_gcm_encrypt_fresh_witness :
    sm4_gcm_encrypt_ret (sm4_gcm_init kat2_key (List.replicate 12 0)) (List.replicate 19 5) = 0 ∧
    (sm4_gcm_encrypt (sm4_gcm_init kat2_key (List.replicate 12 0))
      (List.replicate 19 5)).2.length = (List.replicate 19 5).length ∧
    (∀ i, 16 * i < (List.replicate 19 5).length →
      block_at (sm4_gcm_encrypt (sm4_gcm_init kat2_key (List.replicate 12 0))
          (List.replicate 19 5)).2 i =
        List.zipWith (fun a b => a ^^^ b) (block_at (List.replicate 19 5) i)
          (sm4_encrypt_block (sm4_gcm_init kat2_key (List.replicate 12 0)).cipher_ctx
            (inc32_iter (i + 1) (sm4_gcm_init kat2_key (List.replicate 12 0)).J0))) ∧
    (sm4_gcm_encrypt (sm4_gcm_init kat2_key (List.replicate 12 0))
        (List.replicate 19 5)).1.final_ghash =
      ghash_fold_spec (sm4_gcm_init kat2_key (List.replicate 12 0)).H
        (sm4_gcm_init kat2_key (List.replicate 12 0)).final_ghash
        (blocks_padded (sm4_gcm_encrypt (sm4_gcm_init kat2_key (List.replicate 12 0))
          (List.replicate 19 5)).2) ∧
    (sm4_gcm_encrypt (sm4_gcm_init kat2_key (List.replicate 12 0))
        (List.replicate 19 5)).1.len_c =
      ((sm4_gcm_init kat2_key (List.replicate 12 0)).len_c + (List.replicate 19 5).length) %
        18446744073709551616 :=
  sm4_gcm_encrypt_fresh (sm4_gcm_init kat2_key (List.replicate 12 0)) (List.replicate 19 5)
    (by decide) (by decide)

/-! ## The GCM step functions: AAD, finish, one-shot composition, counter increment -/

theorem be64_bytes_eq_be64_spec (v : Nat) : be64_bytes v = be64_spec v := by
  unfold be64_bytes be64_spec
  simp only [Nat.shiftRight_eq_div_pow]

theorem block16_getD (g : List Nat) (j : Nat) (hj : j < 16) :
    (block16 g 0).getD j 0 = g.getD j 0 := by
  unfold block16
  rw [List.getD_eq_getElem?_getD, List.getElem?_map, List.getElem?_range hj]
  simp

theorem xor16_block16 (g X : List Nat) : xor16 (block16 g 0) X = xor16 g X := by
  unfold xor16
  apply List.map_congr_left
  intro j hj
  rw [List.mem_range] at hj
  rw [block16_getD g j hj]

theorem xor16_block_at (Y A : List Nat) (b : Nat) :
    xor16 Y (block_at A b) = (List.range 16).map (fun j => Y.getD j 0 ^^^ A.getD (16 * b + j) 0) := by
  unfold xor16 block_at
  apply List.map_congr_left
  intro j hj
  rw [List.mem_range] at hj
  rw [getD_take _ 16 j hj]
  simp only [List.getD_eq_getElem?_getD, List.getElem?_drop]

/-- The block loop of `ghash` is the GHASH fold over the blocks it visits. -/
theorem ghash_loop_eq_fold (H A : List Nat) (l : List Nat) (tmp : List Nat)
    (ht : tmp.length = 16) :
    l.foldl
        (fun tmp b =>
          gf128_mul
            ((List.range 16).foldl
              (fun t j => t.set j (t.getD j 0 ^^^ A.getD (16 * b + j) 0)) tmp) H) tmp =
      ghash_fold_spec H tmp (l.map (block_at A)) := by
  induction l generalizing tmp with
  | nil => rfl
  | cons b l ih =>
    rw [List.foldl_cons, ih _ (gf128_mul_length _ _), ghash_xor_loop tmp A (16 * b) ht]
    unfold ghash_fold_spec
    rw [List.map_cons, List.foldl_cons, xor16_block_at]

theorem ghash_fold_spec_block16 (H g : List Nat) (X : List Nat) (Xs : List (List Nat)) :
    ghash_fold_spec H (block16 g 0) (X :: Xs) = ghash_fold_spec H g (X :: Xs) := by
  unfold ghash_fold_spec
  rw [List.foldl_cons, List.foldl_cons, xor16_block16]

/-- A call of `ghash` over `k` full blocks, `k` at least 1, is the GHASH fold over them. -/
theorem ghash_full_blocks (g H A : List Nat) (k : Nat) (hk : 0 < k) :
    ghash g H A (k * 16) = ghash_fold_spec H g ((List.range k).map (block_at A)) := by
  unfold ghash
  have e : (k * 16 + 15) / 16 = k := by omega
  rw [e, ghash_loop_eq_fold H A _ _ (block16_length g 0)]
  obtain ⟨n, rfl⟩ : ∃ n, k = n + 1 := ⟨k - 1, by omega⟩
  rw [List.range_succ_eq_map, List.map_cons]
  exact ghash_fold_spec_block16 H g _ _

/-- One call of `ghash` on one block, for an accumulator of any length. -/
theorem ghash_single_block (g H X : List Nat) :
    ghash g H X 16 = gf128_mul (xor16 g X) H := by
  have e := ghash_full_blocks g H X 1 (by omega)
  rw [Nat.one_mul] at e
  rw [e]
  show gf128_mul (xor16 g (block_at X 0)) H = _
  rw [block_at_zero, xor16_take]

theorem ghash_fold_spec_append (H Y : List Nat) (a b : List (List Nat)) :
    ghash_fold_spec H Y (a ++ b) = ghash_fold_spec H (ghash_fold_spec H Y a) b := by
  unfold ghash_fold_spec
  rw [List.foldl_append]

/-- The accumulator that `sm4_gcm_aad` leaves. -/
theorem aad_final_ghash (ctx : SM4_GCM_Context) (A : List Nat) :
    (sm4_gcm_aad ctx A).final_ghash =
      ghash_fold_spec ctx.H ctx.final_ghash (blocks_padded A) := by
  unfold sm4_gcm_aad
  simp only
  rw [blocks_padded_split (A.length / 16) A (by omega), ghash_fold_spec_append,
    Nat.mul_comm 16 (A.length / 16)]
  have h1 : (if A.length / 16 > 0 then ghash ctx.final_ghash ctx.H A (A.length / 16 * 16)
      else ctx.final_ghash) =
      ghash_fold_spec ctx.H ctx.final_ghash ((List.range (A.length / 16)).map (block_at A)) := by
    by_cases h : A.length / 16 > 0
    · rw [if_pos h, ghash_full_blocks _ _ _ _ h]
    · rw [if_neg h]
      have e : A.length / 16 = 0 := by omega
      rw [e]
      rfl
  rw [h1]
  generalize ghash_fold_spec ctx.H ctx.final_ghash ((List.range (A.length / 16)).map (block_at A))
    = g
  by_cases h : A.length % 16 ≠ 0
  · rw [if_pos h, ghash_single_block,
      blocks_padded_short _ (by rw [List.length_drop]; omega) (by rw [List.length_drop]; omega)]
    rfl
  · rw [if_neg h]
    have e : A.drop (A.length / 16 * 16) = [] := by
      apply List.eq_nil_of_length_eq_zero
      rw [List.length_drop]
      omega
    rw [e, blocks_padded_nil]
    rfl

/-- C22. The AAD step: `sm4_gcm_aad` returns 0, leaves in the GHASH accumulator the fold
`Y := (Y XOR X_i) * H` over the 16-byte blocks `X_i` of the AAD, the final partial block
zero-padded, adds the AAD length to `len_a` (a 64-bit counter), and leaves the cipher
context, `H`, `J0`, `len_c` and `buf_len` as they were. -/
theorem sm4_gcm_aad_step (ctx : SM4_GCM_Context) (A : List Nat) :
    sm4_gcm_aad_ret ctx A = 0 ∧
    (sm4_gcm_aad ctx A).final_ghash =
      ghash_fold_spec ctx.H ctx.final_ghash (blocks_padded A) ∧
    (sm4_gcm_aad ctx A).len_a = (ctx.len_a + A.length) % 18446744073709551616 ∧
    (sm4_gcm_aad ctx A).cipher_ctx = ctx.cipher_ctx ∧
    (sm4_gcm_aad ctx A).H = ctx.H ∧
    (sm4_gcm_aad ctx A).J0 = ctx.J0 ∧
    (sm4_gcm_aad ctx A).len_c = ctx.len_c ∧
    (sm4_gcm_aad ctx A).buf_len = ctx.buf_len :=
  ⟨rfl, aad_final_ghash ctx A, rfl, rfl, rfl, rfl, rfl, rfl⟩

theorem finish_full_eq (ctx : SM4_GCM_Context) :
    sm4_gcm_finish_full ctx =
      (xor16 (sm4_encrypt_block ctx.cipher_ctx ctx.J0)
        (ghash_fold_spec ctx.H ctx.final_ghash
          [be64_spec ((8 * ctx.len_a) % 18446744073709551616) ++
            be64_spec ((8 * ctx.len_c) % 18446744073709551616)]),
       ghash_fold_spec ctx.H ctx.final_ghash
          [be64_spec ((8 * ctx.len_a) % 18446744073709551616) ++
            be64_spec ((8 * ctx.len_c) % 18446744073709551616)]) := by
  unfold sm4_gcm_finish_full
  simp only
  rw [ghash_single_block, be64_bytes_eq_be64_spec, be64_bytes_eq_be64_spec,
    Nat.mul_comm ctx.len_a 8, Nat.mul_comm ctx.len_c 8]
  rfl

/-- C21. Finish and truncation: for every session state and tag length `t` up to 16 (so
for every `t` in 1..16), `sm4_gcm_finish` returns 0 and writes exactly `t` bytes, the first
`t` bytes of `sm4_encrypt_block(J0) XOR G`, where `G` is the GHASH accumulator after
folding one more block: the big-endian 64-bit value `8 * len_a` followed by the big-endian
64-bit value `8 * len_c` (both products taken in 64 bits). `G` is the accumulator the call
leaves, and the `t`-byte tag is the prefix of the 16-byte tag. -/
theorem sm4_gcm_finish_tag (ctx : SM4_GCM_Context) (t : Nat) (ht : t ≤ 16) :
    sm4_gcm_finish_ret ctx t = 0 ∧
    (sm4_gcm_finish ctx t).2 =
      (xor16 (sm4_encrypt_block ctx.cipher_ctx ctx.J0)
        (ghash_fold_spec ctx.H ctx.final_ghash
          [be64_spec ((8 * ctx.len_a) % 18446744073709551616) ++
            be64_spec ((8 * ctx.len_c) % 18446744073709551616)])).take t ∧
    (sm4_gcm_finish ctx t).2.length = t ∧
    (sm4_gcm_finish ctx t).1.final_ghash =
      ghash_fold_spec ctx.H ctx.final_ghash
        [be64_spec ((8 * ctx.len_a) % 18446744073709551616) ++
          be64_spec ((8 * ctx.len_c) % 18446744073709551616)] ∧
    (sm4_gcm_finish ctx t).2 = (sm4_gcm_finish ctx 16).2.take t := by
  have e := finish_full_eq ctx
  refine ⟨rfl, ?_, ?_, ?_, ?_⟩
  · rw [finish_tag_eq ctx t ht, e]
  · rw [finish_tag_eq ctx t ht, List.length_take, finish_full_length]
    omega
  · show (sm4_gcm_finish_full ctx).2 = _
    rw [e]
  · rw [finish_tag_eq ctx t ht, finish_tag_16]

theorem sm4_gcm_finish_tag_witness :
    (4 : Nat) ≤ 16 ∧
    (sm4_gcm_finish (sm4_gcm_init kat2_key (List.replicate 12 0)) 4).2.length = 4 :=
  ⟨by decide, (sm4_gcm_finish_tag (sm4_gcm_init kat2_key (List.replicate 12 0)) 4
    (by decide)).2.2.1⟩

/-- C24. The one-shot call composes the step calls: for every key, nonce, AAD, input and
tag length, `sm4_gcm_encrypt_and_tag` returns 0 and yields the ciphertext and the tag of
`sm4_gcm_init`, `sm4_gcm_aad`, `sm4_gcm_encrypt`, `sm4_gcm_finish` run in that order, each
of which returns 0; for an empty AAD, where the one-shot call skips `sm4_gcm_aad`, the
session after `sm4_gcm_aad` is the one after `sm4_gcm_init`, so the sequence without the
AAD call yields them too. -/
theorem sm4_gcm_encrypt_and_tag_composes (key iv aad inp : List Nat) (t : Nat) :
    sm4_gcm_encrypt_and_tag key iv aad inp t =
      (0, (sm4_gcm_encrypt (sm4_gcm_aad (sm4_gcm_init key iv) aad) inp).2,
        (sm4_gcm_finish (sm4_gcm_encrypt (sm4_gcm_aad (sm4_gcm_init key iv) aad) inp).1 t).2) ∧
    sm4_gcm_aad (sm4_gcm_init key iv) [] = sm4_gcm_init key iv ∧
    sm4_gcm_encrypt_and_tag key iv [] inp t =
      (0, (sm4_gcm_encrypt (sm4_gcm_init key iv) inp).2,
        (sm4_gcm_finish (sm4_gcm_encrypt (sm4_gcm_init key iv) inp).1 t).2) ∧
    sm4_gcm_init_ret key iv = 0 ∧
    sm4_gcm_aad_ret (sm4_gcm_init key iv) aad = 0 ∧
    sm4_gcm_encrypt_ret (sm4_gcm_aad (sm4_gcm_init key iv) aad) inp = 0 ∧
    sm4_gcm_finish_ret (sm4_gcm_encrypt (sm4_gcm_aad (sm4_gcm_init key iv) aad) inp).1 t = 0 := by
  have hnil : sm4_gcm_aad (sm4_gcm_init key iv) [] = sm4_gcm_init key iv :=
    aad_nil _ (by rw [init_len_a]; norm_num)
  have hctx : (if aad.length > 0 then sm4_gcm_aad (sm4_gcm_init key iv) aad
      else sm4_gcm_init key iv) = sm4_gcm_aad (sm4_gcm_init key iv) aad := by
    by_cases h : aad.length > 0
    · rw [if_pos h]
    · rw [if_neg h]
      have e : aad = [] := List.eq_nil_of_length_eq_zero (by omega)
      rw [e, hnil]
  refine ⟨?_, hnil, ?_, rfl, rfl, rfl, rfl⟩
  · unfold sm4_gcm_encrypt_and_tag
    simp only
    rw [hctx]
  · unfold sm4_gcm_encrypt_and_tag
    simp only [List.length_nil, gt_iff_lt, Nat.lt_irrefl, if_false]

theorem increment_counter_length (c : List Nat) : (increment_counter c).length = c.length := by
  unfold increment_counter
  simp only [increment_counter_loop]
  split_ifs <;> simp only [List.length_set]

/-- C25. The counter increment wraps in 32 bits: on a 16-byte counter block
`increment_counter` leaves bytes 0..11 as they are and replaces the big-endian 32-bit value
`v` of bytes 12..15 by `(v + 1) mod 2^32`; the block stays 16 bytes. -/
theorem increment_counter_wraps (c : List Nat) (hl : c.length = 16)
    (hb : ∀ i, i < 16 → c.getD i 0 < 256) :
    (increment_counter c).length = 16 ∧
    (∀ i, i < 12 → (increment_counter c).getD i 0 = c.getD i 0) ∧
    be_word_spec (increment_counter c) 12 = (be_word_spec c 12 + 1) % 4294967296 := by
  refine ⟨by rw [increment_counter_length, hl], ?_, ?_⟩
  · intro i hi
    unfold increment_counter
    simp only [increment_counter_loop]
    split_ifs <;>
      simp only [List.getD_eq_getElem?_getD, List.getElem?_set, List.length_set] <;>
      simp (disch := omega) only [if_neg, if_false]
  · have h12 := hb 12 (by omega)
    have h13 := hb 13 (by omega)
    have h14 := hb 14 (by omega)
    have h15 := hb 15 (by omega)
    unfold increment_counter be_word_spec
    simp only [increment_counter_loop, Nat.reduceAdd, Nat.reduceSub]
    split_ifs <;>
      simp only [List.getD_eq_getElem?_getD, List.getElem?_set, List.length_set] at * <;>
      simp (disch := omega) only [if_neg, if_pos, if_true, if_false, Option.getD_some] at * <;>
      omega

theorem increment_counter_wraps_witness :
    (List.replicate 12 7 ++ [255, 255, 255, 255]).length = 16 ∧
    be_word_spec (increment_counter (List.replicate 12 7 ++ [255, 255, 255, 255])) 12 =
      (be_word_spec (List.replicate 12 7 ++ [255, 255, 255, 255]) 12 + 1) % 4294967296 ∧
    be_word_spec (increment_counter (List.replicate 12 7 ++ [255, 255, 255, 255])) 12 = 0 :=
  ⟨by decide,
    (increment_counter_wraps (List.replicate 12 7 ++ [255, 255, 255, 255]) (by decide)
      (by decide)).2.2, by decide⟩

/-! ## The backend selector -/

/-- C26. Backend preference: as a function of the capability flags,
`sm4_get_best_implementation` returns "gfni" when `has_gfni` and `has_avx512f` are both
set, otherwise "vaes" when `has_vaes` and `has_avx2` are both set, otherwise "aesni" when
`has_aesni` is set, otherwise "t_table"; with all flags false it returns "t_table". -/
theorem sm4_get_best_implementation_preference (forced_impl : Option String)
    (f : SM4_CPU_Features) :
    (f.has_gfni = true ∧ f.has_avx512f = true →
      sm4_get_best_implementation forced_impl f = "gfni") ∧
    (¬ (f.has_gfni = true ∧ f.has_avx512f = true) → f.has_vaes = true ∧ f.has_avx2 = true →
      sm4_get_best_implementation forced_impl f = "vaes") ∧
    (¬ (f.has_gfni = true ∧ f.has_avx512f = true) → ¬ (f.has_vaes = true ∧ f.has_avx2 = true) →
      f.has_aesni = true → sm4_get_best_implementation forced_impl f = "aesni") ∧
    (¬ (f.has_gfni = true ∧ f.has_avx512f = true) → ¬ (f.has_vaes = true ∧ f.has_avx2 = true) →
      f.has_aesni = false → sm4_get_best_implementation forced_impl f = "t_table") ∧
    sm4_get_best_implementation forced_impl
      ⟨false, false, false, false, false, false, false, false⟩ = "t_table" := by
  unfold sm4_get_best_implementation
  refine ⟨?_, ?_, ?_, ?_, rfl⟩
  · intro h
    simp [h.1, h.2]
  · intro h1 h2
    rw [if_neg (by simpa using h1)]
    simp [h2.1, h2.2]
  · intro h1 h2 h3
    rw [if_neg (by simpa using h1), if_neg (by simpa using h2), if_pos h3]
  · intro h1 h2 h3
    rw [if_neg (by simpa using h1), if_neg (by simpa using h2), if_neg (by simp [h3])]

/-- C27. Name validation of the forced backend: `sm4_force_implementation` returns 0 when
`impl_name` is `NULL`, and then clears the override, or is one of "basic", "t_table",
"aesni", "gfni", and then stores the name; for every other name it returns -1 and leaves
the stored override as it was. -/
theorem sm4_force_implementation_validation (forced_impl : Option String) :
    sm4_force_implementation forced_impl none = (0, none) ∧
    (∀ name : String, name = "basic" ∨ name = "t_table" ∨ name = "aesni" ∨ name = "gfni" →
      sm4_force_implementation forced_impl (some name) = (0, some name)) ∧
    (∀ name : String, ¬ (name = "basic" ∨ name = "t_table" ∨ name = "aesni" ∨ name = "gfni") →
      sm4_force_implementation forced_impl (some name) = (-1, forced_impl)) ∧
    (∀ impl_name : Option String,
      (sm4_force_implementation forced_impl impl_name).1 = 0 ∨
        ((sm4_force_implementation forced_impl impl_name).1 ≠ 0 ∧
          (sm4_force_implementation forced_impl impl_name).2 = forced_impl)) := by
  refine ⟨rfl, ?_, ?_, ?_⟩
  · intro name h
    unfold sm4_force_implementation
    simp only
    rw [if_pos h]
  · intro name h
    unfold sm4_force_implementation
    simp only
    rw [if_neg h]
  · intro impl_name
    cases impl_name with
    | none => exact Or.inl rfl
    | some name =>
      unfold sm4_force_implementation
      simp only
      by_cases h : name = "basic" ∨ name = "t_table" ∨ name = "aesni" ∨ name = "gfni"
      · rw [if_pos h]
        exact Or.inl rfl
      · rw [if_neg h]
        exact Or.inr ⟨show (-1 : Int) ≠ 0 by decide, rfl⟩

/-- C28. Forcing does not pin the backend: `sm4_force_implementation` accepts "basic" and
stores it, and `sm4_get_best_implementation` then reports, for every capability set, what
it reports without an override, which is never "basic"; with all flags false it reports
"t_table". -/
theorem sm4_forced_backend_not_reported :
    sm4_force_implementation none (some "basic") = (0, some "basic") ∧
    sm4_get_best_implementation (some "basic")
      ⟨false, false, false, false, false, false, false, false⟩ = "t_table" ∧
    (∀ (forced_impl : Option String) (f : SM4_CPU_Features),
      sm4_get_best_implementation forced_impl f = sm4_get_best_implementation none f) ∧
    (∀ f : SM4_CPU_Features, sm4_get_best_implementation (some "basic") f ≠ "basic") := by
  refine ⟨by decide, by decide, fun _ _ => rfl, ?_⟩
  intro f
  unfold sm4_get_best_implementation
  split_ifs <;> decide

/-! ## GHASH multiplication: the bits of a block -/

/-- A sum of distinct powers of two below `2^n`: its bits are the summands. -/
theorem bits_sum (f : Nat → Bool) (n : Nat) :
    (List.range n).foldl (fun acc k => if f k then acc + 2 ^ k else acc) 0 < 2 ^ n ∧
    ∀ j, ((List.range n).foldl (fun acc k => if f k then acc + 2 ^ k else acc) 0).testBit j =
      (decide (j < n) && f j) := by
  induction n with
  | zero =>
    refine ⟨by simp, fun j => ?_⟩
    simp
  | succ n ih =>
    obtain ⟨hlt, hbit⟩ := ih
    rw [List.range_succ, List.foldl_append, List.foldl_cons, List.foldl_nil]
    generalize (List.range n).foldl (fun acc k => if f k then acc + 2 ^ k else acc) 0 = S
      at hlt hbit
    have hp : 2 ^ (n + 1) = 2 ^ n + 2 ^ n := by rw [Nat.pow_succ]; omega
    by_cases hf : f n = true
    · rw [if_pos hf]
      refine ⟨by omega, fun j => ?_⟩
      have e : S + 2 ^ n = 2 ^ n * 1 + S := by omega
      rw [e, Nat.testBit_mul_pow_two_add 1 hlt j]
      by_cases c : j < n
      · rw [if_pos c, hbit j]
        simp [c, Nat.lt_succ_of_lt c]
      · rw [if_neg c]
        by_cases c2 : j = n
        · subst c2
          simp [hf]
        · have c3 : ¬ j < n + 1 := by omega
          have c4 : j - n ≠ 0 := by omega
          obtain ⟨m, hm⟩ : ∃ m, j - n = m + 1 := ⟨j - n - 1, by omega⟩
          rw [hm, Nat.testBit_succ]
          simp [c3]
    · rw [if_neg hf]
      refine ⟨by omega, fun j => ?_⟩
      rw [hbit j]
      by_cases c : j < n
      · simp [c, Nat.lt_succ_of_lt c]
      · by_cases c2 : j = n
        · subst c2
          simp [hf]
        · have c3 : ¬ j < n + 1 := by omega
          simp [c, c3]

theorem gcm_poly_lt (b : List Nat) : gcm_poly b < 2 ^ 128 :=
  (bits_sum (gcm_bit b) 128).1

theorem gcm_poly_testBit (b : List Nat) (j : Nat) :
    (gcm_poly b).testBit j = (decide (j < 128) && gcm_bit b j) :=
  (bits_sum (gcm_bit b) 128).2 j

/-- Two blocks with the same coefficients have the same polynomial. -/
theorem gcm_poly_congr (a b : List Nat) (h : ∀ k, k < 128 → gcm_bit a k = gcm_bit b k) :
    gcm_poly a = gcm_poly b := by
  apply Nat.eq_of_testBit_eq
  intro j
  rw [gcm_poly_testBit, gcm_poly_testBit]
  by_cases c : j < 128
  · rw [h j c]
  · simp [c]

theorem gcm_poly_block16 (y : List Nat) : gcm_poly (block16 y 0) = gcm_poly y := by
  apply gcm_poly_congr
  intro k hk
  unfold gcm_bit
  rw [block16_getD y (k / 8) (by omega)]

theorem gcm_poly_zero : gcm_poly (List.replicate 16 0) = 0 := by
  apply Nat.eq_of_testBit_eq
  intro j
  rw [gcm_poly_testBit]
  have e : gcm_bit (List.replicate 16 0) j = false := by
    unfold gcm_bit
    rw [List.getD_eq_getElem?_getD, List.getElem?_replicate]
    split <;> simp
  rw [e]
  simp

/-- The bit test of the inner loop of `gf128_mul` reads the coefficient of degree
`8 i + t` of `x`, for `j = 7 - t`. -/
theorem mask_eq_gcm_bit (x : List Nat) (i t : Nat) (ht : t < 8) :
    ((x.getD i 0 >>> (7 - t)) &&& 1 ≠ 0) ↔ gcm_bit x (8 * i + t) = true := by
  unfold gcm_bit
  have e1 : (8 * i + t) / 8 = i := by omega
  have e2 : (8 * i + t) % 8 = t := by omega
  rw [e1, e2, Nat.testBit, Nat.and_comm]
  simp

/-! ### The two steps of the loop of `gf128_mul` on polynomials -/

theorem gf128_xor_into_getD (z v : List Nat) (hz : z.length = 16) (j : Nat) :
    (gf128_xor_into z v).getD j 0 =
      if j < 16 then z.getD j 0 ^^^ v.getD j 0 else z.getD j 0 :=
  (foldl_set_range (fun j x => x ^^^ v.getD j 0) z 16 (by omega)).2 j

/-- The statement `z ^= v` adds the polynomials. -/
theorem gcm_poly_xor_into (z v : List Nat) (hz : z.length = 16) :
    gcm_poly (gf128_xor_into z v) = gcm_poly z ^^^ gcm_poly v := by
  apply Nat.eq_of_testBit_eq
  intro j
  rw [Nat.testBit_xor, gcm_poly_testBit, gcm_poly_testBit, gcm_poly_testBit]
  by_cases c : j < 128
  · unfold gcm_bit
    rw [gf128_xor_into_getD z v hz, if_pos (by omega), Nat.testBit_xor]
    simp [c]
  · simp [c]

theorem gf128_xor_into_lt (z v : List Nat) (hz : z.length = 16)
    (hzb : ∀ i, z.getD i 0 < 256) (hvb : ∀ i, v.getD i 0 < 256) (i : Nat) :
    (gf128_xor_into z v).getD i 0 < 256 := by
  rw [gf128_xor_into_getD z v hz]
  split
  · exact xor_lt_byte (hzb i) (hvb i)
  · exact hzb i

/-- The downward loop of `gf128_shift`: after `n` passes the bytes above index `15 - n`
are rewritten from the bytes of the block before the loop. -/
theorem shift_loop (v : List Nat) (hv : v.length = 16) (n : Nat) (hn : n ≤ 15) :
    ((List.range n).foldl
      (fun v t => v.set (15 - t)
        (((v.getD (15 - t) 0 >>> 1) ||| ((v.getD (15 - t - 1) 0 &&& 1) <<< 7)) % 256)) v).length
      = 16 ∧
    ∀ i, ((List.range n).foldl
      (fun v t => v.set (15 - t)
        (((v.getD (15 - t) 0 >>> 1) ||| ((v.getD (15 - t - 1) 0 &&& 1) <<< 7)) % 256)) v).getD i 0
      = if 15 - n < i ∧ i < 16 then
          ((v.getD i 0 >>> 1) ||| ((v.getD (i - 1) 0 &&& 1) <<< 7)) % 256
        else v.getD i 0 := by
  induction n with
  | zero =>
    refine ⟨hv, fun i => ?_⟩
    rw [if_neg (by omega)]
    rfl
  | succ n ih =>
    obtain ⟨hl, hg⟩ := ih (by omega)
    rw [List.range_succ, List.foldl_append, List.foldl_cons, List.foldl_nil]
    refine ⟨by rw [List.length_set]; exact hl, fun i => ?_⟩
    have a1 := hg (15 - n)
    rw [if_neg (show ¬ (15 - n < 15 - n ∧ 15 - n < 16) by omega)] at a1
    have a2 := hg (15 - n - 1)
    rw [if_neg (show ¬ (15 - n < 15 - n - 1 ∧ 15 - n - 1 < 16) by omega)] at a2
    rw [getD_set_eq _ _ _ _ (by rw [hl]; omega), a1, a2, hg i]
    by_cases c : i = 15 - n
    · rw [if_pos c, if_pos (by omega), c]
    · rw [if_neg c]
      by_cases c2 : 15 - n < i ∧ i < 16
      · rw [if_pos c2, if_pos (by omega)]
      · rw [if_neg c2, if_neg (by omega)]

/-- The bytes of the block that `gf128_shift` leaves. -/
theorem gf128_shift_getD (v : List Nat) (hv : v.length = 16) (i : Nat) :
    (gf128_shift v).getD i 0 =
      if i = 0 then
        (if v.getD 15 0 &&& 1 ≠ 0 then (v.getD 0 0 >>> 1) ^^^ 0xe1 else v.getD 0 0 >>> 1)
      else if i < 16 then ((v.getD i 0 >>> 1) ||| ((v.getD (i - 1) 0 &&& 1) <<< 7)) % 256
      else v.getD i 0 := by
  obtain ⟨hl, hg⟩ := shift_loop v hv 15 (by omega)
  unfold gf128_shift
  simp only
  generalize (List.range 15).foldl
      (fun v t => v.set (15 - t)
        (((v.getD (15 - t) 0 >>> 1) ||| ((v.getD (15 - t - 1) 0 &&& 1) <<< 7)) % 256)) v = v1
    at hl hg
  have h0 : v1.getD 0 0 = v.getD 0 0 := by rw [hg 0, if_neg (by omega)]
  have hl2 : (v1.set 0 (v1.getD 0 0 >>> 1)).length = 16 := by rw [List.length_set]; exact hl
  by_cases hm : v.getD 15 0 &&& 1 ≠ 0
  · rw [if_pos hm, if_pos hm, getD_set_eq _ _ _ _ (by rw [hl2]; omega),
      getD_set_eq _ _ _ _ (by rw [hl]; omega), getD_set_eq _ _ _ _ (by rw [hl]; omega)]
    by_cases c : i = 0
    · subst c
      rw [if_pos rfl, if_pos rfl, if_pos rfl, h0]
    · rw [if_neg c, if_neg c, if_neg c, hg i]
      by_cases c2 : i < 16
      · rw [if_pos (by omega), if_pos c2]
      · rw [if_neg (by omega), if_neg c2]
  · rw [if_neg hm, if_neg hm, getD_set_eq _ _ _ _ (by rw [hl]; omega)]
    by_cases c : i = 0
    · subst c
      rw [if_pos rfl, if_pos rfl, h0]
    · rw [if_neg c, if_neg c, hg i]
      by_cases c2 : i < 16
      · rw [if_pos (by omega), if_pos c2]
      · rw [if_neg (by omega), if_neg c2]

theorem gf128_shift_length (v : List Nat) (hv : v.length = 16) :
    (gf128_shift v).length = 16 := by
  unfold gf128_shift
  simp only
  split <;> simp only [List.length_set] <;> exact (shift_loop v hv 15 (by omega)).1

theorem gf128_shift_lt (v : List Nat) (hv : v.length = 16) (hb : ∀ i, v.getD i 0 < 256)
    (i : Nat) : (gf128_shift v).getD i 0 < 256 := by
  rw [gf128_shift_getD v hv i]
  have h0 : v.getD 0 0 >>> 1 < 256 := by
    have := hb 0
    rw [Nat.shiftRight_eq_div_pow]
    omega
  split_ifs
  · exact xor_lt_byte h0 (by norm_num)
  · exact h0
  · exact Nat.mod_lt _ (by norm_num)
  · exact hb i

theorem gcm_modulus_eq : gcm_modulus = 2 ^ 128 + 135 := by
  unfold gcm_modulus
  norm_num

theorem gcm_modulus_lt : gcm_modulus < 2 ^ 129 := by
  unfold gcm_modulus
  norm_num

theorem gcm_modulus_testBit_128 : gcm_modulus.testBit 128 = true := by
  rw [gcm_modulus_eq, Nat.testBit_two_pow_add_eq]
  decide

theorem gcm_modulus_testBit_gt (j : Nat) (h : 128 < j) : gcm_modulus.testBit j = false := by
  apply Nat.testBit_lt_two_pow
  exact Nat.lt_of_lt_of_le gcm_modulus_lt (Nat.pow_le_pow_right (by omega) (by omega))

theorem gcm_modulus_testBit_mid (j : Nat) (h8 : 8 ≤ j) (h : j < 128) :
    gcm_modulus.testBit j = false := by
  rw [gcm_modulus_eq, Nat.testBit_two_pow_add_gt h]
  apply Nat.testBit_lt_two_pow
  exact Nat.lt_of_lt_of_le (show 135 < 2 ^ 8 by norm_num) (Nat.pow_le_pow_right (by omega) h8)

theorem gcm_modulus_testBit_low (j : Nat) (h : j < 8) :
    gcm_modulus.testBit j = Nat.testBit 135 j := by
  rw [gcm_modulus_eq, Nat.testBit_two_pow_add_gt (by omega)]

theorem testBit_two_mul (V j : Nat) :
    (2 * V).testBit j = (decide (1 ≤ j) && V.testBit (j - 1)) := by
  have e : 2 * V = V <<< 1 := by rw [Nat.shiftLeft_eq]; omega
  rw [e, Nat.testBit_shiftLeft]

theorem mask_eq_testBit_127 (v : List Nat) :
    (v.getD 15 0 &&& 1 ≠ 0) ↔ (gcm_poly v).testBit 127 = true := by
  rw [gcm_poly_testBit]
  have h := mask_eq_gcm_bit v 15 7 (by omega)
  simpa using h

theorem testBit_byte_high (a m : Nat) (ha : a < 256) (hm : 8 ≤ m) : a.testBit m = false := by
  apply Nat.testBit_lt_two_pow
  exact Nat.lt_of_lt_of_le (show a < 2 ^ 8 by simpa using ha) (Nat.pow_le_pow_right (by omega) hm)

/-- The shift of `gf128_mul` multiplies the polynomial by `x` and subtracts the modulus
when the coefficient of degree 127 was set. -/
theorem gcm_poly_shift (v : List Nat) (hv : v.length = 16) (hb : ∀ i, v.getD i 0 < 256) :
    gcm_poly (gf128_shift v) =
      (2 * gcm_poly v) ^^^ (if (gcm_poly v).testBit 127 = true then gcm_modulus else 0) := by
  apply Nat.eq_of_testBit_eq
  intro j
  rw [Nat.testBit_xor, testBit_two_mul, gcm_poly_testBit, gcm_poly_testBit]
  have hc := mask_eq_testBit_127 v
  by_cases c128 : 128 < j
  · have e1 : ¬ j < 128 := by omega
    have e2 : ¬ j - 1 < 128 := by omega
    have e3 : (if (gcm_poly v).testBit 127 = true then gcm_modulus else 0).testBit j = false := by
      split
      · exact gcm_modulus_testBit_gt j c128
      · simp
    rw [e3]
    simp [e1, e2]
  by_cases c128e : j = 128
  · subst c128e
    have e3 : (if (gcm_poly v).testBit 127 = true then gcm_modulus else 0).testBit 128 =
        (gcm_poly v).testBit 127 := by
      split
      · rename_i h
        rw [gcm_modulus_testBit_128, h]
      · rename_i h
        simp at h
        simp [h]
    rw [e3, gcm_poly_testBit]
    simp
  have hj : j < 128 := by omega
  unfold gcm_bit
  rw [gf128_shift_getD v hv (j / 8)]
  by_cases c8 : j < 8
  · have e0 : j / 8 = 0 := by omega
    have e1 : j % 8 = j := by omega
    have e2 : (j - 1) / 8 = 0 := by omega
    have e3 : (j - 1) % 8 = j - 1 := by omega
    rw [e0, e1, e2, e3, if_pos rfl]
    have e4 : (if (gcm_poly v).testBit 127 = true then gcm_modulus else 0).testBit j =
        ((gcm_poly v).testBit 127 && Nat.testBit 135 j) := by
      split
      · rename_i h
        rw [gcm_modulus_testBit_low j c8, h]
        simp
      · rename_i h
        simp at h
        simp [h]
    rw [e4]
    have h8 := testBit_byte_high (v.getD 0 0) 8 (hb 0) (by omega)
    have b225 : ∀ m, m < 8 → Nat.testBit 225 m = decide (m = 0 ∨ m = 5 ∨ m = 6 ∨ m = 7) := by
      decide
    have b135 : ∀ m, m < 8 → Nat.testBit 135 m = decide (m = 0 ∨ m = 1 ∨ m = 2 ∨ m = 7) := by
      decide
    rw [b135 j c8]
    generalize v.getD 0 0 = a at h8 ⊢
    by_cases cm : v.getD 15 0 &&& 1 ≠ 0
    · rw [if_pos cm, hc.mp cm, Nat.testBit_xor, Nat.testBit_shiftRight, b225 (7 - j) (by omega)]
      interval_cases j <;> simp [h8]
    · rw [if_neg cm]
      have hf : (gcm_poly v).testBit 127 = false := by
        rw [hc] at cm
        simpa using cm
      rw [hf, Nat.testBit_shiftRight]
      interval_cases j <;> simp [h8]
  · have e0 : j / 8 ≠ 0 := by omega
    have e1 : j / 8 < 16 := by omega
    rw [if_neg e0, if_pos e1]
    have e4 : (if (gcm_poly v).testBit 127 = true then gcm_modulus else 0).testBit j = false := by
      split
      · exact gcm_modulus_testBit_mid j (by omega) hj
      · simp
    rw [e4, Nat.testBit_mod_two_pow _ 8, Nat.testBit_or, Nat.testBit_shiftRight,
      Nat.testBit_shiftLeft, Nat.testBit_and]
    have hj1 : j - 1 < 128 := by omega
    by_cases c0 : j % 8 = 0
    · have e5 : (j - 1) / 8 = j / 8 - 1 := by omega
      have e6 : (j - 1) % 8 = 7 := by omega
      rw [c0, e5, e6]
      have h8 := testBit_byte_high (v.getD (j / 8) 0) 8 (hb _) (by omega)
      have h1 : 1 ≤ j := by omega
      simp only [List.getD_eq_getElem?_getD] at h8
      simp [h8, hj, hj1, h1]
    · have e5 : (j - 1) / 8 = j / 8 := by omega
      have e6 : 7 - (j - 1) % 8 = 1 + (7 - j % 8) := by omega
      have e7 : ¬ 7 - j % 8 ≥ 7 := by omega
      rw [e5, e6]
      have h1 : 1 ≤ j := by omega
      have e8 : 7 - j % 8 < 8 := by omega
      simp [e7, hj, hj1, h1, e8]

/-! ### Products of polynomials over GF(2) -/

theorem poly_mul_upto_succ (n a b : Nat) :
    poly_mul_upto (n + 1) a b =
      if a.testBit n = true then poly_mul_upto n a b ^^^ (b <<< n) else poly_mul_upto n a b := by
  unfold poly_mul_upto
  rw [List.range_succ, List.foldl_append, List.foldl_cons, List.foldl_nil]

theorem poly_mul_upto_congr (n a c b : Nat) (h : ∀ k, k < n → a.testBit k = c.testBit k) :
    poly_mul_upto n a b = poly_mul_upto n c b := by
  induction n with
  | zero => rfl
  | succ n ih =>
    rw [poly_mul_upto_succ, poly_mul_upto_succ, ih (fun k hk => h k (by omega)), h n (by omega)]

theorem poly_mul_upto_add (n m a b : Nat) (h : a < 2 ^ n) :
    poly_mul_upto (n + m) a b = poly_mul_upto n a b := by
  induction m with
  | zero => rfl
  | succ m ih =>
    have e : a.testBit (n + m) = false :=
      Nat.testBit_lt_two_pow (Nat.lt_of_lt_of_le h (Nat.pow_le_pow_right (by omega) (by omega)))
    rw [← Nat.add_assoc, poly_mul_upto_succ, e, ih]
    simp

theorem poly_mul_upto_le (n m a b : Nat) (h : a < 2 ^ n) (hm : n ≤ m) :
    poly_mul_upto m a b = poly_mul_upto n a b := by
  obtain ⟨d, rfl⟩ : ∃ d, m = n + d := ⟨m - n, by omega⟩
  exact poly_mul_upto_add n d a b h

theorem poly_mul_upto_eq (n a b : Nat) (h : a < 2 ^ n) :
    poly_mul_upto n a b = poly_mul a b := by
  unfold poly_mul
  have hs : a < 2 ^ a.size := Nat.lt_size_self a
  rw [← poly_mul_upto_le n (max n a.size) a b h (Nat.le_max_left _ _),
    ← poly_mul_upto_le a.size (max n a.size) a b hs (Nat.le_max_right _ _)]

theorem poly_mul_upto_zero (n b : Nat) : poly_mul_upto n 0 b = 0 := by
  induction n with
  | zero => rfl
  | succ n ih =>
    rw [poly_mul_upto_succ, ih]
    simp

theorem xor_left_comm (a b c : Nat) : a ^^^ (b ^^^ c) = b ^^^ (a ^^^ c) := by
  rw [← Nat.xor_assoc, Nat.xor_comm a b, Nat.xor_assoc]

theorem xor_self_cancel (b x : Nat) : b ^^^ (b ^^^ x) = x := by
  rw [← Nat.xor_assoc, Nat.xor_self, Nat.zero_xor]

theorem poly_mul_upto_xor (n a c b : Nat) :
    poly_mul_upto n (a ^^^ c) b = poly_mul_upto n a b ^^^ poly_mul_upto n c b := by
  induction n with
  | zero => simp [poly_mul_upto]
  | succ n ih =>
    rw [poly_mul_upto_succ, poly_mul_upto_succ, poly_mul_upto_succ, ih, Nat.testBit_xor]
    cases a.testBit n <;> cases c.testBit n <;>
      simp [Nat.xor_assoc, Nat.xor_comm, xor_left_comm, xor_self_cancel]

theorem two_mul_xor (u v : Nat) : 2 * (u ^^^ v) = (2 * u) ^^^ (2 * v) := by
  apply Nat.eq_of_testBit_eq
  intro j
  rw [Nat.testBit_xor, testBit_two_mul, testBit_two_mul, testBit_two_mul, Nat.testBit_xor]
  cases decide (1 ≤ j) <;> simp

theorem poly_mul_upto_two_mul (n a b : Nat) :
    poly_mul_upto (n + 1) (2 * a) b = 2 * poly_mul_upto n a b := by
  induction n with
  | zero =>
    rw [poly_mul_upto_succ]
    simp [poly_mul_upto]
  | succ n ih =>
    rw [poly_mul_upto_succ, ih, poly_mul_upto_succ n, testBit_two_mul]
    have e : b <<< (n + 1) = 2 * (b <<< n) := by
      rw [Nat.shiftLeft_eq, Nat.shiftLeft_eq, Nat.pow_succ]
      ring
    have e2 : n + 1 - 1 = n := by omega
    rw [e, e2]
    by_cases h : a.testBit n = true
    · rw [if_pos h, two_mul_xor]
      simp [h]
    · rw [if_neg h]
      simp [h]

theorem poly_mul_upto_two_pow (n d b : Nat) (h : d < n) :
    poly_mul_upto n (2 ^ d) b = b <<< d := by
  induction n with
  | zero => omega
  | succ n ih =>
    rw [poly_mul_upto_succ, Nat.testBit_two_pow]
    by_cases c : d = n
    · subst c
      have e : poly_mul_upto d (2 ^ d) b = poly_mul_upto d 0 b :=
        poly_mul_upto_congr d _ _ b (fun k hk => by
          rw [Nat.testBit_two_pow]
          simp
          omega)
      rw [e, poly_mul_upto_zero]
      simp
    · rw [ih (by omega)]
      simp [c]

theorem poly_mul_upto_lt (n a b m : Nat) (hb : b < 2 ^ (m + 1)) :
    poly_mul_upto n a b < 2 ^ (m + n) := by
  induction n with
  | zero =>
    show 0 < 2 ^ (m + 0)
    exact Nat.two_pow_pos _
  | succ n ih =>
    rw [poly_mul_upto_succ]
    have h1 : poly_mul_upto n a b < 2 ^ (m + (n + 1)) :=
      Nat.lt_of_lt_of_le ih (Nat.pow_le_pow_right (by omega) (by omega))
    have h2 : b <<< n < 2 ^ (m + (n + 1)) := by
      rw [Nat.shiftLeft_eq]
      have e : 2 ^ (m + (n + 1)) = 2 ^ (m + 1) * 2 ^ n := by
        rw [← Nat.pow_add]
        congr 1
        omega
      rw [e]
      exact Nat.mul_lt_mul_of_pos_right hb (Nat.two_pow_pos n)
    split
    · exact Nat.xor_lt_two_pow h1 h2
    · exact h1

/-- A non-zero multiple of the modulus has degree at least 128. -/
theorem poly_mul_upto_modulus_ge (n q : Nat) (hq : q ≠ 0) (hn : q < 2 ^ n) :
    2 ^ 128 ≤ poly_mul_upto n q gcm_modulus := by
  induction n with
  | zero =>
    simp at hn
    omega
  | succ n ih =>
    rw [poly_mul_upto_succ]
    by_cases h : q.testBit n = true
    · rw [if_pos h]
      have h1 : poly_mul_upto n q gcm_modulus < 2 ^ (128 + n) :=
        poly_mul_upto_lt n q gcm_modulus 128 gcm_modulus_lt
      have hb : (poly_mul_upto n q gcm_modulus ^^^ (gcm_modulus <<< n)).testBit (128 + n)
          = true := by
        rw [Nat.testBit_xor, Nat.testBit_lt_two_pow h1, Nat.testBit_shiftLeft]
        have e : 128 + n - n = 128 := by omega
        rw [e, gcm_modulus_testBit_128]
        simp
      exact Nat.le_trans (Nat.pow_le_pow_right (by omega) (by omega)) (Nat.testBit_implies_ge hb)
    · rw [if_neg h]
      apply ih
      apply Nat.lt_pow_two_of_testBit
      intro i hi
      by_cases c : i = n
      · subst c
        simpa using h
      · exact Nat.testBit_lt_two_pow
          (Nat.lt_of_lt_of_le hn (Nat.pow_le_pow_right (by omega) (by omega)))

/-! ### The loop of `gf128_mul` -/

theorem foldl_range_induction {β : Type} (P : Nat → β → Prop) (f : β → Nat → β) (n : Nat)
    (s0 : β) (h0 : P 0 s0) (hs : ∀ k s, k < n → P k s → P (k + 1) (f s k)) :
    P n ((List.range n).foldl f s0) := by
  induction n with
  | zero => exact h0
  | succ n ih =>
    rw [List.range_succ, List.foldl_append, List.foldl_cons, List.foldl_nil]
    exact hs n _ (by omega) (ih (fun k s hk hp => hs k s (by omega) hp))

theorem xor_xor_xor_comm (a b c d : Nat) : (a ^^^ b) ^^^ (c ^^^ d) = (a ^^^ c) ^^^ (b ^^^ d) := by
  rw [Nat.xor_assoc, Nat.xor_assoc, xor_left_comm b c d]

/-- One pass of the inner loop of `gf128_mul`, for the coefficient of degree `k = 8 i + t`
of `x`: the blocks stay 16 bytes, `v` stays `y * x^k` and `z` stays the sum of the first
`k` terms of the product, both up to a multiple of the modulus. -/
theorem gf128_mul_bit_invariant (x : List Nat) (Y : Nat) (s : List Nat × List Nat) (i t : Nat)
    (ht : t < 8) (hk : 8 * i + t < 128)
    (h : s.1.length = 16 ∧ s.2.length = 16 ∧ (∀ j, s.1.getD j 0 < 256) ∧
      (∀ j, s.2.getD j 0 < 256) ∧
      (∃ q, q < 2 ^ (8 * i + t) ∧
        gcm_poly s.2 ^^^ (Y <<< (8 * i + t)) = poly_mul_upto (8 * i + t) q gcm_modulus) ∧
      (∃ q, q < 2 ^ (8 * i + t) ∧
        gcm_poly s.1 ^^^ poly_mul_upto (8 * i + t) (gcm_poly x) Y =
          poly_mul_upto (8 * i + t) q gcm_modulus)) :
    (gf128_mul_bit x s i (7 - t)).1.length = 16 ∧ (gf128_mul_bit x s i (7 - t)).2.length = 16 ∧
      (∀ j, (gf128_mul_bit x s i (7 - t)).1.getD j 0 < 256) ∧
      (∀ j, (gf128_mul_bit x s i (7 - t)).2.getD j 0 < 256) ∧
      (∃ q, q < 2 ^ (8 * i + t + 1) ∧
        gcm_poly (gf128_mul_bit x s i (7 - t)).2 ^^^ (Y <<< (8 * i + t + 1)) =
          poly_mul_upto (8 * i + t + 1) q gcm_modulus) ∧
      (∃ q, q < 2 ^ (8 * i + t + 1) ∧
        gcm_poly (gf128_mul_bit x s i (7 - t)).1 ^^^
            poly_mul_upto (8 * i + t + 1) (gcm_poly x) Y =
          poly_mul_upto (8 * i + t + 1) q gcm_modulus) := by
  obtain ⟨hz, hv, hzb, hvb, ⟨qv, hqv, ev⟩, ⟨qz, hqz, ez⟩⟩ := h
  generalize hkdef : 8 * i + t = k at hk hqv ev hqz ez ⊢
  have hp : 2 ^ (k + 1) = 2 ^ k + 2 ^ k := by rw [Nat.pow_succ]; omega
  have hmask : ((x.getD i 0 >>> (7 - t)) &&& 1 ≠ 0) ↔ (gcm_poly x).testBit k = true := by
    rw [mask_eq_gcm_bit x i t ht, hkdef, gcm_poly_testBit]
    simp [hk]
  unfold gf128_mul_bit
  simp only
  refine ⟨?_, gf128_shift_length s.2 hv, ?_, gf128_shift_lt s.2 hv hvb, ?_, ?_⟩
  · split
    · rw [gf128_xor_into_length]; exact hz
    · exact hz
  · split
    · exact gf128_xor_into_lt s.1 s.2 hz hzb hvb
    · exact hzb
  · rw [gcm_poly_shift s.2 hv hvb]
    have eY : Y <<< (k + 1) = 2 * (Y <<< k) := by
      rw [Nat.shiftLeft_eq, Nat.shiftLeft_eq, Nat.pow_succ]
      ring
    have e1 : poly_mul_upto (k + 1) 1 gcm_modulus = gcm_modulus := by
      have := poly_mul_upto_two_pow (k + 1) 0 gcm_modulus (by omega)
      simpa using this
    by_cases c : (gcm_poly s.2).testBit 127 = true
    · refine ⟨2 * qv ^^^ 1, Nat.xor_lt_two_pow (by omega) (by omega), ?_⟩
      rw [if_pos c, poly_mul_upto_xor, poly_mul_upto_two_mul, e1, ← ev, eY, two_mul_xor,
        Nat.xor_assoc, Nat.xor_assoc, Nat.xor_comm gcm_modulus]
    · refine ⟨2 * qv, by omega, ?_⟩
      rw [if_neg c, poly_mul_upto_two_mul, ← ev, eY, two_mul_xor, Nat.xor_zero]
  · rw [poly_mul_upto_succ k (gcm_poly x) Y]
    by_cases c : (gcm_poly x).testBit k = true
    · rw [if_pos (hmask.mpr c), if_pos c, gcm_poly_xor_into s.1 s.2 hz]
      refine ⟨qz ^^^ qv, Nat.xor_lt_two_pow (by omega) (by omega), ?_⟩
      rw [xor_xor_xor_comm, ez, ev, ← poly_mul_upto_xor,
        poly_mul_upto_le k (k + 1) _ _ (Nat.xor_lt_two_pow hqz hqv) (by omega)]
    · rw [if_neg (fun h => c (hmask.mp h)), if_neg c, ez]
      exact ⟨qz, by omega, (poly_mul_upto_le k (k + 1) _ _ hqz (by omega)).symm⟩

/-- The product that `gf128_mul` leaves, up to a multiple of the modulus. -/
theorem gf128_mul_congruent (x y : List Nat) (hy : ∀ i, i < 16 → y.getD i 0 < 256) :
    (gf128_mul x y).length = 16 ∧ (∀ j, (gf128_mul x y).getD j 0 < 256) ∧
    ∃ q, q < 2 ^ 128 ∧
      gcm_poly (gf128_mul x y) ^^^ poly_mul_upto 128 (gcm_poly x) (gcm_poly y) =
        poly_mul_upto 128 q gcm_modulus := by
  have hb : ∀ j, (block16 y 0).getD j 0 < 256 := by
    intro j
    by_cases c : j < 16
    · rw [block16_getD y j c]
      exact hy j c
    · rw [List.getD_eq_getElem?_getD, List.getElem?_eq_none (by rw [block16_length]; omega)]
      simp
  have hzero : ∀ j, (List.replicate 16 0).getD j 0 < 256 := by
    intro j
    rw [List.getD_eq_getElem?_getD, List.getElem?_replicate]
    split <;> simp
  have key := foldl_range_induction
    (fun i (s : List Nat × List Nat) =>
      s.1.length = 16 ∧ s.2.length = 16 ∧ (∀ j, s.1.getD j 0 < 256) ∧
      (∀ j, s.2.getD j 0 < 256) ∧
      (∃ q, q < 2 ^ (8 * i) ∧
        gcm_poly s.2 ^^^ (gcm_poly y <<< (8 * i)) = poly_mul_upto (8 * i) q gcm_modulus) ∧
      (∃ q, q < 2 ^ (8 * i) ∧
        gcm_poly s.1 ^^^ poly_mul_upto (8 * i) (gcm_poly x) (gcm_poly y) =
          poly_mul_upto (8 * i) q gcm_modulus))
    (fun s i => (List.range 8).foldl (fun s t => gf128_mul_bit x s i (7 - t)) s) 16
    (List.replicate 16 0, block16 y 0)
    ⟨by simp, block16_length y 0, hzero, hb,
      ⟨0, by simp, by
        show gcm_poly (block16 y 0) ^^^ (gcm_poly y <<< 0) = poly_mul_upto 0 0 gcm_modulus
        rw [gcm_poly_block16, poly_mul_upto_zero]
        simp⟩,
      ⟨0, by simp, by
        show gcm_poly (List.replicate 16 0) ^^^ poly_mul_upto 0 (gcm_poly x) (gcm_poly y) =
          poly_mul_upto 0 0 gcm_modulus
        rw [gcm_poly_zero, poly_mul_upto_zero]
        simp [poly_mul_upto]⟩⟩
    (fun i s hi hs => by
      have inner := foldl_range_induction
        (fun t (s : List Nat × List Nat) =>
          s.1.length = 16 ∧ s.2.length = 16 ∧ (∀ j, s.1.getD j 0 < 256) ∧
          (∀ j, s.2.getD j 0 < 256) ∧
          (∃ q, q < 2 ^ (8 * i + t) ∧
            gcm_poly s.2 ^^^ (gcm_poly y <<< (8 * i + t)) =
              poly_mul_upto (8 * i + t) q gcm_modulus) ∧
          (∃ q, q < 2 ^ (8 * i + t) ∧
            gcm_poly s.1 ^^^ poly_mul_upto (8 * i + t) (gcm_poly x) (gcm_poly y) =
              poly_mul_upto (8 * i + t) q gcm_modulus))
        (fun s t => gf128_mul_bit x s i (7 - t)) 8 s hs
        (fun t s ht hs => gf128_mul_bit_invariant x (gcm_poly y) s i t ht (by omega) hs)
      exact inner)
  obtain ⟨h1, _, h3, _, _, h6⟩ := key
  exact ⟨h1, h3, h6⟩

/-! ### The remainder modulo the GCM polynomial -/

theorem xor_insert_twice (r m o : Nat) : r ^^^ o = ((r ^^^ m) ^^^ o) ^^^ m := by
  apply Nat.eq_of_testBit_eq
  intro i
  simp only [Nat.testBit_xor]
  cases r.testBit i <;> cases m.testBit i <;> cases o.testBit i <;> rfl

theorem poly_mod_aux_spec (n r : Nat) (h : r < 2 ^ (128 + n)) :
    poly_mod_aux n r < 2 ^ 128 ∧
    ∃ q, q < 2 ^ n ∧ r ^^^ poly_mod_aux n r = poly_mul_upto n q gcm_modulus := by
  induction n generalizing r with
  | zero =>
    refine ⟨h, 0, by simp, ?_⟩
    show r ^^^ r = poly_mul_upto 0 0 gcm_modulus
    rw [Nat.xor_self, poly_mul_upto_zero]
  | succ n ih =>
    have hp : 2 ^ (n + 1) = 2 ^ n + 2 ^ n := by rw [Nat.pow_succ]; omega
    have hhigh : ∀ i, 128 + n < i → r.testBit i = false := fun i hi =>
      Nat.testBit_lt_two_pow (Nat.lt_of_lt_of_le h (Nat.pow_le_pow_right (by omega) (by omega)))
    show poly_mod_aux n (if r.testBit (128 + n) = true then r ^^^ (gcm_modulus <<< n) else r)
        < 2 ^ 128 ∧
      ∃ q, q < 2 ^ (n + 1) ∧
        r ^^^ poly_mod_aux n (if r.testBit (128 + n) = true then r ^^^ (gcm_modulus <<< n) else r)
          = poly_mul_upto (n + 1) q gcm_modulus
    by_cases c : r.testBit (128 + n) = true
    · rw [if_pos c]
      have h1 : r ^^^ (gcm_modulus <<< n) < 2 ^ (128 + n) := by
        apply Nat.lt_pow_two_of_testBit
        intro i hi
        rw [Nat.testBit_xor, Nat.testBit_shiftLeft]
        by_cases ci : i = 128 + n
        · subst ci
          have e : 128 + n - n = 128 := by omega
          rw [c, e, gcm_modulus_testBit_128]
          simp
        · rw [hhigh i (by omega), gcm_modulus_testBit_gt (i - n) (by omega)]
          simp
      obtain ⟨hlt, q, hq, e⟩ := ih _ h1
      refine ⟨hlt, q ^^^ 2 ^ n, Nat.xor_lt_two_pow (by omega) (by omega), ?_⟩
      rw [poly_mul_upto_xor, poly_mul_upto_two_pow (n + 1) n _ (by omega),
        poly_mul_upto_le n (n + 1) q _ hq (by omega), ← e]
      exact xor_insert_twice r (gcm_modulus <<< n) _
    · rw [if_neg c]
      have h1 : r < 2 ^ (128 + n) := by
        apply Nat.lt_pow_two_of_testBit
        intro i hi
        by_cases ci : i = 128 + n
        · subst ci
          simpa using c
        · exact hhigh i (by omega)
      obtain ⟨hlt, q, hq, e⟩ := ih _ h1
      exact ⟨hlt, q, by omega, by rw [e, poly_mul_upto_le n (n + 1) q _ hq (by omega)]⟩

/-- The remainder is below degree 128 and differs from the polynomial by a multiple of the
modulus. -/
theorem poly_mod_spec (a : Nat) :
    poly_mod a < 2 ^ 128 ∧
    ∃ n q, q < 2 ^ n ∧ a ^^^ poly_mod a = poly_mul_upto n q gcm_modulus := by
  have h : a < 2 ^ (128 + (a.size - 128)) :=
    Nat.lt_of_lt_of_le (Nat.lt_size_self a) (Nat.pow_le_pow_right (by omega) (by omega))
  obtain ⟨h1, q, hq, e⟩ := poly_mod_aux_spec (a.size - 128) a h
  exact ⟨h1, a.size - 128, q, hq, e⟩

/-- Two polynomials below degree 128 that differ by a multiple of the modulus are equal. -/
theorem poly_mod_unique (r1 r2 n q : Nat) (h1 : r1 < 2 ^ 128) (h2 : r2 < 2 ^ 128)
    (hq : q < 2 ^ n) (e : r1 ^^^ r2 = poly_mul_upto n q gcm_modulus) : r1 = r2 := by
  have hq0 : q = 0 := by
    by_contra hne
    have hge := poly_mul_upto_modulus_ge n q hne hq
    rw [← e] at hge
    have hlt := Nat.xor_lt_two_pow h1 h2
    omega
  rw [hq0, poly_mul_upto_zero] at e
  have e2 := xor_self_cancel r1 r2
  rw [e, Nat.xor_zero] at e2
  exact e2

/-- The polynomial of the block that `gf128_mul` leaves. -/
theorem gcm_poly_gf128_mul (x y : List Nat) (hy : ∀ i, i < 16 → y.getD i 0 < 256) :
    gcm_poly (gf128_mul x y) = poly_mod (poly_mul (gcm_poly x) (gcm_poly y)) := by
  obtain ⟨_, _, qz, hqz, ez⟩ := gf128_mul_congruent x y hy
  rw [poly_mul_upto_eq 128 _ _ (gcm_poly_lt x)] at ez
  obtain ⟨hlt, n, q, hq, e⟩ := poly_mod_spec (poly_mul (gcm_poly x) (gcm_poly y))
  generalize poly_mul (gcm_poly x) (gcm_poly y) = a at ez e hlt ⊢
  have hm1 : qz < 2 ^ (max 128 n) :=
    Nat.lt_of_lt_of_le hqz (Nat.pow_le_pow_right (by omega) (Nat.le_max_left _ _))
  have hm2 : q < 2 ^ (max 128 n) :=
    Nat.lt_of_lt_of_le hq (Nat.pow_le_pow_right (by omega) (Nat.le_max_right _ _))
  apply poly_mod_unique _ _ (max 128 n) (qz ^^^ q) (gcm_poly_lt _) hlt
    (Nat.xor_lt_two_pow hm1 hm2)
  rw [poly_mul_upto_xor, poly_mul_upto_le 128 (max 128 n) qz _ hqz (Nat.le_max_left _ _),
    poly_mul_upto_le n (max 128 n) q _ hq (Nat.le_max_right _ _), ← ez, ← e, Nat.xor_assoc,
    xor_self_cancel]

/-! ### From the polynomial back to the block -/

theorem gcm_block_length (p : Nat) : (gcm_block p).length = 16 := by
  simp [gcm_block]

theorem gcm_block_getD (p i : Nat) (hi : i < 16) :
    (gcm_block p).getD i 0 =
      (List.range 8).foldl
        (fun acc m => if p.testBit (8 * i + (7 - m)) then acc + 2 ^ m else acc) 0 := by
  unfold gcm_block
  rw [List.getD_eq_getElem?_getD, List.getElem?_map, List.getElem?_range hi]
  rfl

/-- A block of 16 bytes is the block of its polynomial. -/
theorem gcm_block_gcm_poly (b : List Nat) (hl : b.length = 16) (hb : ∀ j, b.getD j 0 < 256) :
    gcm_block (gcm_poly b) = b := by
  apply ext_getD
  · rw [gcm_block_length, hl]
  · intro i hi
    rw [gcm_block_length] at hi
    rw [gcm_block_getD _ i hi]
    apply Nat.eq_of_testBit_eq
    intro m
    rw [(bits_sum (fun m => (gcm_poly b).testBit (8 * i + (7 - m))) 8).2 m]
    by_cases c : m < 8
    · have e1 : (8 * i + (7 - m)) / 8 = i := by omega
      have e2 : 7 - (8 * i + (7 - m)) % 8 = m := by omega
      have e3 : 8 * i + (7 - m) < 128 := by omega
      rw [gcm_poly_testBit]
      unfold gcm_bit
      rw [e1, e2]
      simp [c, e3]
    · rw [testBit_byte_high _ m (hb i) (by omega)]
      simp [c]

/-- C23. GHASH multiplication is the GF(2^128) product: for blocks `x` and `y` of bytes,
`gf128_mul(x, y)` is the 16-byte block, in the GCM bit order in which the most significant
bit of byte 0 is the coefficient of degree 0, of the product of the polynomials of `x` and
`y` over GF(2) reduced modulo `x^128 + x^7 + x^2 + x + 1`; that remainder has degree
below 128 and differs from the product by a multiple of the modulus. -/
theorem gf128_mul_is_field_product (x y : List Nat) (hy : ∀ i, i < 16 → y.getD i 0 < 256) :
    gf128_mul x y = gcm_block (poly_mod (poly_mul (gcm_poly x) (gcm_poly y))) ∧
    gcm_poly (gf128_mul x y) = poly_mod (poly_mul (gcm_poly x) (gcm_poly y)) ∧
    gcm_poly (gf128_mul x y) < 2 ^ 128 ∧
    ∃ q, poly_mul (gcm_poly x) (gcm_poly y) =
      poly_mul q gcm_modulus ^^^ gcm_poly (gf128_mul x y) := by
  obtain ⟨hl, hb, qz, hqz, ez⟩ := gf128_mul_congruent x y hy
  refine ⟨?_, gcm_poly_gf128_mul x y hy, gcm_poly_lt _, qz, ?_⟩
  · rw [← gcm_poly_gf128_mul x y hy, gcm_block_gcm_poly _ hl hb]
  · rw [poly_mul_upto_eq 128 _ _ (gcm_poly_lt x), poly_mul_upto_eq 128 _ _ hqz] at ez
    rw [← ez, Nat.xor_comm, xor_self_cancel]

theorem gf128_mul_is_field_product_witness :
    (∀ i, i < 16 → ghash_test_c.getD i 0 < 256) ∧
    gf128_mul ghash_test_h ghash_test_c =
      gcm_block (poly_mod (poly_mul (gcm_poly ghash_test_h) (gcm_poly ghash_test_c))) :=
  ⟨by decide, (gf128_mul_is_field_product ghash_test_h ghash_test_c (by decide)).1⟩

/-! ## GCM: an encrypt call and the history of the session -/

theorem ctr_keystream_succ (c : SM4_Context) (ctr : List Nat) (n : Nat) :
    ctr_keystream c ctr (n + 1) =
      sm4_encrypt_block c ctr ++ ctr_keystream c (increment_counter ctr) n := by
  unfold ctr_keystream
  rw [List.range_succ_eq_map, List.map_cons, List.flatten_cons, List.map_map]
  rfl

theorem ctr_keystream_one (c : SM4_Context) (ctr : List Nat) :
    ctr_keystream c ctr 1 = sm4_encrypt_block c ctr := by
  rw [ctr_keystream_succ]
  simp [ctr_keystream]

/-- The bytes written by the data loop and the final partial block of `sm4_gcm_encrypt`
are the input xored with the keystream from the starting counter. -/
theorem encrypt_loop_keystream (c : SM4_Context) (H : List Nat) (fuel : Nat)
    (ctr g inp : List Nat) (hf : inp.length < 16 * (fuel + 1)) :
    (sm4_gcm_encrypt_loop c H fuel ctr g inp).out ++
        List.zipWith (fun a b => a ^^^ b) (sm4_gcm_encrypt_loop c H fuel ctr g inp).rest
          (sm4_encrypt_block c (sm4_gcm_encrypt_loop c H fuel ctr g inp).counter) =
      List.zipWith (fun a b => a ^^^ b) inp (ctr_keystream c ctr ((inp.length + 15) / 16)) := by
  have short : ∀ (ctr inp : List Nat), inp.length < 16 →
      List.zipWith (fun a b => a ^^^ b) inp (sm4_encrypt_block c ctr) =
        List.zipWith (fun a b => a ^^^ b) inp
          (ctr_keystream c ctr ((inp.length + 15) / 16)) := by
    intro ctr inp h
    cases inp with
    | nil => simp
    | cons a l =>
      have e : ((a :: l).length + 15) / 16 = 1 := by
        simp only [List.length_cons] at h ⊢
        omega
      rw [e, ctr_keystream_one]
  induction fuel generalizing ctr g inp with
  | zero =>
    simp only [sm4_gcm_encrypt_loop, List.nil_append]
    exact short ctr inp (by omega)
  | succ n ih =>
    simp only [sm4_gcm_encrypt_loop]
    by_cases h : 16 ≤ inp.length
    · rw [if_pos h]
      simp only
      have e : (inp.length + 15) / 16 = ((inp.drop 16).length + 15) / 16 + 1 := by
        rw [List.length_drop]
        omega
      rw [List.append_assoc, ih _ _ _ (by rw [List.length_drop]; omega), e, ctr_keystream_succ]
      conv_rhs => rw [← List.take_append_drop 16 inp]
      rw [List.zipWith_append _ _ _ _ _
        (by rw [List.length_take, sm4_encrypt_block_length]; omega), List.take_append_drop]
    · rw [if_neg h]
      simp only [List.nil_append]
      exact short ctr inp (by omega)

/-- The bytes written by `sm4_gcm_encrypt`: the input xored with the keystream that starts
at `inc32(J0)`. -/
theorem gcm_encrypt_keystream (ctx : SM4_GCM_Context) (P : List Nat) :
    (sm4_gcm_encrypt ctx P).2 =
      List.zipWith (fun a b => a ^^^ b) P
        (ctr_keystream ctx.cipher_ctx (increment_counter (block16 ctx.J0 0))
          ((P.length + 15) / 16)) := by
  rw [gcm_encrypt_out]
  exact encrypt_loop_keystream _ _ _ _ _ _ (by omega)

theorem gcm_encrypt_cipher_ctx (ctx : SM4_GCM_Context) (P : List Nat) :
    (sm4_gcm_encrypt ctx P).1.cipher_ctx = ctx.cipher_ctx := by
  unfold sm4_gcm_encrypt
  simp only
  split <;> rfl

theorem gcm_encrypt_J0 (ctx : SM4_GCM_Context) (P : List Nat) :
    (sm4_gcm_encrypt ctx P).1.J0 = ctx.J0 := by
  unfold sm4_gcm_encrypt
  simp only
  split <;> rfl

theorem ctr_keystream_length (c : SM4_Context) (ctr : List Nat) (n : Nat) :
    (ctr_keystream c ctr n).length = 16 * n := by
  induction n generalizing ctr with
  | zero => rfl
  | succ n ih =>
    rw [ctr_keystream_succ, List.length_append, sm4_encrypt_block_length, ih]
    omega

theorem zipWith_xor_common (p q k : List Nat) (h : p.length = q.length)
    (hk : p.length ≤ k.length) :
    List.zipWith (fun a b => a ^^^ b) (List.zipWith (fun a b => a ^^^ b) p k)
        (List.zipWith (fun a b => a ^^^ b) q k) =
      List.zipWith (fun a b => a ^^^ b) p q := by
  induction p generalizing q k with
  | nil => simp
  | cons a p ih =>
    cases q with
    | nil => simp at h
    | cons b q =>
      cases k with
      | nil => simp at hk
      | cons x k =>
        simp only [List.zipWith_cons_cons, List.length_cons] at h hk ⊢
        rw [ih q k (by omega) (by omega), xor_xor_xor_comm, Nat.xor_self, Nat.xor_zero]

/-- C35. An encrypt call does not depend on the history of the session: the bytes written
by `sm4_gcm_encrypt` for an input `P` are `P` xored with the keystream that starts at
`inc32(J0)`, so two sessions with the same cipher context and `J0` write the same bytes
whatever their `len_c`, GHASH accumulator and other fields are; and two consecutive calls
on one session with inputs `P1` and `P2` of equal length write `C1` and `C2` with
`C1 XOR C2 = P1 XOR P2`. -/
theorem sm4_gcm_encrypt_history_independent (ctx : SM4_GCM_Context) (P1 P2 : List Nat) :
    (sm4_gcm_encrypt ctx P1).2 =
      List.zipWith (fun a b => a ^^^ b) P1
        (ctr_keystream ctx.cipher_ctx (increment_counter (block16 ctx.J0 0))
          ((P1.length + 15) / 16)) ∧
    (∀ ctx2 : SM4_GCM_Context, ctx2.cipher_ctx = ctx.cipher_ctx → ctx2.J0 = ctx.J0 →
      (sm4_gcm_encrypt ctx2 P1).2 = (sm4_gcm_encrypt ctx P1).2) ∧
    (P1.length = P2.length →
      List.zipWith (fun a b => a ^^^ b) (sm4_gcm_encrypt ctx P1).2
          (sm4_gcm_encrypt (sm4_gcm_encrypt ctx P1).1 P2).2 =
        List.zipWith (fun a b => a ^^^ b) P1 P2) := by
  refine ⟨gcm_encrypt_keystream ctx P1, ?_, ?_⟩
  · intro ctx2 hc hJ
    rw [gcm_encrypt_keystream, gcm_encrypt_keystream, hc, hJ]
  · intro hlen
    rw [gcm_encrypt_keystream (sm4_gcm_encrypt ctx P1).1 P2, gcm_encrypt_keystream ctx P1,
      gcm_encrypt_cipher_ctx, gcm_encrypt_J0, ← hlen]
    apply zipWith_xor_common _ _ _ hlen
    rw [ctr_keystream_length]
    omega

/-! ## GCM: AAD given in two calls -/

theorem gcm_context_ext (a b : SM4_GCM_Context) (h1 : a.cipher_ctx = b.cipher_ctx)
    (h2 : a.H = b.H) (h3 : a.J0 = b.J0) (h4 : a.len_a = b.len_a) (h5 : a.len_c = b.len_c)
    (h6 : a.buf_len = b.buf_len) (h7 : a.final_ghash = b.final_ghash) : a = b := by
  cases a
  cases b
  simp only at h1 h2 h3 h4 h5 h6 h7
  subst h1 h2 h3 h4 h5 h6 h7
  rfl

theorem block_at_take (A : List Nat) (k i : Nat) (hi : i < k) :
    block_at (A.take (16 * k)) i = block_at A i := by
  unfold block_at
  rw [List.drop_take, List.take_take]
  congr 1
  omega

/-- The blocks of a buffer cut at a multiple of 16 bytes: those of the first part, then
those of the second. -/
theorem blocks_padded_cut (A : List Nat) (k : Nat) (hk : 16 * k ≤ A.length) :
    blocks_padded A = blocks_padded (A.take (16 * k)) ++ blocks_padded (A.drop (16 * k)) := by
  have e1 := blocks_padded_split k (A.take (16 * k)) (by rw [List.length_take]; omega)
  have e2 : (A.take (16 * k)).drop (16 * k) = [] := by
    apply List.eq_nil_of_length_eq_zero
    rw [List.length_drop, List.length_take]
    omega
  rw [e2, blocks_padded_nil, List.append_nil] at e1
  rw [e1, blocks_padded_split k A hk]
  congr 1
  apply List.map_congr_left
  intro i hi
  rw [List.mem_range] at hi
  exact (block_at_take A k i hi).symm

/-- C36. AAD may be split at a block boundary: for every session state, every AAD `A` and
every split point `s` up to `len(A)` that is a multiple of 16, `sm4_gcm_aad` on the first
`s` bytes and then on the rest leaves the session state that one `sm4_gcm_aad` call on `A`
leaves. -/
theorem sm4_gcm_aad_split (ctx : SM4_GCM_Context) (A : List Nat) (s : Nat)
    (hs : s ≤ A.length) (h16 : s % 16 = 0) :
    sm4_gcm_aad (sm4_gcm_aad ctx (A.take s)) (A.drop s) = sm4_gcm_aad ctx A := by
  obtain ⟨k, rfl⟩ : ∃ k, s = 16 * k := ⟨s / 16, by omega⟩
  apply gcm_context_ext
  · rfl
  · rfl
  · rfl
  · show ((ctx.len_a + (A.take (16 * k)).length) % 18446744073709551616 +
        (A.drop (16 * k)).length) % 18446744073709551616 =
      (ctx.len_a + A.length) % 18446744073709551616
    rw [List.length_take, List.length_drop]
    omega
  · rfl
  · rfl
  · rw [aad_final_ghash, aad_final_ghash, aad_final_ghash, blocks_padded_cut A k hs,
      ghash_fold_spec_append]
    rfl

theorem sm4_gcm_aad_split_witness :
    (16 : Nat) ≤ (List.range 40).length ∧ 16 % 16 = 0 ∧
    sm4_gcm_aad (sm4_gcm_aad (sm4_gcm_init kat2_key (List.replicate 12 0))
        ((List.range 40).take 16)) ((List.range 40).drop 16) =
      sm4_gcm_aad (sm4_gcm_init kat2_key (List.replicate 12 0)) (List.range 40) :=
  ⟨by decide, by decide,
    sm4_gcm_aad_split (sm4_gcm_init kat2_key (List.replicate 12 0)) (List.range 40) 16
      (by decide) (by decide)⟩

/-! ## GHASH multiplication is commutative -/

theorem shiftLeft_xor (b c n : Nat) : (b ^^^ c) <<< n = (b <<< n) ^^^ (c <<< n) := by
  apply Nat.eq_of_testBit_eq
  intro j
  simp only [Nat.testBit_xor, Nat.testBit_shiftLeft]
  cases decide (j ≥ n) <;> simp

theorem poly_mul_upto_xor_right (n a b c : Nat) :
    poly_mul_upto n a (b ^^^ c) = poly_mul_upto n a b ^^^ poly_mul_upto n a c := by
  induction n with
  | zero => simp [poly_mul_upto]
  | succ n ih =>
    rw [poly_mul_upto_succ, poly_mul_upto_succ, poly_mul_upto_succ, ih, shiftLeft_xor]
    split
    · exact xor_xor_xor_comm _ _ _ _
    · rfl

theorem poly_mul_upto_two_mul_right (n a b : Nat) :
    poly_mul_upto n a (2 * b) = 2 * poly_mul_upto n a b := by
  induction n with
  | zero => simp [poly_mul_upto]
  | succ n ih =>
    rw [poly_mul_upto_succ, poly_mul_upto_succ, ih]
    have e : (2 * b) <<< n = 2 * (b <<< n) := by
      rw [Nat.shiftLeft_eq, Nat.shiftLeft_eq]
      ring
    split
    · rw [e, two_mul_xor]
    · rfl

theorem poly_mul_upto_zero_right (n a : Nat) : poly_mul_upto n a 0 = 0 := by
  induction n with
  | zero => rfl
  | succ n ih =>
    rw [poly_mul_upto_succ, ih]
    simp

theorem poly_mul_upto_one_right (n a : Nat) : poly_mul_upto n a 1 = a % 2 ^ n := by
  induction n with
  | zero => simp [poly_mul_upto, Nat.mod_one]
  | succ n ih =>
    rw [poly_mul_upto_succ, ih]
    apply Nat.eq_of_testBit_eq
    intro j
    by_cases h : a.testBit n = true
    · rw [if_pos h, Nat.testBit_xor, Nat.testBit_mod_two_pow, Nat.testBit_mod_two_pow,
        Nat.one_shiftLeft, Nat.testBit_two_pow]
      by_cases c : j = n
      · subst c
        simp [h]
      · by_cases c2 : j < n
        · have c3 : j < n + 1 := by omega
          have c4 : ¬ n = j := by omega
          simp [c2, c3, c4]
        · have c3 : ¬ j < n + 1 := by omega
          have c4 : ¬ n = j := by omega
          simp [c2, c3, c4]
    · rw [if_neg h, Nat.testBit_mod_two_pow, Nat.testBit_mod_two_pow]
      by_cases c : j = n
      · subst c
        simp at h
        simp [h]
      · by_cases c2 : j < n
        · have c3 : j < n + 1 := by omega
          simp [c2, c3]
        · have c3 : ¬ j < n + 1 := by omega
          simp [c2, c3]

theorem two_mul_div_xor_mod (b : Nat) : (2 * (b / 2)) ^^^ (b % 2) = b := by
  apply Nat.eq_of_testBit_eq
  intro j
  rw [Nat.testBit_xor, testBit_two_mul]
  cases j with
  | zero =>
    rcases Nat.mod_two_eq_zero_or_one b with h | h <;> simp [h]
  | succ j =>
    have e : (b % 2).testBit (j + 1) = false :=
      Nat.testBit_lt_two_pow (Nat.lt_of_lt_of_le (Nat.mod_lt b (by omega))
        (by
          have : 2 ^ 1 ≤ 2 ^ (j + 1) := Nat.pow_le_pow_right (by omega) (by omega)
          simpa using this))
    rw [e, Nat.testBit_succ]
    simp

/-- The product of polynomials over GF(2) is commutative. -/
theorem poly_mul_upto_comm (m n a b : Nat) (ha : a < 2 ^ n) (hb : b < 2 ^ m) :
    poly_mul_upto n a b = poly_mul_upto m b a := by
  induction m generalizing b with
  | zero =>
    have e : b = 0 := by simpa using hb
    rw [e, poly_mul_upto_zero_right, poly_mul_upto_zero]
  | succ m ih =>
    have hp : 2 ^ (m + 1) = 2 ^ m + 2 ^ m := by rw [Nat.pow_succ]; omega
    have hb2 : b / 2 < 2 ^ m := by omega
    conv_lhs => rw [← two_mul_div_xor_mod b]
    conv_rhs => rw [← two_mul_div_xor_mod b]
    rw [poly_mul_upto_xor_right, poly_mul_upto_two_mul_right, poly_mul_upto_xor,
      poly_mul_upto_two_mul, ih (b / 2) hb2]
    congr 1
    rcases Nat.mod_two_eq_zero_or_one b with h | h
    · rw [h, poly_mul_upto_zero_right, poly_mul_upto_zero]
    · rw [h, poly_mul_upto_one_right, Nat.mod_eq_of_lt ha]
      have := poly_mul_upto_two_pow (m + 1) 0 a (by omega)
      simpa using this.symm

theorem poly_mul_comm (a b : Nat) : poly_mul a b = poly_mul b a := by
  rw [← poly_mul_upto_eq a.size a b (Nat.lt_size_self a),
    ← poly_mul_upto_eq b.size b a (Nat.lt_size_self b)]
  exact poly_mul_upto_comm b.size a.size a b (Nat.lt_size_self a) (Nat.lt_size_self b)

/-- C37. GHASH multiplication is commutative: for blocks `x` and `y` of bytes,
`gf128_mul(x, y) = gf128_mul(y, x)`. -/
theorem gf128_mul_comm (x y : List Nat) (hx : ∀ i, i < 16 → x.getD i 0 < 256)
    (hy : ∀ i, i < 16 → y.getD i 0 < 256) : gf128_mul x y = gf128_mul y x := by
  obtain ⟨l1, b1, _⟩ := gf128_mul_congruent x y hy
  obtain ⟨l2, b2, _⟩ := gf128_mul_congruent y x hx
  rw [← gcm_block_gcm_poly _ l1 b1, ← gcm_block_gcm_poly _ l2 b2, gcm_poly_gf128_mul x y hy,
    gcm_poly_gf128_mul y x hx, poly_mul_comm]

theorem gf128_mul_comm_witness :
    (∀ i, i < 16 → ghash_test_h.getD i 0 < 256) ∧ (∀ i, i < 16 → ghash_test_c.getD i 0 < 256) ∧
    gf128_mul ghash_test_h ghash_test_c = gf128_mul ghash_test_c ghash_test_h :=
  ⟨by decide, by decide, gf128_mul_comm ghash_test_h ghash_test_c (by decide) (by decide)⟩

/-! ## The selector, the substitution table and the table transform -/

/-- C38. The selector names are not self-consistent: with `has_vaes` and `has_avx2` set and
the other flags clear `sm4_get_best_implementation` returns "vaes", and
`sm4_force_implementation` returns -1 on "vaes"; the other three names it can return are
accepted. -/
theorem sm4_best_backend_not_accepted :
    sm4_get_best_implementation none ⟨false, false, false, true, false, false, true, false⟩ =
      "vaes" ∧
    (sm4_force_implementation none (some (sm4_get_best_implementation none
      ⟨false, false, false, true, false, false, true, false⟩))).1 = -1 ∧
    (∀ (forced_impl : Option String) (f : SM4_CPU_Features),
      sm4_get_best_implementation forced_impl f ≠ "vaes" →
        (sm4_force_implementation forced_impl
          (some (sm4_get_best_implementation forced_impl f))).1 = 0) := by
  refine ⟨by decide, by decide, ?_⟩
  intro forced_impl f
  unfold sm4_get_best_implementation
  split_ifs <;> intro h <;> first | (exact absurd rfl h) | simp [sm4_force_implementation]

set_option maxRecDepth 1000000 in
theorem SM4_SBOX_inverse_map :
    SM4_SBOX.map (fun v => SM4_SBOX_inverse.getD v 0) = List.range 256 := by
  decide!

theorem SM4_SBOX_length : SM4_SBOX.length = 256 := by
  have h := congrArg List.length SM4_SBOX_inverse_map
  rw [List.length_map, List.length_range] at h
  exact h

/-- A list of 256 distinct numbers below 256 holds every number below 256. -/
theorem mem_of_nodup_of_lt (l : List Nat) (hl : l.length = 256) (hn : l.Nodup)
    (hb : ∀ x ∈ l, x < 256) (v : Nat) (hv : v < 256) : v ∈ l := by
  have hsub : l.toFinset ⊆ Finset.range 256 := by
    intro x hx
    rw [List.mem_toFinset] at hx
    exact Finset.mem_range.mpr (hb x hx)
  have hcard : (Finset.range 256).card ≤ l.toFinset.card := by
    rw [List.toFinset_card_of_nodup hn, hl, Finset.card_range]
  have heq := Finset.eq_of_subset_of_card_le hsub hcard
  have hm : v ∈ l.toFinset := by
    rw [heq]
    exact Finset.mem_range.mpr hv
  exact List.mem_toFinset.mp hm

/-- C39. The substitution table is a permutation of the byte values: `SM4_SBOX` has 256
entries, all below 256, no value occurs twice, and every byte value occurs. -/
theorem SM4_SBOX_permutation :
    SM4_SBOX.length = 256 ∧ (∀ i, SM4_SBOX.getD i 0 < 256) ∧ SM4_SBOX.Nodup ∧
    (∀ v, v < 256 → v ∈ SM4_SBOX) ∧
    (∀ i j, i < 256 → j < 256 → SM4_SBOX.getD i 0 = SM4_SBOX.getD j 0 → i = j) := by
  have hl := SM4_SBOX_length
  have hn : SM4_SBOX.Nodup := by
    apply List.Nodup.of_map (fun v => SM4_SBOX_inverse.getD v 0)
    rw [SM4_SBOX_inverse_map]
    exact List.nodup_range 256
  have hb : ∀ x ∈ SM4_SBOX, x < 256 := by
    intro x hx
    obtain ⟨i, hi, rfl⟩ := List.getElem_of_mem hx
    have h := SM4_SBOX_lt i
    rw [List.getD_eq_getElem?_getD, List.getElem?_eq_getElem hi] at h
    exact h
  refine ⟨hl, SM4_SBOX_lt, hn, mem_of_nodup_of_lt SM4_SBOX hl hn hb, ?_⟩
  intro i j hi hj h
  rw [List.getD_eq_getElem?_getD, List.getD_eq_getElem?_getD,
    List.getElem?_eq_getElem (by rw [hl]; exact hi),
    List.getElem?_eq_getElem (by rw [hl]; exact hj)] at h
  simp only [Option.getD_some] at h
  exact (List.Nodup.getElem_inj_iff hn).mp h

set_option maxRecDepth 100000 in
/-- C34. The table transform against the round transform `T` on the word `0x01234567`:
`sm4_t_transform_table` returns `0x60a68e9e`, and `L(b)` for `b` the word with `SM4_SBOX`
applied to each byte in place is `0x6ef180c9`; the entries of `T_TABLE` are
`L(SM4_SBOX[i] << 24)`. -/
theorem table_transform_differs_from_round_transform :
    sm4_t_transform_table 0x01234567 = 0x60a68e9e ∧
    round_transform_spec 0x01234567 = 0x6ef180c9 ∧
    sm4_t_transform_table 0x01234567 ≠ round_transform_spec 0x01234567 ∧
    (∀ i, i < 256 →
      T_TABLE.getD i 0 = sm4_l_transform ((SM4_SBOX.getD i 0 <<< 24) % 4294967296)) := by
  have e1 : sm4_t_transform_table 0x01234567 = 0x60a68e9e := by rfl
  have e2 : round_transform_spec 0x01234567 = 0x6ef180c9 := by rfl
  refine ⟨e1, e2, by rw [e1, e2]; decide, ?_⟩
  intro i hi
  have hl : i < SM4_SBOX.length := by rw [SM4_SBOX_length]; exact hi
  unfold T_TABLE
  rw [List.getD_eq_getElem?_getD, List.getElem?_map, List.getD_eq_getElem?_getD,
    List.getElem?_eq_getElem hl]
  rfl

end SM4

namespace SM3

/-! ## SM3: known-answer vectors and the optimised implementation -/

set_option maxRecDepth 100000 in
/-- C29. The known-answer vectors on the code: `sm3_hash_string` of "abc" is
`be00aed243af8008a1ea13610154d30ecd7a891d4c6fcea226fa4b32a2652fac`, not the expected
`66c7f0f462eeedd9d1f2d46bdc10e4e24167c4875cf2f7a2297da02b8f4ba8e0`, and of "abcd" repeated
16 times it is `5ad2db9da2f7939ef7124d668fd0163da23ee334fb0b5f605202276fac91aa8b`, not the expected
`debe9ff92275b8a138604889c18e5a4d6fdb70e5387e5765293dcba39c0c5732`. The table `SM3_T` is
zero from index 56 on. -/
theorem sm3_kat_code_output :
    sm3_hash_string kat_abc =
      [0xbe, 0x00, 0xae, 0xd2, 0x43, 0xaf, 0x80, 0x08, 0xa1, 0xea, 0x13, 0x61, 0x01, 0x54, 0xd3, 0x0e,
        0xcd, 0x7a, 0x89, 0x1d, 0x4c, 0x6f, 0xce, 0xa2, 0x26, 0xfa, 0x4b, 0x32, 0xa2, 0x65, 0x2f, 0xac] ∧
    sm3_hash_string kat_abc ≠ kat_abc_digest ∧
    sm3_hash_string kat_abcd16 =
      [0x5a, 0xd2, 0xdb, 0x9d, 0xa2, 0xf7, 0x93, 0x9e, 0xf7, 0x12, 0x4d, 0x66, 0x8f, 0xd0, 0x16, 0x3d,
        0xa2, 0x3e, 0xe3, 0x34, 0xfb, 0x0b, 0x5f, 0x60, 0x52, 0x02, 0x27, 0x6f, 0xac, 0x91, 0xaa, 0x8b] ∧
    sm3_hash_string kat_abcd16 ≠ kat_abcd16_digest ∧
    (∀ j, 56 ≤ j → SM3_T.getD j 0 = 0) := by
  have e1 : sm3_hash_string kat_abc =
      [0xbe, 0x00, 0xae, 0xd2, 0x43, 0xaf, 0x80, 0x08, 0xa1, 0xea, 0x13, 0x61, 0x01, 0x54, 0xd3, 0x0e,
        0xcd, 0x7a, 0x89, 0x1d, 0x4c, 0x6f, 0xce, 0xa2, 0x26, 0xfa, 0x4b, 0x32, 0xa2, 0x65, 0x2f, 0xac] := by rfl
  have e2 : sm3_hash_string kat_abcd16 =
      [0x5a, 0xd2, 0xdb, 0x9d, 0xa2, 0xf7, 0x93, 0x9e, 0xf7, 0x12, 0x4d, 0x66, 0x8f, 0xd0, 0x16, 0x3d,
        0xa2, 0x3e, 0xe3, 0x34, 0xfb, 0x0b, 0x5f, 0x60, 0x52, 0x02, 0x27, 0x6f, 0xac, 0x91, 0xaa, 0x8b] := by rfl
  refine ⟨e1, ?_, e2, ?_, ?_⟩
  · rw [e1]
    decide
  · rw [e2]
    decide
  · intro j hj
    obtain ⟨k, rfl⟩ : ∃ k, j = 56 + k := ⟨j - 56, by omega⟩
    rw [List.getD_eq_getElem?_getD]
    match k with
    | 0 | 1 | 2 | 3 | 4 | 5 | 6 | 7 => rfl
    | k + 8 =>
      rw [List.getElem?_eq_none (by simp only [SM3_T, List.length_cons, List.length_nil]; omega)]
      rfl

set_option maxRecDepth 100000 in
/-- C30. The optimised SM3 against the basic one: on "abc" `sm3_hash_optimized` writes
`66c7f0f462eeedd9d1f2d46bdc10e4e24167c4875cf2f7a2297da02b8f4ba8e0` and `sm3_hash` writes
`be00aed243af8008a1ea13610154d30ecd7a891d4c6fcea226fa4b32a2652fac`; on the message of
`test_optimized_sm3` they write
`3e5bcdefe8e44c081b8a9011767e191ae9ccb69186e4fff627ccdd919eefc47a` and
`9bb7f51d7b39d10cac23b7a27e18a9e997b8423a97d296c684471bc809624cb1`. The table
`SM3_T_OPTIMIZED` holds `0x7A879D8A` from index 56 on, where `SM3_T` holds zero. -/
theorem sm3_optimized_differs_from_basic :
    sm3_hash_optimized kat_abc = kat_abc_digest ∧
    sm3_hash kat_abc =
      [0xbe, 0x00, 0xae, 0xd2, 0x43, 0xaf, 0x80, 0x08, 0xa1, 0xea, 0x13, 0x61, 0x01, 0x54, 0xd3, 0x0e,
        0xcd, 0x7a, 0x89, 0x1d, 0x4c, 0x6f, 0xce, 0xa2, 0x26, 0xfa, 0x4b, 0x32, 0xa2, 0x65, 0x2f, 0xac] ∧
    sm3_hash_optimized kat_abc ≠ sm3_hash kat_abc ∧
    sm3_hash_optimized test_optimized_message =
      [0x3e, 0x5b, 0xcd, 0xef, 0xe8, 0xe4, 0x4c, 0x08, 0x1b, 0x8a, 0x90, 0x11, 0x76, 0x7e, 0x19, 0x1a,
        0xe9, 0xcc, 0xb6, 0x91, 0x86, 0xe4, 0xff, 0xf6, 0x27, 0xcc, 0xdd, 0x91, 0x9e, 0xef, 0xc4, 0x7a] ∧
    sm3_hash_string test_optimized_message =
      [0x9b, 0xb7, 0xf5, 0x1d, 0x7b, 0x39, 0xd1, 0x0c, 0xac, 0x23, 0xb7, 0xa2, 0x7e, 0x18, 0xa9, 0xe9,
        0x97, 0xb8, 0x42, 0x3a, 0x97, 0xd2, 0x96, 0xc6, 0x84, 0x47, 0x1b, 0xc8, 0x09, 0x62, 0x4c, 0xb1] ∧
    sm3_hash_optimized test_optimized_message ≠ sm3_hash_string test_optimized_message ∧
    SM3_T_OPTIMIZED.getD 56 0 = 0x7A879D8A ∧ SM3_T.getD 56 0 = 0 := by
  have e1 : sm3_hash_optimized kat_abc = kat_abc_digest := by rfl
  have e2 : sm3_hash kat_abc =
      [0xbe, 0x00, 0xae, 0xd2, 0x43, 0xaf, 0x80, 0x08, 0xa1, 0xea, 0x13, 0x61, 0x01, 0x54, 0xd3, 0x0e,
        0xcd, 0x7a, 0x89, 0x1d, 0x4c, 0x6f, 0xce, 0xa2, 0x26, 0xfa, 0x4b, 0x32, 0xa2, 0x65, 0x2f, 0xac] := by rfl
  have e3 : sm3_hash_optimized test_optimized_message =
      [0x3e, 0x5b, 0xcd, 0xef, 0xe8, 0xe4, 0x4c, 0x08, 0x1b, 0x8a, 0x90, 0x11, 0x76, 0x7e, 0x19, 0x1a,
        0xe9, 0xcc, 0xb6, 0x91, 0x86, 0xe4, 0xff, 0xf6, 0x27, 0xcc, 0xdd, 0x91, 0x9e, 0xef, 0xc4, 0x7a] := by rfl
  have e4 : sm3_hash_string test_optimized_message =
      [0x9b, 0xb7, 0xf5, 0x1d, 0x7b, 0x39, 0xd1, 0x0c, 0xac, 0x23, 0xb7, 0xa2, 0x7e, 0x18, 0xa9, 0xe9,
        0x97, 0xb8, 0x42, 0x3a, 0x97, 0xd2, 0x96, 0xc6, 0x84, 0x47, 0x1b, 0xc8, 0x09, 0x62, 0x4c, 0xb1] := by rfl
  refine ⟨e1, e2, ?_, e3, e4, ?_, by rfl, by rfl⟩
  · rw [e1, e2]
    decide
  · rw [e3, e4]
    decide

/-! ## SM3: the context between calls -/

theorem foldl_congr_mem {α β : Type} (f g : β → α → β) (l : List α) (b : β)
    (h : ∀ a ∈ l, ∀ b, f b a = g b a) : l.foldl f b = l.foldl g b := by
  induction l generalizing b with
  | nil => rfl
  | cons a l ih =>
    rw [List.foldl_cons, List.foldl_cons, h a (List.mem_cons_self a l) b]
    exact ih _ (fun x hx => h x (List.mem_cons_of_mem a hx))

/-- The compression function reads the first 64 bytes of its block only. -/
theorem sm3_compress_take (state block : List Nat) :
    sm3_compress state (block.take 64) = sm3_compress state block := by
  have e : (List.range 16).foldl
      (fun W j => W.set j (((block.take 64).getD (j * 4) 0 <<< 24) |||
        ((block.take 64).getD (j * 4 + 1) 0 <<< 16) |||
        ((block.take 64).getD (j * 4 + 2) 0 <<< 8) ||| (block.take 64).getD (j * 4 + 3) 0))
      (List.replicate 68 0) =
      (List.range 16).foldl
      (fun W j => W.set j ((block.getD (j * 4) 0 <<< 24) ||| (block.getD (j * 4 + 1) 0 <<< 16) |||
        (block.getD (j * 4 + 2) 0 <<< 8) ||| block.getD (j * 4 + 3) 0))
      (List.replicate 68 0) := by
    apply foldl_congr_mem
    intro j hj W
    rw [List.mem_range] at hj
    rw [SM4.getD_take block 64 _ (by omega), SM4.getD_take block 64 _ (by omega),
      SM4.getD_take block 64 _ (by omega), SM4.getD_take block 64 _ (by omega)]
  unfold sm3_compress
  rw [e]

theorem sm3_compress_congr (state b1 b2 : List Nat) (h : b1.take 64 = b2.take 64) :
    sm3_compress state b1 = sm3_compress state b2 := by
  rw [← sm3_compress_take state b1, ← sm3_compress_take state b2, h]

theorem update_loop_short (compress : List Nat → List Nat → List Nat) (n : Nat)
    (s d : List Nat) (h : d.length < 64) : sm3_update_loop compress n s d = (s, d) := by
  cases n with
  | zero => rfl
  | succ n =>
    simp only [sm3_update_loop]
    rw [if_neg (by omega)]

theorem update_loop_succ (compress : List Nat → List Nat → List Nat) (n : Nat)
    (s d : List Nat) (h : 64 ≤ d.length) :
    sm3_update_loop compress (n + 1) s d = sm3_update_loop compress n (compress s d) (d.drop 64) := by
  simp only [sm3_update_loop]
  rw [if_pos h]

/-- The loop of `sm3_update` leaves fewer than 64 bytes. -/
theorem update_loop_rest_lt (compress : List Nat → List Nat → List Nat) (n : Nat)
    (s d : List Nat) (h : d.length < 64 * (n + 1)) :
    (sm3_update_loop compress n s d).2.length < 64 := by
  induction n generalizing s d with
  | zero =>
    rw [update_loop_short compress 0 s d (by omega)]
    show d.length < 64
    omega
  | succ n ih =>
    by_cases c : 64 ≤ d.length
    · rw [update_loop_succ compress n s d c]
      exact ih _ _ (by rw [List.length_drop]; omega)
    · rw [update_loop_short compress _ s d (by omega)]
      show d.length < 64
      omega

/-- The loop of `sm3_update` over data given in two parts: the loop over the first part,
then the loop over what it leaves followed by the second part. -/
theorem update_loop_append (compress : List Nat → List Nat → List Nat)
    (hc : ∀ s b1 b2, b1.take 64 = b2.take 64 → compress s b1 = compress s b2)
    (n : Nat) (s d b : List Nat) (hn : d.length / 64 = n) :
    sm3_update_loop compress ((d ++ b).length / 64) s (d ++ b) =
      sm3_update_loop compress
        (((sm3_update_loop compress n s d).2 ++ b).length / 64)
        (sm3_update_loop compress n s d).1 ((sm3_update_loop compress n s d).2 ++ b) := by
  induction n generalizing s d with
  | zero =>
    rw [update_loop_short compress 0 s d (by omega)]
  | succ n ih =>
    have hd : 64 ≤ d.length := by omega
    have e1 : (d ++ b).length / 64 = ((d.drop 64 ++ b).length / 64) + 1 := by
      simp only [List.length_append, List.length_drop]
      omega
    have e2 : (d ++ b).drop 64 = d.drop 64 ++ b := by
      rw [List.drop_append_of_le_length hd]
    have e3 : compress s (d ++ b) = compress s d := by
      apply hc
      rw [List.take_append_of_le_length hd]
    rw [update_loop_succ compress n s d hd, e1,
      update_loop_succ compress _ s (d ++ b) (by rw [List.length_append]; omega), e2, e3]
    exact ih _ _ (by rw [List.length_drop]; omega)

theorem take_set_succ (B : List Nat) (k v : Nat) (h : k < B.length) :
    (B.set k v).take (k + 1) = B.take k ++ [v] := by
  have hl : (B.take k).length = k := by rw [List.length_take]; omega
  rw [List.set_eq_take_cons_drop v h, List.take_append_eq_append_take, hl,
    List.take_of_length_le (by omega)]
  simp

/-- A loop `for i < k: b[off + i] = f(i)` rewrites the `k` bytes from `off` on. -/
theorem foldl_set_offset (f : Nat → Nat) (l : List Nat) (off k : Nat) (h : off + k ≤ l.length) :
    (List.range k).foldl (fun b i => b.set (off + i) (f i)) l =
      l.take off ++ (List.range k).map f ++ l.drop (off + k) := by
  induction k with
  | zero => simp
  | succ k ih =>
    rw [List.range_succ, List.foldl_append, List.foldl_cons, List.foldl_nil, ih (by omega)]
    have hl : (l.take off ++ (List.range k).map f).length = off + k := by
      rw [List.length_append, List.length_take, List.length_map, List.length_range]
      omega
    have hd : l.drop (off + k) = l[off + k] :: l.drop (off + k + 1) :=
      List.drop_eq_getElem_cons (by omega)
    rw [List.set_append_right _ _ (by rw [hl]), hl, Nat.sub_self, hd, List.set_cons_zero,
      List.map_append, List.map_cons, List.map_nil]
    simp only [List.append_assoc, List.cons_append, List.nil_append]
    rfl

theorem bit_count_bytes_length (count : Nat) : (bit_count_bytes count).length = 8 := by
  simp [bit_count_bytes]

/-- The digest that `sm3_final` writes is a function of the state, the byte count and the
bytes pending in the buffer. -/
theorem final_eq_spec (compress : List Nat → List Nat → List Nat) (ctx : sm3_ctx_t)
    (hB : ctx.buffer.length = 64) (hbl : ctx.buffer_len < 64) :
    (sm3_final_with compress ctx).2 =
      final_spec compress ctx.state ctx.count (ctx.buffer.take ctx.buffer_len) := by
  have hp : (ctx.buffer.take ctx.buffer_len).length = ctx.buffer_len := by
    rw [List.length_take]
    omega
  have hset : (ctx.buffer.set ctx.buffer_len 0x80).take (ctx.buffer_len + 1) =
      ctx.buffer.take ctx.buffer_len ++ [0x80] :=
    take_set_succ _ _ _ (by omega)
  unfold sm3_final_with final_spec digest_of_state
  simp only
  rw [hp, hset]
  by_cases c : ctx.buffer_len + 1 > 64 - 8
  · rw [if_pos c, if_pos (by omega)]
    simp only [List.take_zero, List.nil_append]
    have e63 : 64 - (ctx.buffer_len + 1) = 63 - ctx.buffer_len := by omega
    rw [e63]
    have hb1 : (ctx.buffer.take ctx.buffer_len ++ [0x80] ++
        List.replicate (63 - ctx.buffer_len) 0).length = 64 := by
      rw [List.length_append, List.length_append, hp, List.length_replicate]
      simp only [List.length_cons, List.length_nil]
      omega
    generalize ctx.buffer.take ctx.buffer_len ++ [0x80] ++
      List.replicate (63 - ctx.buffer_len) 0 = b1 at hb1 ⊢
    have key := foldl_set_offset
      (fun i => ((ctx.count * 8 % 18446744073709551616) >>> (56 - i * 8)) % 256)
      (List.replicate (64 - 0 - 8) 0 ++ b1.drop (64 - 8)) (64 - 8) 8
      (by rw [List.length_append, List.length_replicate, List.length_drop, hb1])
    have e1 : (List.replicate (64 - 0 - 8) 0 ++ b1.drop (64 - 8)).take (64 - 8) =
        List.replicate 56 (0 : Nat) := by
      rw [List.take_append_of_le_length (by rw [List.length_replicate])]
      exact List.take_of_length_le (by rw [List.length_replicate])
    have e2 : (List.replicate (64 - 0 - 8) 0 ++ b1.drop (64 - 8)).drop (64 - 8 + 8) = [] := by
      apply List.eq_nil_of_length_eq_zero
      rw [List.length_drop, List.length_append, List.length_replicate, List.length_drop, hb1]
    rw [e1, e2, List.append_nil] at key
    simp only at key
    rw [key]
    rfl
  · rw [if_neg c, if_neg (by omega)]
    simp only
    rw [hset]
    have hl1 : (ctx.buffer.take ctx.buffer_len ++ [0x80] ++
        List.replicate (64 - (ctx.buffer_len + 1) - 8) 0).length = 64 - 8 := by
      rw [List.length_append, List.length_append, hp, List.length_replicate]
      simp only [List.length_cons, List.length_nil]
      omega
    have hl2 : ((ctx.buffer.set ctx.buffer_len 0x80).drop (64 - 8)).length = 8 := by
      rw [List.length_drop, List.length_set, hB]
    have key := foldl_set_offset
      (fun i => ((ctx.count * 8 % 18446744073709551616) >>> (56 - i * 8)) % 256)
      (ctx.buffer.take ctx.buffer_len ++ [0x80] ++
        List.replicate (64 - (ctx.buffer_len + 1) - 8) 0 ++
        (ctx.buffer.set ctx.buffer_len 0x80).drop (64 - 8)) (64 - 8) 8
      (by rw [List.length_append, hl1, hl2])
    have e1 : (ctx.buffer.take ctx.buffer_len ++ [0x80] ++
        List.replicate (64 - (ctx.buffer_len + 1) - 8) 0 ++
        (ctx.buffer.set ctx.buffer_len 0x80).drop (64 - 8)).take (64 - 8) =
        ctx.buffer.take ctx.buffer_len ++ [0x80] ++
          List.replicate (55 - ctx.buffer_len) 0 := by
      rw [List.take_append_of_le_length (by rw [hl1]), List.take_of_length_le (by rw [hl1])]
      congr 2
      omega
    have e2 : (ctx.buffer.take ctx.buffer_len ++ [0x80] ++
        List.replicate (64 - (ctx.buffer_len + 1) - 8) 0 ++
        (ctx.buffer.set ctx.buffer_len 0x80).drop (64 - 8)).drop (64 - 8 + 8) = [] := by
      apply List.eq_nil_of_length_eq_zero
      rw [List.length_drop, List.length_append, hl1, hl2]
    rw [e1, e2, List.append_nil] at key
    simp only at key
    rw [key]
    rfl

/-- The context that `sm3_update` leaves after its loop, when the buffer was empty before
the loop: `r` is the pair of the state and the bytes that the loop leaves. -/
theorem update_tail (cnt : Nat) (buf : List Nat) (r : List Nat × List Nat) :
    (if 0 < r.2.length then
        ({ state := r.1, count := cnt, buffer := r.2 ++ buf.drop r.2.length,
           buffer_len := r.2.length } : sm3_ctx_t)
      else { state := r.1, count := cnt, buffer := buf, buffer_len := 0 }) =
      { state := r.1, count := cnt, buffer := r.2 ++ buf.drop r.2.length,
        buffer_len := r.2.length } := by
  by_cases h : 0 < r.2.length
  · rw [if_pos h]
  · rw [if_neg h]
    have e : r.2 = [] := List.eq_nil_of_length_eq_zero (by omega)
    rw [e]
    rfl

theorem update_tail_view (cnt : Nat) (buf : List Nat) (r : List Nat × List Nat)
    (hbuf : buf.length = 64) (hr : r.2.length < 64) :
    ({ state := r.1, count := cnt, buffer := r.2 ++ buf.drop r.2.length,
       buffer_len := r.2.length } : sm3_ctx_t).buffer.take r.2.length = r.2 ∧
    ({ state := r.1, count := cnt, buffer := r.2 ++ buf.drop r.2.length,
       buffer_len := r.2.length } : sm3_ctx_t).buffer.length = 64 := by
  refine ⟨?_, ?_⟩
  · show (r.2 ++ buf.drop r.2.length).take r.2.length = r.2
    rw [List.take_append_of_le_length (Nat.le_refl _), List.take_length]
  · show (r.2 ++ buf.drop r.2.length).length = 64
    rw [List.length_append, List.length_drop, hbuf]
    omega

/-- The context that `sm3_update` leaves: the loop has run over the pending bytes followed
by the data, and the bytes it leaves are pending. -/
theorem update_view (compress : List Nat → List Nat → List Nat)
    (hc : ∀ s b1 b2, b1.take 64 = b2.take 64 → compress s b1 = compress s b2)
    (ctx : sm3_ctx_t) (data : List Nat) (hB : ctx.buffer.length = 64)
    (hbl : ctx.buffer_len < 64) :
    (sm3_update_with compress ctx data).state =
      (sm3_update_loop compress ((ctx.buffer.take ctx.buffer_len ++ data).length / 64)
        ctx.state (ctx.buffer.take ctx.buffer_len ++ data)).1 ∧
    (sm3_update_with compress ctx data).count =
      (ctx.count + data.length) % 18446744073709551616 ∧
    (sm3_update_with compress ctx data).buffer.take
        (sm3_update_with compress ctx data).buffer_len =
      (sm3_update_loop compress ((ctx.buffer.take ctx.buffer_len ++ data).length / 64)
        ctx.state (ctx.buffer.take ctx.buffer_len ++ data)).2 ∧
    (sm3_update_with compress ctx data).buffer.length = 64 ∧
    (sm3_update_with compress ctx data).buffer_len < 64 := by
  have hp : (ctx.buffer.take ctx.buffer_len).length = ctx.buffer_len := by
    rw [List.length_take]
    omega
  unfold sm3_update_with
  simp only
  by_cases h0 : 0 < ctx.buffer_len
  · by_cases hA : 64 - ctx.buffer_len > data.length
    · have hne : ¬ (ctx.buffer_len + data.length = 64) := by omega
      have hd : (ctx.buffer.take ctx.buffer_len ++ data).length < 64 := by
        rw [List.length_append, hp]
        omega
      simp only [if_pos h0, if_pos hA, if_neg hne, List.drop_length, List.length_nil,
        Nat.zero_div, sm3_update_loop, Nat.lt_irrefl, if_false, List.take_length]
      rw [update_loop_short compress _ _ _ hd]
      refine ⟨?_, ?_, ?_, ?_, by omega⟩
      · trivial
      · trivial
      · rw [List.take_append_of_le_length (by rw [List.length_append, hp]),
          List.take_of_length_le (by rw [List.length_append, hp])]
      · rw [List.length_append, List.length_append, hp, List.length_drop, hB]
        omega
    · have he : ctx.buffer_len + (64 - ctx.buffer_len) = 64 := by omega
      have hdrop : ctx.buffer.drop 64 = [] :=
        List.eq_nil_of_length_eq_zero (by rw [List.length_drop, hB])
      have hd : 64 ≤ (ctx.buffer.take ctx.buffer_len ++ data).length := by
        rw [List.length_append, hp]
        omega
      have hrest : (ctx.buffer.take ctx.buffer_len ++ data).drop 64 =
          data.drop (64 - ctx.buffer_len) := by
        rw [List.drop_append_eq_append_drop, hp,
          List.drop_of_length_le (by rw [hp]; omega), List.nil_append]
      have hfuel : (ctx.buffer.take ctx.buffer_len ++ data).length / 64 =
          (data.drop (64 - ctx.buffer_len)).length / 64 + 1 := by
        rw [List.length_append, hp, List.length_drop]
        omega
      have hcomp : compress ctx.state (ctx.buffer.take ctx.buffer_len ++ data) =
          compress ctx.state
            (ctx.buffer.take ctx.buffer_len ++ data.take (64 - ctx.buffer_len)) := by
        apply hc
        rw [List.take_append_eq_append_take, hp,
          List.take_of_length_le (l := ctx.buffer.take ctx.buffer_len) (by rw [hp]; omega),
          List.take_of_length_le (l := ctx.buffer.take ctx.buffer_len ++
            data.take (64 - ctx.buffer_len))
            (by rw [List.length_append, hp, List.length_take]; omega)]
      have hbuf : (ctx.buffer.take ctx.buffer_len ++ data.take (64 - ctx.buffer_len)).length
          = 64 := by
        rw [List.length_append, hp, List.length_take]
        omega
      simp only [if_pos h0, if_neg hA, he, if_true, hdrop, List.append_nil]
      rw [hfuel, update_loop_succ compress _ _ _ hd, hrest, hcomp, update_tail]
      have hr := update_loop_rest_lt compress
        ((data.drop (64 - ctx.buffer_len)).length / 64)
        (compress ctx.state
          (ctx.buffer.take ctx.buffer_len ++ data.take (64 - ctx.buffer_len)))
        (data.drop (64 - ctx.buffer_len)) (by omega)
      generalize sm3_update_loop compress
        ((data.drop (64 - ctx.buffer_len)).length / 64)
        (compress ctx.state
          (ctx.buffer.take ctx.buffer_len ++ data.take (64 - ctx.buffer_len)))
        (data.drop (64 - ctx.buffer_len)) = r at hr ⊢
      obtain ⟨v1, v2⟩ := update_tail_view ((ctx.count + data.length) % 18446744073709551616)
        (ctx.buffer.take ctx.buffer_len ++ data.take (64 - ctx.buffer_len)) r hbuf hr
      exact ⟨rfl, rfl, v1, v2, hr⟩
  · have hz : ctx.buffer_len = 0 := by omega
    simp only [if_neg h0]
    simp only [hz, List.take_zero, List.nil_append]
    rw [update_tail]
    have hr := update_loop_rest_lt compress (data.length / 64) ctx.state data (by omega)
    generalize sm3_update_loop compress (data.length / 64) ctx.state data = r at hr ⊢
    obtain ⟨v1, v2⟩ := update_tail_view ((ctx.count + data.length) % 18446744073709551616)
      ctx.buffer r hB hr
    exact ⟨rfl, rfl, v1, v2, hr⟩

/-- The digest after one `sm3_update` call, from the context before the call. -/
theorem digest_after_update (compress : List Nat → List Nat → List Nat)
    (hc : ∀ s b1 b2, b1.take 64 = b2.take 64 → compress s b1 = compress s b2)
    (ctx : sm3_ctx_t) (data : List Nat) (hB : ctx.buffer.length = 64)
    (hbl : ctx.buffer_len < 64) :
    (sm3_final_with compress (sm3_update_with compress ctx data)).2 =
      final_spec compress
        (sm3_update_loop compress ((ctx.buffer.take ctx.buffer_len ++ data).length / 64)
          ctx.state (ctx.buffer.take ctx.buffer_len ++ data)).1
        ((ctx.count + data.length) % 18446744073709551616)
        (sm3_update_loop compress ((ctx.buffer.take ctx.buffer_len ++ data).length / 64)
          ctx.state (ctx.buffer.take ctx.buffer_len ++ data)).2 := by
  obtain ⟨h1, h2, h3, h4, h5⟩ := update_view compress hc ctx data hB hbl
  rw [final_eq_spec compress _ h4 h5, h1, h2, h3]

/-- Two `sm3_update` calls give the digest of one call on the concatenation. -/
theorem digest_update_update (compress : List Nat → List Nat → List Nat)
    (hc : ∀ s b1 b2, b1.take 64 = b2.take 64 → compress s b1 = compress s b2)
    (ctx : sm3_ctx_t) (a b : List Nat) (hB : ctx.buffer.length = 64)
    (hbl : ctx.buffer_len < 64) :
    (sm3_final_with compress
        (sm3_update_with compress (sm3_update_with compress ctx a) b)).2 =
      (sm3_final_with compress (sm3_update_with compress ctx (a ++ b))).2 := by
  obtain ⟨h1, h2, h3, h4, h5⟩ := update_view compress hc ctx a hB hbl
  rw [digest_after_update compress hc _ b h4 h5,
    digest_after_update compress hc ctx (a ++ b) hB hbl, h1, h2, h3,
    ← update_loop_append compress hc _ ctx.state _ b rfl, List.append_assoc]
  congr 1
  rw [List.length_append]
  omega

/-- C31. SM3 streaming equals one-shot: for all byte strings `a` and `b`, `sm3_init`,
`sm3_update(a)`, `sm3_update(b)` and `sm3_final` give the digest that `sm3_hash` gives on
the concatenation of `a` and `b`; one `sm3_update` of the whole message gives the digest of
`sm3_hash`. -/
theorem sm3_streaming_equals_one_shot (a b : List Nat) :
    (sm3_final (sm3_update (sm3_update sm3_init a) b)).2 = sm3_hash (a ++ b) ∧
    (sm3_final (sm3_update sm3_init a)).2 = sm3_hash a :=
  ⟨digest_update_update sm3_compress sm3_compress_congr sm3_init a b
    (List.length_replicate 64 0) (by decide), rfl⟩

/-- The digest that `sm3_length_extension_attack` writes does not depend on the bytes that
the buffer of its context holds on entry. -/
theorem attack_buffer_irrelevant (buf1 buf2 original_digest : List Nat) (original_length : Nat)
    (extension_data : List Nat) (h1 : buf1.length = 64) (h2 : buf2.length = 64) :
    sm3_length_extension_attack buf1 original_digest original_length extension_data =
      sm3_length_extension_attack buf2 original_digest original_length extension_data := by
  unfold sm3_length_extension_attack sm3_final sm3_update
  simp only
  rw [digest_after_update sm3_compress sm3_compress_congr _ _ h1 (Nat.zero_lt_succ 63),
    digest_after_update sm3_compress sm3_compress_congr _ _ h2 (Nat.zero_lt_succ 63)]
  rfl

set_option maxRecDepth 100000 in
/-- C32. The length extension on the code: for "secret" and "extension", given
`sm3_hash("secret")` and the length 6, `sm3_length_extension_attack` returns 1 and writes
`0303747616f11a1413cd37e71a8fb66fb7dc42db88c62e33428649807d89a154`, while
`sm3_hash("secretextension")` is
`07fb41da08ac8f22db152cae366a68ee0d6056870ebaf5cd03b3c8738ed4f686`; for "test_message" and
an empty extension it writes
`1ed0b337e7dcffd2e40f397c85e87827dd4be83df7cbaf662ae4b13db85a7f29`, while
`sm3_hash("test_message")` is
`199c728656a0af55124f3f9cc3c1cc523b0c2cdf9632df4ebcbaa23c0e296a22`. This holds whatever
the 64 bytes of the uninitialised buffer are. -/
theorem sm3_length_extension_code_output :
    (∀ buf : List Nat, buf.length = 64 →
      sm3_length_extension_attack buf (sm3_hash test_secret) 6 test_extension =
        (1, [0x03, 0x03, 0x74, 0x76, 0x16, 0xf1, 0x1a, 0x14, 0x13, 0xcd, 0x37, 0xe7, 0x1a, 0x8f,
          0xb6, 0x6f, 0xb7, 0xdc, 0x42, 0xdb, 0x88, 0xc6, 0x2e, 0x33, 0x42, 0x86, 0x49, 0x80,
          0x7d, 0x89, 0xa1, 0x54])) ∧
    sm3_hash (test_secret ++ test_extension) =
      [0x07, 0xfb, 0x41, 0xda, 0x08, 0xac, 0x8f, 0x22, 0xdb, 0x15, 0x2c, 0xae, 0x36, 0x6a,
        0x68, 0xee, 0x0d, 0x60, 0x56, 0x87, 0x0e, 0xba, 0xf5, 0xcd, 0x03, 0xb3, 0xc8, 0x73,
        0x8e, 0xd4, 0xf6, 0x86] ∧
    (∀ buf : List Nat, buf.length = 64 →
      sm3_length_extension_attack buf (sm3_hash test_message) 12 [] =
        (1, [0x1e, 0xd0, 0xb3, 0x37, 0xe7, 0xdc, 0xff, 0xd2, 0xe4, 0x0f, 0x39, 0x7c, 0x85, 0xe8,
          0x78, 0x27, 0xdd, 0x4b, 0xe8, 0x3d, 0xf7, 0xcb, 0xaf, 0x66, 0x2a, 0xe4, 0xb1, 0x3d,
          0xb8, 0x5a, 0x7f, 0x29])) ∧
    sm3_hash test_message =
      [0x19, 0x9c, 0x72, 0x86, 0x56, 0xa0, 0xaf, 0x55, 0x12, 0x4f, 0x3f, 0x9c, 0xc3, 0xc1,
        0xcc, 0x52, 0x3b, 0x0c, 0x2c, 0xdf, 0x96, 0x32, 0xdf, 0x4e, 0xbc, 0xba, 0xa2, 0x3c,
        0x0e, 0x29, 0x6a, 0x22] := by
  refine ⟨?_, by decide!, ?_, by decide!⟩
  · intro buf hb
    rw [attack_buffer_irrelevant buf (List.replicate 64 0) _ _ _ hb (List.length_replicate 64 0)]
    decide!
  · intro buf hb
    rw [attack_buffer_irrelevant buf (List.replicate 64 0) _ _ _ hb (List.length_replicate 64 0)]
    decide!

end SM3

namespace Merkle

/-! ## `log2_ceil` and the Merkle tree -/

/-- The loop of `log2_ceil` counts the halvings of `n` down to 1: it adds to `log` the
greatest `d` with `2^d ≤ n`. -/
theorem log2_ceil_loop_spec (fuel n log : Nat) (h1 : 1 ≤ n) (hf : n < 2 ^ fuel) :
    ∃ d, log2_ceil_loop fuel n log = log + d ∧ 2 ^ d ≤ n ∧ n < 2 ^ (d + 1) := by
  induction fuel generalizing n log with
  | zero =>
    simp at hf
    omega
  | succ fuel ih =>
    simp only [log2_ceil_loop]
    by_cases c : n > 1
    · rw [if_pos c, Nat.shiftRight_eq_div_pow, Nat.pow_one]
      have hp : 2 ^ (fuel + 1) = 2 * 2 ^ fuel := by rw [Nat.pow_succ]; omega
      obtain ⟨d, e, hlo, hhi⟩ := ih (n / 2) (log + 1) (by omega) (by omega)
      refine ⟨d + 1, by rw [e]; omega, ?_, ?_⟩
      · rw [Nat.pow_succ]
        omega
      · rw [Nat.pow_succ]
        omega
    · rw [if_neg c]
      exact ⟨0, rfl, by omega, by omega⟩

/-- For a 64-bit `n` of 1 or more, `log2_ceil(n)` is the greatest `k` with `2^k ≤ n`. -/
theorem log2_ceil_floor (n : Nat) (h1 : 1 ≤ n) (h64 : n < 2 ^ 64) :
    2 ^ log2_ceil n ≤ n ∧ n < 2 ^ (log2_ceil n + 1) := by
  unfold log2_ceil
  by_cases c : n ≤ 1
  · rw [if_pos c]
    have e : n = 1 := by omega
    subst e
    decide
  · rw [if_neg c]
    obtain ⟨d, e, hlo, hhi⟩ := log2_ceil_loop_spec 64 n 0 h1 h64
    rw [e, Nat.zero_add]
    exact ⟨hlo, hhi⟩

/-- C40. The height on the code: `log2_ceil(3)` is 1, and so are
`merkle_tree_get_height(3)` and the height that `merkle_tree_create(3)` stores, while the
least `k` with `2^k ≥ 3` is 2; for every 64-bit `n ≥ 1` the function returns the greatest
`k` with `2^k ≤ n`, which is below the least `k` with `2^k ≥ n` unless `n` is a power of
two. -/
theorem log2_ceil_is_floor :
    log2_ceil 3 = 1 ∧ merkle_tree_get_height 3 = 1 ∧
    merkle_tree_create 3 = some { leaf_count := 3, height := 1, levels := [] } ∧
    2 ^ 1 < 3 ∧ 3 ≤ 2 ^ 2 ∧
    (∀ n, 1 ≤ n → n < 2 ^ 64 → 2 ^ log2_ceil n ≤ n ∧ n < 2 ^ (log2_ceil n + 1)) ∧
    (∀ n, 1 ≤ n → n < 2 ^ 64 → n ≠ 2 ^ log2_ceil n → ¬ (n ≤ 2 ^ log2_ceil n)) := by
  refine ⟨by decide, by decide, by decide, by decide, by decide, log2_ceil_floor, ?_⟩
  intro n h1 h64 hne hle
  have := (log2_ceil_floor n h1 h64).1
  omega

set_option maxRecDepth 100000 in
theorem three_leaf_tree_eq :
    three_leaf_tree =
      { leaf_count := 3, height := 1,
        levels := [[List.replicate 32 1, List.replicate 32 2, List.replicate 32 3],
          [[0xcb, 0x1b, 0xdd, 0x54, 0xdc, 0x15, 0x19, 0x65, 0x52, 0x2b, 0xed, 0xcb, 0x1e, 0x2d,
            0x3b, 0x18, 0x98, 0x21, 0x0b, 0x3e, 0xd4, 0x28, 0xa9, 0xd0, 0xac, 0x34, 0xce, 0xbe,
            0x85, 0x62, 0x61, 0x84], List.replicate 32 3]] } := by
  decide!

set_option maxRecDepth 100000 in
/-- C33. The existence proof of leaf 2 of a tree of 3 leaves on the code:
`merkle_tree_create(3)` stores the height 1, `merkle_tree_build` makes one level of two
nodes above the leaves, the second with the hash of leaf 2 copied, and takes the first as
root; `merkle_proof_create(tree, 2)` returns a path of length 1 with the hash of leaf 2
itself and direction 1; and `merkle_proof_verify` on the hash of leaf 2, that proof and the
root hash returns 0. -/
theorem merkle_proof_of_odd_leaf_rejected :
    merkle_tree_create 3 = some { leaf_count := 3, height := 1, levels := [] } ∧
    three_leaf_tree =
      merkle_tree_build { leaf_count := 3, height := 1, levels := [] } three_leaves ∧
    three_leaf_tree.levels.map List.length = [3, 2] ∧
    (three_leaf_tree.levels.getD 1 []).getD 1 [] = List.replicate 32 3 ∧
    merkle_tree_get_leaf three_leaf_tree 2 = List.replicate 32 3 ∧
    merkle_proof_create three_leaf_tree 2 =
      some { path_length := 1, hashes := [List.replicate 32 3], directions := [1] } ∧
    merkle_proof_verify (merkle_tree_get_leaf three_leaf_tree 2)
      { path_length := 1, hashes := [List.replicate 32 3], directions := [1] }
      (merkle_root_hash three_leaf_tree) = 0 := by
  refine ⟨by decide, by rfl, ?_, ?_, ?_, ?_, ?_⟩ <;> rw [three_leaf_tree_eq] <;> decide!

end Merkle
